import Mathlib

/-!
# Turing machine simulator: tape memory, execution engine, parser and compiler

A shallow embedding of `src/core.c`, of the dictionaries, the parser and the
compiler of `src/interpreter.c`, and of the helpers of `src/util.c` they use.

Modelling conventions.

* A heap array is a `List`; reading `arr[i]` is `arr.getD i d`, so an index past
  the end of the array (undefined behaviour in C) reads the default `d`.
* A tape block (`NEWARR(uint64_t, TM_BLOCK_SIZE)`) is a function on
  `Fin TM_BLOCK_SIZE`: it always has exactly `TM_BLOCK_SIZE` cells.
* `bkmem` / `fwmem` are the lists of blocks; the counters `bl` / `br` of the C
  struct always equal the number of blocks in these lists, so they are the
  lengths of the lists.
* Positions (`int64_t`) are `Int`, symbols and states (`uint64_t`) are `Nat`.
  The head position and the block bounds can only leave the `int64_t` range
  after about `2^59` blocks have been allocated, so their arithmetic is not
  wrapped.  Arithmetic on positions that come from the caller or from the tape
  description is computed in 64 bits, as the C code computes it: the
  difference `pos - start` of `TMTape_undefined` and `TMTape_step`, the bounds
  `end + 1` and `pos - 1` and the rotation sums of the resolving loop, and the
  start `end + 1` of the left pattern are wrapped to `int64_t` (`toI64`); the
  arithmetic that mixes `int64_t` with `size_t` (the loop bound of
  `TMTape_readmem` / `TMTape_writemem`) and the `uint64_t` table index of
  `TM_step` are computed modulo `2^64` (`size_t` is the 64-bit type of the
  LP64 targets).
* `malloc` / `realloc` are assumed to succeed (the code aborts otherwise).
* A C function that mutates `*tape` returns the new tape.
* The parser is modelled from the tokens on: a rule line is the five strings
  `sscanf` extracts, a tape line is its form with the symbols `strtok` yields.
  An `exit(1)` of the parser, a failed `assert` of `TM_define` and a read of
  uninitialised memory end the run: the functions return `none` or an error.
* `list_del` unlinks and frees a node; the resolving loop of the tape parser
  then takes `node->next` from that freed node.  Like the read of
  uninitialised memory, this read ends the run with an error.
-/

namespace TMSim

/-! ## Data model (`core.h`) -/

/-- The number of cells in a block: `#define TM_BLOCK_SIZE 16`. -/
abbrev TM_BLOCK_SIZE : Nat := 16

/-- A block of `TM_BLOCK_SIZE` cells. -/
abbrev Block : Type := Fin TM_BLOCK_SIZE → Nat

/-- The default block used when a block index is past the end of a block list. -/
def Block.zero : Block := fun _ => 0

/-- The store `block[j] = v`. -/
def Block.set (b : Block) (j : Fin TM_BLOCK_SIZE) (v : Nat) : Block :=
  fun x => if x = j then v else b x

/-- The cell index `k % TM_BLOCK_SIZE`. -/
def cellIx (k : Nat) : Fin TM_BLOCK_SIZE :=
  ⟨k % TM_BLOCK_SIZE, Nat.mod_lt k (by decide)⟩

/-- The load `mem[k / TM_BLOCK_SIZE][k % TM_BLOCK_SIZE]`. -/
def cellRead (mem : List Block) (k : Nat) : Nat :=
  (mem.getD (k / TM_BLOCK_SIZE) Block.zero) (cellIx k)

/-- The store `mem[k / TM_BLOCK_SIZE][k % TM_BLOCK_SIZE] = sym`. -/
def cellWrite (mem : List Block) (k : Nat) (sym : Nat) : List Block :=
  mem.set (k / TM_BLOCK_SIZE)
    (Block.set (mem.getD (k / TM_BLOCK_SIZE) Block.zero) (cellIx k) sym)

/-- The struct `TM`: alphabet size, number of states, final flags and the three
transition tables, indexed by `(state - 1) * n + symbol`. -/
structure TM where
  n : Nat
  q : Nat
  ok : List Bool
  s : List Nat
  a : List Nat
  m : List Bool

/-- The struct `TMTapePattern`. -/
structure TMTapePattern where
  start : Int
  n : Nat
  data : List Nat

/-- The struct `TMTape`; `bl` and `br` are the lengths of `bkmem` and `fwmem`. -/
structure TMTape where
  bkmem : List Block
  fwmem : List Block
  pos : Int
  state : Nat
  fast : Bool
  left : TMTapePattern
  right : TMTapePattern

/-- The count of negative blocks. -/
def TMTape.bl (t : TMTape) : Int := t.bkmem.length

/-- The count of positive blocks. -/
def TMTape.br (t : TMTape) : Int := t.fwmem.length

/-! ## `util.c` -/

/-- The function `modulo`: `((a % n) + n) % n` with the truncating `%` of C. -/
def modulo (a n : Int) : Int := Int.tmod (Int.tmod a n + n) n

/-- The conversion of an `int64_t` to `uint64_t` / `size_t`. -/
def toU64 (i : Int) : Nat := (i % 2 ^ 64).toNat

/-- The value of a sum or difference computed in `int64_t`, or computed in
`uint64_t` and converted to `int64_t`: the representative of `x` modulo `2^64`
in `-2^63 .. 2^63 - 1`. -/
def toI64 (x : Int) : Int := (x + 2 ^ 63) % 2 ^ 64 - 2 ^ 63

/-! ## Tape memory (`core.c`) -/

/-- The value `pat.data[modulo(pos - pat.start, pat.n)]`; the difference is an
`int64_t`. -/
def patternAt (pat : TMTapePattern) (pos : Int) : Nat :=
  pat.data.getD (modulo (toI64 (pos - pat.start)) pat.n).toNat 0

/-- The function `TMTape_undefined`. -/
def TMTape_undefined (t : TMTape) (pos : Int) : Nat :=
  if t.left.n ≠ 0 ∧ pos < t.left.start then patternAt t.left pos
  else if t.right.n ≠ 0 ∧ pos ≥ t.right.start then patternAt t.right pos
  else 0

/-- The function `TMTape_read_at`. -/
def TMTape_read_at (t : TMTape) (pos : Int) : Nat :=
  if pos < -t.bl * TM_BLOCK_SIZE ∨ pos ≥ t.br * TM_BLOCK_SIZE then
    TMTape_undefined t pos
  else if pos < 0 then cellRead t.bkmem (-1 - pos).toNat
  else cellRead t.fwmem pos.toNat

/-- The function `TMTape_alloc`: the new block is filled from `TMTape_read_at`
on the tape as it is before the block is linked in. -/
def TMTape_alloc (t : TMTape) (right : Bool) : TMTape :=
  let block : Block := fun i =>
    if right then TMTape_read_at t (t.br * TM_BLOCK_SIZE + i.val)
    else TMTape_read_at t (-(t.bl + 1) * TM_BLOCK_SIZE + i.val)
  if right then { t with fwmem := t.fwmem ++ [block] }
  else { t with bkmem := t.bkmem ++ [block] }

/-- The loop `while (pos < -tape->bl * TM_BLOCK_SIZE) TMTape_alloc(tape, false);`
run for at most `fuel` iterations. -/
def growLeft : Nat → TMTape → Int → TMTape
  | 0, t, _ => t
  | fuel + 1, t, pos =>
    if pos < -t.bl * TM_BLOCK_SIZE then growLeft fuel (TMTape_alloc t false) pos
    else t

/-- The loop `while (pos >= tape->br * TM_BLOCK_SIZE) TMTape_alloc(tape, true);`
run for at most `fuel` iterations. -/
def growRight : Nat → TMTape → Int → TMTape
  | 0, t, _ => t
  | fuel + 1, t, pos =>
    if pos ≥ t.br * TM_BLOCK_SIZE then growRight fuel (TMTape_alloc t true) pos
    else t

/-- The function `TMTape_write_at`.  Every iteration of either loop extends the
span by a block, so `(-pos).toNat` and `(pos + 1).toNat` iterations are enough
for the loops to leave through their conditions (`growLeft_covers`,
`growRight_covers`). -/
def TMTape_write_at (t : TMTape) (pos : Int) (sym : Nat) : TMTape :=
  let t1 := growLeft (-pos).toNat t pos
  let t2 := growRight (pos + 1).toNat t1 pos
  if pos < 0 then { t2 with bkmem := cellWrite t2.bkmem (-1 - pos).toNat sym }
  else { t2 with fwmem := cellWrite t2.fwmem pos.toNat sym }

/-- The function `TMTape_read`: the cell under the head, without a span check. -/
def TMTape_read (t : TMTape) : Nat :=
  if t.pos < 0 then cellRead t.bkmem (-1 - t.pos).toNat
  else cellRead t.fwmem t.pos.toNat

/-- The function `TMTape_write`: store under the head, without a span check. -/
def TMTape_write (t : TMTape) (sym : Nat) : TMTape :=
  if t.pos < 0 then { t with bkmem := cellWrite t.bkmem (-1 - t.pos).toNat sym }
  else { t with fwmem := cellWrite t.fwmem t.pos.toNat sym }

/-- The scan of `TMTape_step` over the `TM_BLOCK_SIZE` positions from `lo` on:
`true` when the loop runs to its end, `false` when it hits the `return`.  The
position `i` makes the loop return when
`(!pat.n && read_at(i)) || (pat.n && read_at(i) != pat.data[modulo(i - pat.start, pat.n)])`. -/
def edgeScan (t : TMTape) (pat : TMTapePattern) (lo : Int) : Bool :=
  (List.range TM_BLOCK_SIZE).all fun k =>
    let i : Int := lo + k
    !(decide ((pat.n = 0 ∧ TMTape_read_at t i ≠ 0) ∨
        (pat.n ≠ 0 ∧ TMTape_read_at t i ≠ patternAt pat i)))

/-- The function `TMTape_step`.  Moving right scans the outermost backward block
against `tape->right`, moving left scans the outermost forward block against
`tape->left`, as the source does. -/
def TMTape_step (t : TMTape) (right : Bool) : TMTape :=
  if right then
    let t1 := if t.pos = t.br * TM_BLOCK_SIZE - 1 then TMTape_alloc t true else t
    let t2 := { t1 with pos := t1.pos + 1 }
    if t2.fast = false ∧ t2.bl > 0 ∧ t2.pos ≥ -(t2.bl - 1) * (TM_BLOCK_SIZE : Int) then
      if edgeScan t2 t2.right (-t2.bl * TM_BLOCK_SIZE) then
        { t2 with bkmem := t2.bkmem.dropLast }
      else t2
    else t2
  else
    let t1 := if -t.pos = t.bl * TM_BLOCK_SIZE then TMTape_alloc t false else t
    let t2 := { t1 with pos := t1.pos - 1 }
    if t2.fast = false ∧ t2.br > 0 ∧ t2.pos ≤ (t2.br - 1) * (TM_BLOCK_SIZE : Int) - 1 then
      if edgeScan t2 t2.left ((t2.br - 1) * TM_BLOCK_SIZE) then
        { t2 with fwmem := t2.fwmem.dropLast }
      else t2
    else t2

/-- The loop of `TMTape_readmem`, started at `i`, for at most `fuel` iterations:
`for (...; i < pos + n; i++) mem[i - pos] = TMTape_read_at(tape, i);`.  The
bound `pos + n` is computed in `size_t` and `i` is converted to `size_t` for
the comparison. -/
def readmemLoop (t : TMTape) (pos : Int) (n : Nat) : Nat → Int → List Nat → List Nat
  | 0, _, mem => mem
  | fuel + 1, i, mem =>
    if toU64 i < (toU64 pos + n) % 2 ^ 64 then
      readmemLoop t pos n fuel (i + 1) (mem.set (i - pos).toNat (TMTape_read_at t i))
    else mem

/-- The function `TMTape_readmem`: returns the buffer `mem` after the call.  The
loop runs at most `n` times. -/
def TMTape_readmem (t : TMTape) (pos : Int) (n : Nat) (mem : List Nat) : List Nat :=
  readmemLoop t pos n n pos mem

/-- The loop of `TMTape_writemem`, started at `i`, for at most `fuel` iterations:
`for (...; i < pos + n; i++) TMTape_write_at(tape, i, mem[i - pos]);`. -/
def writememLoop (pos : Int) (n : Nat) (mem : List Nat) : Nat → Int → TMTape → TMTape
  | 0, _, t => t
  | fuel + 1, i, t =>
    if toU64 i < (toU64 pos + n) % 2 ^ 64 then
      writememLoop pos n mem fuel (i + 1) (TMTape_write_at t i (mem.getD (i - pos).toNat 0))
    else t

/-- The function `TMTape_writemem`.  The loop runs at most `n` times. -/
def TMTape_writemem (t : TMTape) (pos : Int) (n : Nat) (mem : List Nat) : TMTape :=
  writememLoop pos n mem n pos t

/-- The function `TMTape_init`: no blocks, head 0, state 1, both patterns
zeroed (`(TMTapePattern){ 0 }`). -/
def TMTape_init (fast : Bool) : TMTape := ⟨[], [], 0, 1, fast, ⟨0, 0, []⟩, ⟨0, 0, []⟩⟩

/-- The function `TMTape_prepare`: drop all blocks, reset head and state, then
`TMTape_alloc(tape, true)`. -/
def TMTape_prepare (t : TMTape) : TMTape :=
  TMTape_alloc { t with bkmem := [], fwmem := [], pos := 0, state := 1 } true

/-- The assignment of the three fields of `tape->left`, as `TMProgram_compile`
does for a left-infinite tape entry. -/
def setLeft (t : TMTape) (pat : TMTapePattern) : TMTape :=
  ⟨t.bkmem, t.fwmem, t.pos, t.state, t.fast, pat, t.right⟩

/-! ## Execution engine (`core.c`) -/

/-- The test `!tape->state || machine->ok[tape->state - 1]`. -/
def halted (m : TM) (t : TMTape) : Bool :=
  t.state == 0 || m.ok.getD (t.state - 1) false

/-- The table index `(tape->state - 1) * machine->n + sym`, in `uint64_t`. -/
def tableIndex (m : TM) (state sym : Nat) : Nat :=
  ((state - 1) * m.n + sym) % 2 ^ 64

/-- The function `TM_step`: the returned state and the tape after the call. -/
def TM_step (m : TM) (t : TMTape) : Nat × TMTape :=
  if halted m t then (t.state, t)
  else
    let sym := TMTape_read t
    let new := m.a.getD (tableIndex m t.state sym) 0
    let right := m.m.getD (tableIndex m t.state sym) false
    let t1 := { t with state := m.s.getD (tableIndex m t.state sym) 0 }
    let t2 := TMTape_write t1 new
    let t3 := TMTape_step t2 right
    (t3.state, t3)

/-- The loop of `TM_run_restricted`,
`while (max-- && tape->state && !machine->ok[tape->state - 1]) TM_step(machine, tape);`,
together with the number of calls of `TM_step` it has made. -/
def runRestrictedLoop (m : TM) : Nat → TMTape → Nat → TMTape × Nat
  | 0, t, calls => (t, calls)
  | max + 1, t, calls =>
    if halted m t then (t, calls)
    else runRestrictedLoop m max (TM_step m t).2 (calls + 1)

/-- The function `TM_run_restricted`: the returned state and the tape after the
call. -/
def TM_run_restricted (m : TM) (t : TMTape) (max : Nat) : Nat × TMTape :=
  let r := (runRestrictedLoop m max t 0).1
  (r.state, r)

/-- The tape after one call of `TM_step`. -/
def stepTape (m : TM) (t : TMTape) : TMTape := (TM_step m t).2

/-- The loop of `TM_run`,
`while (tape->state && !machine->ok[tape->state - 1]) TM_step(machine, tape);`,
run for at most `fuel` tests of its condition: `none` when the fuel runs out
before the condition fails. -/
def runLoop (m : TM) : Nat → TMTape → Option TMTape
  | 0, _ => none
  | fuel + 1, t => if halted m t then some t else runLoop m fuel (TM_step m t).2

/-- The function `TM_run` with a bound on the number of loop tests: the returned
state and the tape after the call. -/
def TM_run (m : TM) (fuel : Nat) (t : TMTape) : Option (Nat × TMTape) :=
  (runLoop m fuel t).map fun r => (r.state, r)

/-! ## Machine tables (`core.c`, `util.c`) -/

/-- The function `zalloc2`: `n` flags, all false. -/
def zalloc2 (n : Nat) : List Bool := List.replicate n false

/-- The function `zalloc64`: `n` words, all zero. -/
def zalloc64 (n : Nat) : List Nat := List.replicate n 0

/-- The function `TM_init`. -/
def TM_init (n q : Nat) : TM :=
  ⟨n, q, zalloc2 q, zalloc64 (n * q), zalloc64 (n * q), zalloc2 (n * q)⟩

/-- The function `TM_define`: `none` when `assert(s_from)` fails, otherwise the
three stores at index `(s_from - 1) * machine->n + a_from`. -/
def TM_define (m : TM) (s_from a_from s_to a_to : Nat) (motion : Bool) : Option TM :=
  if s_from = 0 then none
  else some { m with
    s := m.s.set (tableIndex m s_from a_from) s_to
    a := m.a.set (tableIndex m s_from a_from) a_to
    m := m.m.set (tableIndex m s_from a_from) motion }

/-- The function `TM_define_forall`:
`for (a = 0; a < machine->n; a++) TM_define(machine, s_from, a, s_to, a_to, motion);`. -/
def TM_define_forall (m : TM) (s_from s_to a_to : Nat) (motion : Bool) : Option TM :=
  (List.range m.n).foldlM (fun mm a => TM_define mm s_from a s_to a_to motion) m

/-- The function `TM_define_forall_readonly`:
`for (a = 0; a < machine->n; a++) TM_define(machine, s_from, a, s_to, a, motion);`. -/
def TM_define_forall_readonly (m : TM) (s_from s_to : Nat) (motion : Bool) : Option TM :=
  (List.range m.n).foldlM (fun mm a => TM_define mm s_from a s_to a motion) m

/-! ## Dictionaries, tokens and rules (`interpreter.h`, `interpreter.c`) -/

/-- The struct `TMDict`: the registered tokens; the count `n` is the length of
the token array and the code of `tok[i]` is `i + 1`. -/
structure TMDict where
  tok : List String

/-- The count of registered tokens. -/
def TMDict.n (d : TMDict) : Nat := d.tok.length

/-- The function `TMDict_init`. -/
def TMDict_init : TMDict := ⟨[]⟩

/-- The function `TMDict_put`: the code of the first token equal to `str`, or the
token is appended and gets the next code.  Returns the code and the dictionary
after the call. -/
def TMDict_put (d : TMDict) (str : String) : Nat × TMDict :=
  if d.tok.indexOf str < d.tok.length then (d.tok.indexOf str + 1, d)
  else (d.tok.length + 1, ⟨d.tok ++ [str]⟩)

/-- The function `TMDict_get`. -/
def TMDict_get (d : TMDict) (str : String) : Nat :=
  if str = "null" then 0
  else if d.tok.indexOf str < d.tok.length then d.tok.indexOf str + 1
  else 0

/-- The function `TMDict_at`. -/
def TMDict_at (d : TMDict) (k : Nat) : Option String :=
  if 0 < k ∧ k ≤ d.n then d.tok.get? (k - 1) else none

/-- The struct `TMRuleToken`. -/
structure TMRuleToken where
  any : Bool
  null : Bool
  str : String

/-- The function `TMRuleToken_init`. -/
def TMRuleToken_init (str : String) : TMRuleToken :=
  ⟨str == "*" || str == "_", str == "null", str⟩

/-- The struct `TMRule`. -/
structure TMRule where
  s_from : TMRuleToken
  a_from : TMRuleToken
  s_to : TMRuleToken
  a_to : TMRuleToken
  motion : Bool

/-- The characters `allowed` of `check_name`. -/
def allowed : List Char := "-_.~+-^<>[]\x7b\x7d()".toList

/-- The function `check_name` of `util.c`.  The test `isalnum` is taken as in the
`C` locale and the UTF-8 locales: the ASCII letters and digits. -/
def check_name (name : String) : Bool :=
  if name = "*" ∨ name = "_" ∨ name = "null" then true
  else if name = "(null)" then false
  else name.toList.all fun c => c.isAlphanum || allowed.contains c

/-- The rule branch of `TMProgram_parse` for a line that `sscanf` has split into
the five tokens `s_from a_from -> s_to a_to motion`: `none` when the parser
prints `Illegal rule` or `Invalid name detected` and exits, otherwise the rule
appended to `rules`. -/
def parseRule (s_from_s a_from_s s_to_s a_to_s motion_s : String) : Option TMRule :=
  if s_to_s = "*"
      ∨ s_from_s = "null"
      ∨ (s_from_s = "*" ∧ s_to_s = "_")
      ∨ (s_from_s = "_" ∧ s_to_s ≠ "_")
      ∨ a_to_s = "*"
      ∨ (a_from_s = "*" ∧ a_to_s = "_")
      ∨ (a_from_s = "_" ∧ a_to_s ≠ "_")
      ∨ (motion_s ≠ "l" ∧ motion_s ≠ "r" ∧ motion_s ≠ "<" ∧ motion_s ≠ ">") then none
  else if !check_name s_from_s || !check_name s_to_s then none
  else some
    { s_from := TMRuleToken_init s_from_s
      a_from := TMRuleToken_init a_from_s
      s_to := TMRuleToken_init s_to_s
      a_to := TMRuleToken_init a_to_s
      motion := motion_s == "r" || motion_s == ">" }

/-- The body of the rule loop of `TMProgram_compile` for one rule: the sixteen
combinations of the `any` flags of the four tokens. -/
def compileRule (states chars : TMDict) (r : TMRule) (m : TM) : Option TM :=
  if r.a_from.any then
    if r.a_to.any then
      if r.s_from.any then
        if r.s_to.any then
          (List.range states.n).foldlM
            (fun mm i => TM_define_forall_readonly mm (i + 1) (i + 1) r.motion) m
        else
          (List.range states.n).foldlM
            (fun mm i => TM_define_forall_readonly mm (i + 1)
              (TMDict_get states r.s_to.str) r.motion) m
      else
        if r.s_to.any then
          TM_define_forall_readonly m (TMDict_get states r.s_from.str)
            (TMDict_get states r.s_from.str) r.motion
        else
          TM_define_forall_readonly m (TMDict_get states r.s_from.str)
            (TMDict_get states r.s_to.str) r.motion
    else
      if r.s_from.any then
        if r.s_to.any then
          (List.range states.n).foldlM
            (fun mm i => TM_define_forall mm (i + 1) (i + 1)
              (TMDict_get chars r.a_to.str) r.motion) m
        else
          (List.range states.n).foldlM
            (fun mm i => TM_define_forall mm (i + 1) (TMDict_get states r.s_to.str)
              (TMDict_get chars r.a_to.str) r.motion) m
      else
        if r.s_to.any then
          TM_define_forall m (TMDict_get states r.s_from.str)
            (TMDict_get states r.s_from.str) (TMDict_get chars r.a_to.str) r.motion
        else
          TM_define_forall m (TMDict_get states r.s_from.str)
            (TMDict_get states r.s_to.str) (TMDict_get chars r.a_to.str) r.motion
  else
    if r.a_to.any then
      if r.s_from.any then
        if r.s_to.any then
          (List.range states.n).foldlM
            (fun mm i => TM_define mm (i + 1) (TMDict_get chars r.a_from.str) (i + 1)
              (TMDict_get chars r.a_from.str) r.motion) m
        else
          (List.range states.n).foldlM
            (fun mm i => TM_define mm (i + 1) (TMDict_get chars r.a_from.str)
              (TMDict_get states r.s_to.str) (TMDict_get chars r.a_from.str) r.motion) m
      else
        if r.s_to.any then
          TM_define m (TMDict_get states r.s_from.str) (TMDict_get chars r.a_from.str)
            (TMDict_get states r.s_from.str) (TMDict_get chars r.a_from.str) r.motion
        else
          TM_define m (TMDict_get states r.s_from.str) (TMDict_get chars r.a_from.str)
            (TMDict_get states r.s_to.str) (TMDict_get chars r.a_from.str) r.motion
    else
      if r.s_from.any then
        if r.s_to.any then
          (List.range states.n).foldlM
            (fun mm i => TM_define mm (i + 1) (TMDict_get chars r.a_from.str) (i + 1)
              (TMDict_get chars r.a_to.str) r.motion) m
        else
          (List.range states.n).foldlM
            (fun mm i => TM_define mm (i + 1) (TMDict_get chars r.a_from.str)
              (TMDict_get states r.s_to.str) (TMDict_get chars r.a_to.str) r.motion) m
      else
        if r.s_to.any then
          TM_define m (TMDict_get states r.s_from.str) (TMDict_get chars r.a_from.str)
            (TMDict_get states r.s_from.str) (TMDict_get chars r.a_to.str) r.motion
        else
          TM_define m (TMDict_get states r.s_from.str) (TMDict_get chars r.a_from.str)
            (TMDict_get states r.s_to.str) (TMDict_get chars r.a_to.str) r.motion

/-! ## Tape entries and their resolution (`interpreter.h`, `interpreter.c`) -/

/-- The struct `TMProgramTapeEntry`; the count `n` is the length of `data`, and
the field `end` is called `end_`. -/
structure TMProgramTapeEntry where
  pos : Int
  end_ : Int
  l_inf : Bool
  r_inf : Bool
  shift : Nat
  data : List String
  deriving DecidableEq

/-- The count of symbols of an entry. -/
def TMProgramTapeEntry.n (e : TMProgramTapeEntry) : Nat := e.data.length

/-- A line of the tape description as `sscanf` and `strtok` split it: the form of
its head and the symbols after the colon. -/
inductive TapeLine where
  /-- The line `pos: d0 d1 ...`. -/
  | insertion (pos : Int) (data : List String)
  /-- The line `pos~end: d0 d1 ...`. -/
  | pattern (pos end_ : Int) (data : List String)
  /-- The line `pos~inf: d0 d1 ...`. -/
  | rightInf (pos : Int) (data : List String)
  /-- The line `inf~end: d0 d1 ...`. -/
  | leftInf (end_ : Int) (data : List String)

/-- The ways `TMProgram_parse_tape_file` leaves its defined behaviour: the two
`exit(1)` of the parser, the read of the fields of the entry that the split
branch inserts without initialising it, and the read of the list node that a
delete branch has freed. -/
inductive ParseError where
  /-- The exit `Starting index cannot be larger than ending one.` -/
  | endBeforeStart
  /-- The exit `Empty patterns are not allowed.` -/
  | emptyPattern
  /-- The loop visits the entry `NEWSTR(TMProgramTapeEntry)` that
  `list_insert` has just linked in, whose fields were never written. -/
  | uninitialisedEntry
  /-- The loop takes `node->next` from the node that `list_del` has just
  freed. -/
  | freedNode
  deriving DecidableEq

/-- The entry `TMProgram_parse_tape_file` pushes for a line.  The locals `pos` and
`end` start as 0 and keep that value when the form of the line does not set
them; for an insertion `end` is `pos - 1` plus the number of symbols. -/
def newEntry : TapeLine → Except ParseError TMProgramTapeEntry
  | .insertion pos data => .ok ⟨pos, pos - 1 + data.length, false, false, 0, data⟩
  | .pattern pos end_ data =>
    if end_ < pos then .error .endBeforeStart
    else if data.length = 0 then .error .emptyPattern
    else .ok ⟨pos, end_, false, false, 0, data⟩
  | .rightInf pos data =>
    if data.length = 0 then .error .emptyPattern
    else .ok ⟨pos, 0, false, true, 0, data⟩
  | .leftInf end_ data =>
    if data.length = 0 then .error .emptyPattern
    else .ok ⟨0, end_, true, false, 0, data⟩

/-- What one iteration of the resolving loop does with the older entry `that`. -/
inductive Resolved where
  /-- The entry stays in the list with these fields. -/
  | keep (that : TMProgramTapeEntry)
  /-- The entry is removed by `list_del`. -/
  | del
  /-- The split branch: `that` is cut down to the part before the new entry, the
  entry `cut` for the part after it is built, and `list_insert` links in a fresh
  `NEWSTR(TMProgramTapeEntry)` instead of `cut`. -/
  | split (that cut : TMProgramTapeEntry)

/-- The body of the resolving loop of `TMProgram_parse_tape_file` for the new
entry `new` (its fields are the locals `pos`, `end`, `l_inf`, `r_inf`) and one
older entry `that`.  The bounds `end + 1` and `pos - 1` are `int64_t` sums; a
rotation sum such as `that->shift + end + 1 - that->pos` is formed in `uint64_t`
and converted to `int64_t` when it is passed to `modulo`. -/
def resolveStep (new that : TMProgramTapeEntry) : Resolved :=
  if new.l_inf then
    if that.r_inf then
      if that.pos ≤ new.end_ then
        .keep { that with
          shift := (modulo (toI64 (that.shift + new.end_ + 1 - that.pos)) that.n).toNat
          pos := toI64 (new.end_ + 1) }
      else .keep that
    else if that.end_ ≤ new.end_ then .del
    else if that.l_inf then
      if that.end_ > new.end_ then
        .keep { that with
          shift := (modulo (toI64 (that.shift + new.end_ + 1 - that.end_ - 1)) that.n).toNat
          pos := toI64 (new.end_ + 1)
          l_inf := false }
      else .keep that
    else if that.pos ≤ new.end_ then
      .keep { that with
        shift := (modulo (toI64 (that.shift + new.end_ + 1 - that.pos)) that.n).toNat
        pos := toI64 (new.end_ + 1) }
    else .keep that
  else if new.r_inf then
    if that.l_inf then
      if that.end_ ≥ new.pos then
        .keep { that with
          shift := (modulo (toI64 (that.shift + new.pos - 1 - that.end_)) that.n).toNat
          end_ := toI64 (new.pos - 1) }
      else .keep that
    else if that.pos ≥ new.pos then .del
    else if that.r_inf then
      if that.pos < new.pos then .keep { that with end_ := toI64 (new.pos - 1), r_inf := false }
      else .keep that
    else if that.end_ ≥ new.pos then
      -- the source tests `that->l_inf` here, which is false on this path
      .keep { that with end_ := toI64 (new.pos - 1) }
    else .keep that
  else if that.l_inf = false ∧ that.r_inf = false then
    if that.end_ ≥ new.pos ∧ that.end_ ≤ new.end_ then
      if that.pos < new.pos then .keep { that with end_ := toI64 (new.pos - 1) }
      else .del
    else if that.end_ > new.end_ then
      if that.pos ≤ new.end_ ∧ that.pos ≥ new.pos then
        .keep { that with
          shift := (modulo (toI64 (that.shift + new.end_ + 1 - that.pos)) that.n).toNat
          pos := toI64 (new.end_ + 1) }
      else if that.pos < new.pos then
        .split { that with end_ := toI64 (new.pos - 1) }
          ⟨toI64 (new.end_ + 1), that.end_, false, false,
            (modulo (toI64 (that.shift + new.end_ + 1 - that.pos)) that.n).toNat, that.data⟩
      else .keep that
    else .keep that
  else .keep that

/-- The resolving loop over the entries that precede the new one.  After
`list_del` the loop takes `node->next` from the node that `list_del` has just
freed: the model stops there.  After a split the next node is the uninitialised
entry, whose fields the loop reads: the model stops there. -/
def resolveLoop (new : TMProgramTapeEntry) :
    List TMProgramTapeEntry → Except ParseError (List TMProgramTapeEntry)
  | [] => .ok []
  | that :: rest =>
    match resolveStep new that with
    | .keep e =>
      match resolveLoop new rest with
      | .ok es => .ok (e :: es)
      | .error err => .error err
    | .del => .error .freedNode
    | .split _ _ => .error .uninitialisedEntry

/-- One iteration of the line loop of `TMProgram_parse_tape_file`: the entry list
after the line has been pushed and the older entries resolved against it. -/
def addLine (entries : List TMProgramTapeEntry) (line : TapeLine) :
    Except ParseError (List TMProgramTapeEntry) :=
  match newEntry line with
  | .error err => .error err
  | .ok new =>
    match resolveLoop new entries with
    | .error err => .error err
    | .ok older => .ok (older ++ [new])

/-- The line loop of `TMProgram_parse_tape_file` started with the entry list
`entries`. -/
def parseTapeLines :
    List TapeLine → List TMProgramTapeEntry → Except ParseError (List TMProgramTapeEntry)
  | [], entries => .ok entries
  | line :: lines, entries =>
    match addLine entries line with
    | .error err => .error err
    | .ok entries1 => parseTapeLines lines entries1

/-- The function `TMProgram_parse_tape_file` on the accepted lines of the tape
description: the array `program->entries`. -/
def TMProgram_parse_tape_file (lines : List TapeLine) :
    Except ParseError (List TMProgramTapeEntry) :=
  parseTapeLines lines []

/-- The struct `TMProgram`; the counts `n`, `fn`, `tn` are the lengths of the
three arrays. -/
structure TMProgram where
  rules : List TMRule
  start_state : TMRuleToken
  final_states : List TMRuleToken
  entries : List TMProgramTapeEntry

/-! ## The program parser (`interpreter.c`) -/

/-- A rule line as `sscanf(line, "%s %s -> %s %s %s", ...)` splits it. -/
structure RuleLine where
  s_from_s : String
  a_from_s : String
  s_to_s : String
  a_to_s : String
  motion_s : String

/-- The checks `TMProgram_parse` applies to the start state and to every final
state: `none` when the parser exits (invalid name, `null`, or a wildcard),
otherwise the token with both flags false. -/
def parseStateName (name : String) : Option TMRuleToken :=
  if check_name name = false then none
  else if name = "null" then none
  else if name = "*" ∨ name = "_" then none
  else some ⟨false, false, name⟩

/-- The final states of the line `[.] f1 f2 ...`. -/
def parseFinals : List String → Option (List TMRuleToken)
  | [] => some []
  | name :: rest =>
    match parseStateName name with
    | none => none
    | some tok =>
      match parseFinals rest with
      | none => none
      | some toks => some (tok :: toks)

/-- The rules of the rule lines, in order. -/
def parseRules : List RuleLine → Option (List TMRule)
  | [] => some []
  | l :: rest =>
    match parseRule l.s_from_s l.a_from_s l.s_to_s l.a_to_s l.motion_s with
    | none => none
    | some r =>
      match parseRules rest with
      | none => none
      | some rs => some (r :: rs)

/-- The function `TMProgram_parse` on a machine file with the start state
`start`, the final states `finals`, the rule lines `rules` and the tape lines
`tape`: `none` when the parser exits or leaves its defined behaviour. -/
def TMProgram_parse (start : String) (finals : List String) (rules : List RuleLine)
    (tape : List TapeLine) : Option TMProgram :=
  match parseStateName start with
  | none => none
  | some startTok =>
    match parseFinals finals with
    | none => none
    | some finalToks =>
      match parseRules rules with
      | none => none
      | some rs =>
        match TMProgram_parse_tape_file tape with
        | .error _ => none
        | .ok entries => some ⟨rs, startTok, finalToks, entries⟩

/-! ## Compilation (`interpreter.c`) -/

/-- The struct `TMExecutable`. -/
structure TMExecutable where
  machine : TM
  tape : TMTape
  states : TMDict
  chars : TMDict

/-- The function `TMDict_put_copy_if_unique`. -/
def TMDict_put_copy_if_unique (d : TMDict) (tok : TMRuleToken) : TMDict :=
  if tok.any = false ∧ tok.null = false then (TMDict_put d tok.str).2 else d

/-- The assignment of the three fields of `tape->right`. -/
def setRight (t : TMTape) (pat : TMTapePattern) : TMTape :=
  ⟨t.bkmem, t.fwmem, t.pos, t.state, t.fast, t.left, pat⟩

/-- The array `data[j] = TMDict_get(chars, entry->data[(j + entry->shift) % entry->n])`
that `TMProgram_compile` builds for an infinite entry. -/
def patternData (chars : TMDict) (e : TMProgramTapeEntry) : List Nat :=
  (List.range e.n).map fun j => TMDict_get chars (e.data.getD ((j + e.shift) % e.n) "")

/-- The body of the loop `Register infinite patterns, if any` for one entry; the
start `entry->end + 1` of the left pattern is an `int64_t` sum. -/
def registerPattern (chars : TMDict) (t : TMTape) (e : TMProgramTapeEntry) : TMTape :=
  if e.l_inf then setLeft t ⟨toI64 (e.end_ + 1), e.n, patternData chars e⟩
  else if e.r_inf then setRight t ⟨e.pos, e.n, patternData chars e⟩
  else t

/-- The body of the writing loop of `TMProgram_compile` for one entry: a finite
entry is written cell by cell,
`for (j = pos; j <= end; j++) TMTape_write_at(tape, j, TMDict_get(chars, data[(j - pos + shift) % n]))`. -/
def writeEntry (chars : TMDict) (t : TMTape) (e : TMProgramTapeEntry) : TMTape :=
  if e.l_inf = false ∧ e.r_inf = false then
    (List.range (e.end_ - e.pos + 1).toNat).foldl
      (fun (tt : TMTape) (k : Nat) => TMTape_write_at tt (e.pos + (k : Int))
        (TMDict_get chars (e.data.getD ((k + e.shift) % e.n) ""))) t
  else t

/-- The registration of the states of a program: the start state, then the
`s_from` and `s_to` of every rule, then the final states.  The source registers
states and symbols in one loop over the rules; the two dictionaries do not
depend on each other. -/
def compileStates (p : TMProgram) : TMDict :=
  p.final_states.foldl TMDict_put_copy_if_unique
    (p.rules.foldl
      (fun d r => TMDict_put_copy_if_unique (TMDict_put_copy_if_unique d r.s_from) r.s_to)
      (TMDict_put_copy_if_unique TMDict_init p.start_state))

/-- The registration of the symbols of a program: the `a_from` and `a_to` of
every rule, then every symbol of every tape entry. -/
def compileChars (p : TMProgram) : TMDict :=
  p.entries.foldl (fun d e => e.data.foldl (fun dd str => (TMDict_put dd str).2) d)
    (p.rules.foldl
      (fun d r => TMDict_put_copy_if_unique (TMDict_put_copy_if_unique d r.a_from) r.a_to)
      TMDict_init)

/-- The tape of `TMProgram_compile`: `TMTape_init`, the infinite patterns,
`TMTape_prepare`, then the finite entries. -/
def compileTape (chars : TMDict) (entries : List TMProgramTapeEntry) (fast : Bool) :
    TMTape :=
  entries.foldl (writeEntry chars)
    (TMTape_prepare (entries.foldl (registerPattern chars) (TMTape_init fast)))

/-- The loop `Mark final states as final`. -/
def markFinal (states : TMDict) (m : TM) (f : TMRuleToken) : TM :=
  if TMDict_get states f.str ≠ 0 then
    { m with ok := m.ok.set (TMDict_get states f.str - 1) true }
  else m

/-- The function `TMProgram_compile`: `none` when an `assert` of `TM_define`
fails. -/
def TMProgram_compile (p : TMProgram) (fast : Bool) : Option TMExecutable :=
  let states := compileStates p
  let chars := compileChars p
  let machine := TM_init (chars.n + 1) (states.n + 1)
  let tape := compileTape chars p.entries fast
  let machine1 := p.final_states.foldl (markFinal states) machine
  (p.rules.foldlM (fun m r => compileRule states chars r m) machine1).map
    fun machine2 => ⟨machine2, tape, states, chars⟩

/-! ## Notions used to state the properties of rule compilation -/

/-- The table entries `(next state, written symbol, motion)` of the cell
`(state, sym)`, read at the index `TM_step` uses. -/
def cell (m : TM) (state sym : Nat) : Nat × Nat × Bool :=
  (m.s.getD (tableIndex m state sym) 0, m.a.getD (tableIndex m state sym) 0,
    m.m.getD (tableIndex m state sym) false)

/-- The three tables hold the rows of the states `1 .. R` and their indices fit
a `uint64_t`. -/
def TableOK (m : TM) (R : Nat) : Prop :=
  R * m.n ≤ m.s.length ∧ R * m.n ≤ m.a.length ∧ R * m.n ≤ m.m.length ∧ R * m.n ≤ 2 ^ 64

/-- The call `res` on the machine `m` returns a machine whose sizes and final
flags are those of `m` and whose cells `(i, a)` with `1 ≤ i ≤ R` and `a < n` are
`V i a` where `W i a` holds and the cells of `m` elsewhere. -/
def Updates (R : Nat) (m : TM) (res : Option TM) (W : Nat → Nat → Bool)
    (V : Nat → Nat → Nat × Nat × Bool) : Prop :=
  ∃ m1, res = some m1 ∧ m1.n = m.n ∧ m1.q = m.q ∧ m1.ok = m.ok ∧
    m1.s.length = m.s.length ∧ m1.a.length = m.a.length ∧ m1.m.length = m.m.length ∧
    ∀ i a, 1 ≤ i → i ≤ R → a < m.n →
      cell m1 i a = if W i a = true then V i a else cell m i a

/-- The four calls the rule loop makes for one source state `r`, by the `any`
flags of `a_from` and `a_to`; `a0` and `a1` are the codes of the two tokens. -/
def rowOp (afAny atAny : Bool) (a0 a1 : Nat) (motion : Bool) (m : TM) (r s : Nat) :
    Option TM :=
  match afAny, atAny with
  | true, true => TM_define_forall_readonly m r s motion
  | true, false => TM_define_forall m r s a1 motion
  | false, true => TM_define m r a0 s a0 motion
  | false, false => TM_define m r a0 s a1 motion

/-- The four ways the rule loop picks source and target states, by the `any`
flags of `s_from` and `s_to`; `s0` and `s1` are the codes of the two tokens and
`k` is the number of registered states. -/
def stateOp (sfAny stAny : Bool) (k s0 s1 : Nat) (op : TM → Nat → Nat → Option TM)
    (m : TM) : Option TM :=
  match sfAny, stAny with
  | true, true => (List.range k).foldlM (fun mm i => op mm (i + 1) (i + 1)) m
  | true, false => (List.range k).foldlM (fun mm i => op mm (i + 1) s1) m
  | false, true => op m s0 s0
  | false, false => op m s0 s1

/-- A rule that `parseRule` returns for some rule line. -/
def AcceptedRule (r : TMRule) : Prop :=
  ∃ sf af st a_t dir, parseRule sf af st a_t dir = some r

/-! ## Notions used to state the properties of the resolver -/

/-- The positions an entry stands for, by the flags `TMProgram_compile` tests:
`l_inf` first, then `r_inf`, else the finite range `pos .. end`. -/
def covers (e : TMProgramTapeEntry) (p : Int) : Prop :=
  if e.l_inf then p ≤ e.end_
  else if e.r_inf then e.pos ≤ p
  else e.pos ≤ p ∧ p ≤ e.end_

/-- The symbol `TMProgram_compile` takes from an entry for the position `p`:
`data[(modulo(p - (end + 1), n) + shift) % n]` for a left-infinite entry,
`data[(modulo(p - pos, n) + shift) % n]` for a right-infinite entry, and
`data[(p - pos + shift) % n]` for a finite one. -/
def entrySymbol (e : TMProgramTapeEntry) (p : Int) : String :=
  if e.l_inf then
    e.data.getD ((((p - e.end_ - 1) % (e.n : Int)).toNat + e.shift) % e.n) ""
  else if e.r_inf then
    e.data.getD ((((p - e.pos) % (e.n : Int)).toNat + e.shift) % e.n) ""
  else e.data.getD (((p - e.pos).toNat + e.shift) % e.n) ""

/-- The fields of the entry pushed for a line, without the checks of the
parser. -/
def lineEntry : TapeLine → TMProgramTapeEntry
  | .insertion pos data => ⟨pos, pos - 1 + data.length, false, false, 0, data⟩
  | .pattern pos end_ data => ⟨pos, end_, false, false, 0, data⟩
  | .rightInf pos data => ⟨pos, 0, false, true, 0, data⟩
  | .leftInf end_ data => ⟨0, end_, true, false, 0, data⟩

/-- The entry is neither left- nor right-infinite. -/
def TMProgramTapeEntry.finite (e : TMProgramTapeEntry) : Prop :=
  e.l_inf = false ∧ e.r_inf = false

/-- No position is covered by both entries. -/
def DisjointEntries (e1 e2 : TMProgramTapeEntry) : Prop :=
  ∀ p, ¬ (covers e1 p ∧ covers e2 p)

/-- The integer is representable in `int64_t`. -/
def InI64 (x : Int) : Prop := -2 ^ 63 ≤ x ∧ x < 2 ^ 63

/-- The bounds `end + 1` and `pos - 1` that the resolving loop forms from the
line are representable in `int64_t`. -/
def LineInRange (l : TapeLine) : Prop :=
  InI64 ((lineEntry l).end_ + 1) ∧ InI64 ((lineEntry l).pos - 1)

/-- The line loop, run from the entry list `es`, only trims: every line is
accepted, the resolving loop deletes no older entry and splits none, and no
finite entry is pushed while an infinite entry that overlaps it is in the
list. -/
def TrimsOnly : List TapeLine → List TMProgramTapeEntry → Prop
  | [], _ => True
  | l :: ls, es =>
    (∃ new, newEntry l = .ok new) ∧
    (∀ e, e ∈ es → ∃ e1, resolveStep (lineEntry l) e = .keep e1) ∧
    (∀ e, e ∈ es → (lineEntry l).finite → ¬ e.finite → DisjointEntries e (lineEntry l)) ∧
    ∀ es1, addLine es l = .ok es1 → TrimsOnly ls es1

/-- No finite line `[pos, end]` is declared after a finite line `[P, E]` with
`P < pos` and `end < E`. -/
def NoStrictNesting (lines : List TapeLine) : Prop :=
  lines.Pairwise fun l1 l2 =>
    ¬ ((lineEntry l1).finite ∧ (lineEntry l2).finite ∧
      (lineEntry l1).pos < (lineEntry l2).pos ∧ (lineEntry l2).end_ < (lineEntry l1).end_)

/-! ## Notions used to state the properties of the compiled table -/

/-- The rule addresses the cell `(i, a)`: its `s_from` is a wildcard or has the
code `i`, and its `a_from` is a wildcard or has the code `a`. -/
def ruleAddresses (states chars : TMDict) (r : TMRule) (i a : Nat) : Bool :=
  (r.s_from.any || i == TMDict_get states r.s_from.str) &&
    (r.a_from.any || a == TMDict_get chars r.a_from.str)

/-- The value a rule gives to a cell `(i, a)` it addresses: the next state is `i`
when `s_to` is the keep marker and the code of `s_to` otherwise, the written
symbol is `a` when `a_to` is the keep marker and the code of `a_to` otherwise. -/
def ruleValue (states chars : TMDict) (r : TMRule) (i a : Nat) : Nat × Nat × Bool :=
  ((if r.s_to.any = true then i else TMDict_get states r.s_to.str),
    (if r.a_to.any = true then a else TMDict_get chars r.a_to.str), r.motion)

/-- The value the last rule, in declaration order, that addresses the cell
`(i, a)` gives to it; the zeroes of `TM_init` when no rule addresses the cell. -/
def lastWrite (states chars : TMDict) (rules : List TMRule) (i a : Nat) : Nat × Nat × Bool :=
  match rules.reverse.find? (fun r => ruleAddresses states chars r i a) with
  | some r => ruleValue states chars r i a
  | none => (0, 0, false)

/-! ## Notions used to state the properties of dictionaries and names -/

/-- The dictionary built from the empty one by the calls `TMDict_put(dict, tok)`
for the tokens of `toks`, in order. -/
def putAll (toks : List String) : TMDict :=
  toks.foldl (fun d s => (TMDict_put d s).2) TMDict_init

/-- The characters a name may use besides letters and digits, as the token
charset lists them. -/
def tokenCharset : List Char := "-_.~+^<>[]\x7b\x7d()".toList

/-- A valid name in the words of the token charset: not `(null)`, and either one
of the reserved literals `*`, `_`, `null` or made of letters, digits and the
characters of `tokenCharset` only. -/
def ValidName (s : String) : Prop :=
  s ≠ "(null)" ∧
    ((s = "*" ∨ s = "_" ∨ s = "null") ∨
      ∀ c, c ∈ s.toList → (c.isAlpha = true ∨ c.isDigit = true ∨ c ∈ tokenCharset))

/-- A token that is neither of the markers `*` and `_`. -/
def IsName (s : String) : Prop := s ≠ "*" ∧ s ≠ "_"

/-- The four shapes of a pair of a source slot and a target slot:
(name, name), (name, `_`), (`*`, name), (`_`, `_`). -/
def LegalPair (x y : String) : Prop :=
  (IsName x ∧ IsName y) ∨ (IsName x ∧ y = "_") ∨ (x = "*" ∧ IsName y) ∨ (x = "_" ∧ y = "_")

/-- The legality of a rule line `sf af -> st a_t dir`: the direction is one of
`l`, `r`, `<`, `>`, `sf` is not `null`, and both pairs have a legal shape. -/
def LegalRule (sf af st a_t dir : String) : Prop :=
  (dir = "l" ∨ dir = "r" ∨ dir = "<" ∨ dir = ">") ∧ sf ≠ "null" ∧
    LegalPair sf st ∧ LegalPair af a_t

/-- The second half of `TMTape_step` after a move to the right: in non-fast
mode, when the head is outside the outermost backward block, the block is
scanned against `tape->right` and freed when the scan runs to its end. -/
def compactBackward (t2 : TMTape) : TMTape :=
  if t2.fast = false ∧ t2.bl > 0 ∧ t2.pos ≥ -(t2.bl - 1) * (TM_BLOCK_SIZE : Int) then
    if edgeScan t2 t2.right (-t2.bl * TM_BLOCK_SIZE) then
      { t2 with bkmem := t2.bkmem.dropLast }
    else t2
  else t2

/-- The second half of `TMTape_step` after a move to the left: in non-fast mode,
when the head is outside the outermost forward block, the block is scanned
against `tape->left` and freed when the scan runs to its end. -/
def compactForward (t2 : TMTape) : TMTape :=
  if t2.fast = false ∧ t2.br > 0 ∧ t2.pos ≤ (t2.br - 1) * (TM_BLOCK_SIZE : Int) - 1 then
    if edgeScan t2 t2.left ((t2.br - 1) * TM_BLOCK_SIZE) then
      { t2 with fwmem := t2.fwmem.dropLast }
    else t2
  else t2

/-- The tape with the head moved to `pos`. -/
def setPos (t : TMTape) (pos : Int) : TMTape :=
  ⟨t.bkmem, t.fwmem, pos, t.state, t.fast, t.left, t.right⟩

/-! ## Notions used to state the properties of the tape and of the executable -/

/-- The head cell is materialised: `-bl * 16 <= pos < br * 16`. -/
def HeadInSpan (t : TMTape) : Prop :=
  -t.bl * (TM_BLOCK_SIZE : Int) ≤ t.pos ∧ t.pos < t.br * (TM_BLOCK_SIZE : Int)

/-- An operation of the tape interface that is not a move of the head by the
machine: a write at a position, an allocation, a step. -/
inductive TapeOp where
  /-- The call `TMTape_write_at(tape, pos, sym)`. -/
  | write (pos : Int) (sym : Nat)
  /-- The call `TMTape_alloc(tape, right)`. -/
  | alloc (right : Bool)
  /-- The call `TMTape_step(tape, right)`. -/
  | step (right : Bool)

/-- The tape after one operation. -/
def applyOp (t : TMTape) : TapeOp → TMTape
  | .write pos sym => TMTape_write_at t pos sym
  | .alloc right => TMTape_alloc t right
  | .step right => TMTape_step t right

/-- The tape after a sequence of operations, in order. -/
def applyOps (t : TMTape) (ops : List TapeOp) : TMTape := ops.foldl applyOp t

/-- The abstract tape after one operation: a write updates the function at its
position, an allocation and a step leave it as it is. -/
def abstractOp (f : Int → Nat) : TapeOp → Int → Nat
  | .write pos sym => fun p => if p = pos then sym else f p
  | .alloc _ => f
  | .step _ => f

/-- The abstract tape after a sequence of operations, in order. -/
def abstractOps (f : Int → Nat) (ops : List TapeOp) : Int → Nat := ops.foldl abstractOp f

/-- Every cell of every block of the list is below `n`. -/
def CellsBelow (mem : List Block) (n : Nat) : Prop :=
  ∀ b, b ∈ mem → ∀ j, b j < n

/-- Every boundary-pattern value and every materialised cell of the tape is
below `n`. -/
def TapeBelow (t : TMTape) (n : Nat) : Prop :=
  (∀ x, x ∈ t.left.data → x < n) ∧ (∀ x, x ∈ t.right.data → x < n) ∧
  CellsBelow t.bkmem n ∧ CellsBelow t.fwmem n

/-- The bounds of an executable with `S` registered states: the sizes of the
tables, every next-state entry at most `S`, every write-symbol entry, every
boundary-pattern value and every materialised cell below the alphabet size, and
the state of the tape at most `S`. -/
def ExecBounded (m : TM) (S : Nat) (t : TMTape) : Prop :=
  0 < m.n ∧ m.q = S + 1 ∧ m.ok.length = m.q ∧
  m.s.length = m.n * m.q ∧ m.a.length = m.n * m.q ∧ m.m.length = m.n * m.q ∧
  (∀ x, x ∈ m.s → x ≤ S) ∧ (∀ x, x ∈ m.a → x < m.n) ∧
  (∀ x, x ∈ t.left.data → x < m.n) ∧ (∀ x, x ∈ t.right.data → x < m.n) ∧
  CellsBelow t.bkmem m.n ∧ CellsBelow t.fwmem m.n ∧ t.state ≤ S

/-- The line is a finite placement or a finite periodic entry. -/
def FiniteLine : TapeLine → Prop
  | .insertion _ _ => True
  | .pattern _ _ _ => True
  | .rightInf _ _ => False
  | .leftInf _ _ => False

/-! ## Concrete machines and tapes used to instantiate the theorems -/

/-- A pattern with no symbols: no boundary pattern installed. -/
def noPattern : TMTapePattern := ⟨0, 0, []⟩

/-- The tape `TMTape_prepare` leaves when no boundary pattern is installed: one
blank forward block, head at the origin, state 1, compaction enabled. -/
def blankTape : TMTape := ⟨[], [Block.zero], 0, 1, false, noPattern, noPattern⟩

/-- A one-state machine over the alphabet `{0, 1}` without final states: in
state 1 it writes the symbol it reads back, moves right and stays in state 1. -/
def rightMover : TM := ⟨2, 1, [false], [1, 1], [0, 1], [true, true]⟩

/-- A two-state machine over the alphabet `{0, 1}` without final states: state 1
moves right into state 2 and state 2 has no transition (next state 0). -/
def haltAfterTwo : TM :=
  ⟨2, 2, [false, false], [2, 2, 0, 0], [0, 1, 0, 0], [true, true, false, false]⟩

/-- A one-state machine over the alphabet `{0, 1, 2}` without final states: in
state 1 it writes the symbol it reads back, moves left and stays in state 1. -/
def leftMover : TM := ⟨3, 1, [false], [1, 1, 1], [0, 1, 2], [false, false, false]⟩

/-- The tape `TMProgram_compile` builds for the single tape entry `inf~-1: x y`
(codes `x = 1`, `y = 2`): left pattern with `start = 0`, `n = 2`,
`data = [1, 2]`, no right pattern, and after `TMTape_prepare` one blank forward
block, head 0, state 1. -/
def leftXYTape : TMTape := ⟨[], [Block.zero], 0, 1, false, ⟨0, 2, [1, 2]⟩, noPattern⟩

/-- A tape with the left pattern of the entry `inf~-1: x` (code `x = 1`) on which
the sixteen cells `-16 .. -1` have been materialised and overwritten with
blanks, with the head on cell `-1`. -/
def leftXErasedTape : TMTape :=
  ⟨[Block.zero], [Block.zero], -1, 1, false, ⟨0, 1, [1]⟩, noPattern⟩

/-- The tape lines `inf~-1: x y` and `-3: z`. -/
def mirrorLines : List TapeLine :=
  [TapeLine.leftInf (-1) ["x", "y"], TapeLine.insertion (-3) ["z"]]

/-- The program with start state `A`, no final states, no rules and the tape
lines `mirrorLines`, as `TMProgram_parse` returns it. -/
def mirrorProgram : TMProgram :=
  ⟨[], ⟨false, false, "A"⟩, [],
    [⟨0, -1, true, false, 0, ["x", "y"]⟩, ⟨-3, -3, false, false, 0, ["z"]⟩]⟩

/-- The tape lines `0~5: a` and `2~3: b` of the overlap example. -/
def nestedLines : List TapeLine :=
  [TapeLine.pattern 0 5 ["a"], TapeLine.pattern 2 3 ["b"]]

/-- The rule lines `* a -> s1 b r` and `q3 a -> s2 c l`. -/
def lastWriteRules : List RuleLine :=
  [⟨"*", "a", "s1", "b", "r"⟩, ⟨"q3", "a", "s2", "c", "l"⟩]

/-- The program of the rule lines `lastWriteRules` with the start state `q1`, no
final states and no tape lines, as `TMProgram_parse` returns it. -/
def lastWriteProgram : TMProgram :=
  ⟨[⟨TMRuleToken_init "*", TMRuleToken_init "a", TMRuleToken_init "s1", TMRuleToken_init "b",
      true⟩,
    ⟨TMRuleToken_init "q3", TMRuleToken_init "a", TMRuleToken_init "s2", TMRuleToken_init "c",
      false⟩],
    ⟨false, false, "q1"⟩, [], []⟩

/-- The program with the start state `A`, the final state `A`, no rules and no
tape lines, as `TMProgram_parse` returns it. -/
def finalStartProgram : TMProgram :=
  ⟨[], ⟨false, false, "A"⟩, [⟨false, false, "A"⟩], []⟩

/-- The program with the start state `A`, no final states, the rule
`A x -> B y r` and no tape lines, as `TMProgram_parse` returns it. -/
def oneRuleProgram : TMProgram :=
  ⟨[⟨TMRuleToken_init "A", TMRuleToken_init "x", TMRuleToken_init "B", TMRuleToken_init "y",
      true⟩],
    ⟨false, false, "A"⟩, [], []⟩

/-- A tape without patterns, with one blank forward block, the head at 0 and the
state 2. -/
def blankTapeState2 : TMTape := ⟨[], [Block.zero], 0, 2, false, noPattern, noPattern⟩

/-- The program with the start state `A`, no final states, no rules and the tape
line `0: null`, as `TMProgram_parse` returns it. -/
def nullTapeProgram : TMProgram :=
  ⟨[], ⟨false, false, "A"⟩, [], [⟨0, 0, false, false, 0, ["null"]⟩]⟩

/-- The program with the start state `A`, no final states, the rule
`A null -> B null r` and no tape lines, as `TMProgram_parse` returns it. -/
def nullRuleProgram : TMProgram :=
  ⟨[⟨TMRuleToken_init "A", TMRuleToken_init "null", TMRuleToken_init "B",
      TMRuleToken_init "null", true⟩],
    ⟨false, false, "A"⟩, [], []⟩

/-- The program with the start state `q`, no final states, the rule
`q a$ -> p (null) r` and the tape line `0: a$ (null)`, as `TMProgram_parse`
returns it. -/
def invalidSymbolProgram : TMProgram :=
  ⟨[⟨TMRuleToken_init "q", TMRuleToken_init "a$", TMRuleToken_init "p",
      TMRuleToken_init "(null)", true⟩],
    ⟨false, false, "q"⟩, [], [⟨0, 1, false, false, 0, ["a$", "(null)"]⟩]⟩

/-- The tape `TMTape_prepare` leaves for the left pattern of the tape entry
`inf~-1: x` (code 1), in non-fast mode. -/
def leftXTape : TMTape := TMTape_prepare (setLeft (TMTape_init false) ⟨0, 1, [1]⟩)

/-- The program with the start state `A`, no final states, the rules
`A * -> B a r` and `B * -> A a l` and no tape lines, as `TMProgram_parse`
returns it. -/
def pingPongProgram : TMProgram :=
  ⟨[⟨TMRuleToken_init "A", TMRuleToken_init "*", TMRuleToken_init "B", TMRuleToken_init "a",
      true⟩,
    ⟨TMRuleToken_init "B", TMRuleToken_init "*", TMRuleToken_init "A", TMRuleToken_init "a",
      false⟩],
    ⟨false, false, "A"⟩, [], []⟩

/-- The program with the start state `A`, no final states, the rules
`A null -> B a r` and `B null -> A a l` and no tape lines, as `TMProgram_parse`
returns it. -/
def blankPingPongProgram : TMProgram :=
  ⟨[⟨TMRuleToken_init "A", TMRuleToken_init "null", TMRuleToken_init "B",
      TMRuleToken_init "a", true⟩,
    ⟨TMRuleToken_init "B", TMRuleToken_init "null", TMRuleToken_init "A",
      TMRuleToken_init "a", false⟩],
    ⟨false, false, "A"⟩, [], []⟩

/-- The program with the start state `A`, no final states, no rules and the tape
lines `0~inf: x` and `0~15: null`, as `TMProgram_parse` returns it. -/
def erasedRightProgram : TMProgram :=
  ⟨[], ⟨false, false, "A"⟩, [],
    [⟨0, 0, false, true, 0, ["x"]⟩, ⟨0, 15, false, false, 0, ["null"]⟩]⟩

/-- The program with the start state `A`, no final states, no rules and the tape
line `inf~-101: x`, as `TMProgram_parse` returns it. -/
def farLeftProgram : TMProgram :=
  ⟨[], ⟨false, false, "A"⟩, [], [⟨0, -101, true, false, 0, ["x"]⟩]⟩

/-- The tape lines `0~5: a` and `0~5: b`: the second covers the first. -/
def coveredLines : List TapeLine :=
  [TapeLine.pattern 0 5 ["a"], TapeLine.pattern 0 5 ["b"]]

/-- The tape lines `-5~-3: a b c`, `inf~-4: y`, `5~inf: x` and `0: z`. -/
def trimmedLines : List TapeLine :=
  [TapeLine.pattern (-5) (-3) ["a", "b", "c"], TapeLine.leftInf (-4) ["y"],
    TapeLine.rightInf 5 ["x"], TapeLine.insertion 0 ["z"]]

/-! ## The execution engine: halting and bounded runs -/

theorem halted_iff (m : TM) (t : TMTape) :
    halted m t = true ↔ (t.state = 0 ∨ m.ok.getD (t.state - 1) false = true) := by
  simp [halted]

theorem TM_step_of_halted (m : TM) (t : TMTape) (h : halted m t = true) :
    TM_step m t = (t.state, t) := by
  simp [TM_step, h]

theorem stepTape_of_halted (m : TM) (t : TMTape) (h : halted m t = true) :
    stepTape m t = t := by
  simp [stepTape, TM_step_of_halted m t h]

theorem iterate_stepTape_of_halted (m : TM) (t : TMTape) (h : halted m t = true)
    (k : Nat) : (stepTape m)^[k] t = t :=
  Function.iterate_fixed (stepTape_of_halted m t h) k

/-- The loop of `TM_run_restricted` started with `c` calls already counted. -/
theorem runRestrictedLoop_spec (m : TM) (k : Nat) :
    ∀ (t : TMTape) (c : Nat),
      (runRestrictedLoop m k t c).1 = (stepTape m)^[k] t ∧
      c ≤ (runRestrictedLoop m k t c).2 ∧
      (runRestrictedLoop m k t c).2 ≤ c + k ∧
      (runRestrictedLoop m k t c).1 = (stepTape m)^[(runRestrictedLoop m k t c).2 - c] t ∧
      (∀ j, j < (runRestrictedLoop m k t c).2 - c → halted m ((stepTape m)^[j] t) = false) ∧
      ((runRestrictedLoop m k t c).2 - c < k →
        halted m (runRestrictedLoop m k t c).1 = true) := by
  induction k with
  | zero => intro t c; simp [runRestrictedLoop]
  | succ k ih =>
    intro t c
    by_cases h : halted m t = true
    · simp [runRestrictedLoop, h, iterate_stepTape_of_halted m t h]
    · have hf : halted m t = false := by simpa using h
      obtain ⟨h1, h2, h3, h4, h5, h6⟩ := ih (stepTape m t) (c + 1)
      have e : runRestrictedLoop m (k + 1) t c
          = runRestrictedLoop m k (stepTape m t) (c + 1) := by
        simp [runRestrictedLoop, hf, stepTape]
      rw [e]
      have hsub : (runRestrictedLoop m k (stepTape m t) (c + 1)).2 - c
          = ((runRestrictedLoop m k (stepTape m t) (c + 1)).2 - (c + 1)) + 1 := by omega
      refine ⟨?_, by omega, by omega, ?_, ?_, ?_⟩
      · rw [h1, Function.iterate_succ_apply]
      · rw [hsub, Function.iterate_succ_apply]; exact h4
      · intro j hj
        cases j with
        | zero => simpa using hf
        | succ j =>
          rw [Function.iterate_succ_apply]
          exact h5 j (by omega)
      · intro hlt
        exact h6 (by omega)

/-- Claim C1: `TM_step` on a halted tape is a no-op.  For every machine and every tape
whose state is 0 or is flagged final, `TM_step` returns that same state and
leaves the tape as it is: the state, the head position and `TMTape_read_at` at
every position are unchanged. -/
theorem TM_step_halted_noop (m : TM) (t : TMTape)
    (h : t.state = 0 ∨ m.ok.getD (t.state - 1) false = true) :
    (TM_step m t).1 = t.state ∧
    (TM_step m t).2.state = t.state ∧
    (TM_step m t).2.pos = t.pos ∧
    (∀ p : Int, TMTape_read_at (TM_step m t).2 p = TMTape_read_at t p) ∧
    (TM_step m t).2 = t := by
  have hh : halted m t = true := (halted_iff m t).2 h
  simp [TM_step_of_halted m t hh]

/-- Claim C1 at a concrete input: the blank tape put in state 0. -/
theorem TM_step_halted_noop_witness :
    ({ blankTape with state := 0 } : TMTape).state = 0 ∧
    (TM_step rightMover { blankTape with state := 0 }).1 = 0 ∧
    (TM_step rightMover { blankTape with state := 0 }).2.pos = 0 :=
  ⟨rfl,
   (TM_step_halted_noop rightMover { blankTape with state := 0 } (Or.inl rfl)).1,
   (TM_step_halted_noop rightMover { blankTape with state := 0 } (Or.inl rfl)).2.2.1⟩

/-- Claim C10: `TM_run_restricted` with budget `k` equals `k` applications of
`TM_step`.  The tape after the call is the tape after `k` calls of `TM_step`
(so state, head position and all reads agree), the returned value is the state
of that tape, and the loop calls `TM_step` at most `k` times: it makes `calls`
calls, each from a state that is neither 0 nor final, the tape is also the one
after `calls` calls, a tape that is halted at the start gets no call, and
when fewer than `k` calls were made the resulting tape is halted. -/
theorem TM_run_restricted_eq_iterate (m : TM) (t : TMTape) (k : Nat) :
    (TM_run_restricted m t k).2 = (stepTape m)^[k] t ∧
    (TM_run_restricted m t k).1 = ((stepTape m)^[k] t).state ∧
    (runRestrictedLoop m k t 0).2 ≤ k ∧
    (TM_run_restricted m t k).2 = (stepTape m)^[(runRestrictedLoop m k t 0).2] t ∧
    (∀ j, j < (runRestrictedLoop m k t 0).2 → halted m ((stepTape m)^[j] t) = false) ∧
    (halted m t = true → (runRestrictedLoop m k t 0).2 = 0) ∧
    ((runRestrictedLoop m k t 0).2 < k → halted m (TM_run_restricted m t k).2 = true) := by
  obtain ⟨h1, _, h3, h4, h5, h6⟩ := runRestrictedLoop_spec m k t 0
  simp only [Nat.sub_zero, Nat.zero_add] at h3 h4 h5 h6
  refine ⟨h1, by simp [TM_run_restricted, h1], h3, h4, h5, ?_, h6⟩
  intro hh
  by_contra hne
  have := h5 0 (Nat.pos_of_ne_zero hne)
  simp [hh] at this

/-- Claim C10 at a concrete input: three steps of the right-moving machine on the
blank tape. -/
theorem TM_run_restricted_eq_iterate_witness :
    (TM_run_restricted rightMover blankTape 3).2 = (stepTape rightMover)^[3] blankTape ∧
    (runRestrictedLoop rightMover 3 blankTape 0).2 ≤ 3 ∧
    (TM_run_restricted rightMover blankTape 3).2.pos = 3 :=
  ⟨(TM_run_restricted_eq_iterate rightMover blankTape 3).1,
   (TM_run_restricted_eq_iterate rightMover blankTape 3).2.2.1,
   by decide⟩

/-! ## Tape memory: reads, allocation and single-cell writes -/

theorem bl_nonneg (t : TMTape) : (0 : Int) ≤ t.bl := by simp [TMTape.bl]

theorem br_nonneg (t : TMTape) : (0 : Int) ≤ t.br := by simp [TMTape.br]

theorem cellRead_append_lt (mem : List Block) (b : Block) (k : Nat)
    (h : k / 16 < mem.length) : cellRead (mem ++ [b]) k = cellRead mem k := by
  unfold cellRead
  rw [List.getD_append _ _ _ _ h]

theorem cellRead_append_eq (mem : List Block) (b : Block) (k : Nat)
    (h : k / 16 = mem.length) : cellRead (mem ++ [b]) k = b (cellIx k) := by
  unfold cellRead
  rw [List.getD_append_right _ _ _ _ (by simp [h])]
  simp [h]

theorem read_at_out (t : TMTape) (p : Int) (h : p < -t.bl * 16 ∨ t.br * 16 ≤ p) :
    TMTape_read_at t p = TMTape_undefined t p := by
  unfold TMTape_read_at
  split_ifs with h1 h2
  · rfl
  all_goals exfalso; simp only [TM_BLOCK_SIZE, Nat.cast_ofNat] at h1; omega

theorem read_at_neg (t : TMTape) (p : Int) (h1 : -t.bl * 16 ≤ p) (h2 : p < 0) :
    TMTape_read_at t p = cellRead t.bkmem (-1 - p).toNat := by
  have := br_nonneg t
  unfold TMTape_read_at
  split_ifs with h3
  · exfalso; simp only [TM_BLOCK_SIZE, Nat.cast_ofNat] at h3; omega
  · rfl

theorem read_at_nonneg (t : TMTape) (p : Int) (h1 : 0 ≤ p) (h2 : p < t.br * 16) :
    TMTape_read_at t p = cellRead t.fwmem p.toNat := by
  have := bl_nonneg t
  unfold TMTape_read_at
  split_ifs with h3 h4
  · exfalso; simp only [TM_BLOCK_SIZE, Nat.cast_ofNat] at h3; omega
  · exfalso; omega
  · rfl

theorem undefined_congr (t u : TMTape) (hl : u.left = t.left) (hr : u.right = t.right)
    (p : Int) : TMTape_undefined u p = TMTape_undefined t p := by
  simp [TMTape_undefined, hl, hr]

theorem alloc_right_bl (t : TMTape) : (TMTape_alloc t true).bl = t.bl := by
  simp [TMTape_alloc, TMTape.bl]

theorem alloc_right_br (t : TMTape) : (TMTape_alloc t true).br = t.br + 1 := by
  simp [TMTape_alloc, TMTape.br]

theorem read_at_alloc_right (t : TMTape) (p : Int) :
    TMTape_read_at (TMTape_alloc t true) p = TMTape_read_at t p := by
  have hbl := bl_nonneg t
  have hbr := br_nonneg t
  have hbl' := alloc_right_bl t
  have hbr' := alloc_right_br t
  have hlen : (t.fwmem.length : Int) = t.br := rfl
  have hu : TMTape_undefined (TMTape_alloc t true) p = TMTape_undefined t p :=
    undefined_congr t _ (by simp [TMTape_alloc]) (by simp [TMTape_alloc]) p
  by_cases h1 : p < -t.bl * 16
  · rw [read_at_out _ p (by omega), read_at_out t p (by omega), hu]
  · by_cases h2 : p < 0
    · rw [read_at_neg _ p (by omega) h2, read_at_neg t p (by omega) h2]
      simp [TMTape_alloc]
    · by_cases h3 : p < t.br * 16
      · rw [read_at_nonneg _ p (by omega) (by omega), read_at_nonneg t p (by omega) h3]
        have : (TMTape_alloc t true).fwmem = t.fwmem ++ [fun i =>
            TMTape_read_at t (t.br * TM_BLOCK_SIZE + i.val)] := by simp [TMTape_alloc]
        rw [this, cellRead_append_lt _ _ _ (by omega)]
      · by_cases h4 : p < (t.br + 1) * 16
        · rw [read_at_nonneg _ p (by omega) (by omega)]
          have : (TMTape_alloc t true).fwmem = t.fwmem ++ [fun i =>
              TMTape_read_at t (t.br * TM_BLOCK_SIZE + i.val)] := by simp [TMTape_alloc]
          rw [this, cellRead_append_eq _ _ _ (by omega)]
          have e : t.br * (TM_BLOCK_SIZE : Int) + ((cellIx p.toNat).val : Int) = p := by
            simp [cellIx]; omega
          simp only [e]
        · rw [read_at_out _ p (by omega), read_at_out t p (by omega), hu]

/-- Claim C5: allocating a forward (right) block is observably transparent.  For
every tape, with any boundary patterns installed, and every position `p`,
`TMTape_read_at` at `p` after `TMTape_alloc(tape, right)` equals
`TMTape_read_at` at `p` before it. -/
theorem TMTape_alloc_right_transparent (t : TMTape) (p : Int) :
    TMTape_read_at (TMTape_alloc t true) p = TMTape_read_at t p :=
  read_at_alloc_right t p

theorem cellWrite_length (mem : List Block) (k sym : Nat) :
    (cellWrite mem k sym).length = mem.length := by
  simp [cellWrite]

theorem cellRead_cellWrite_same (mem : List Block) (k sym : Nat)
    (h : k / 16 < mem.length) : cellRead (cellWrite mem k sym) k = sym := by
  simp [cellRead, cellWrite, List.getElem?_set_self h, Block.set]

theorem alloc_left_bl (t : TMTape) : (TMTape_alloc t false).bl = t.bl + 1 := by
  simp [TMTape_alloc, TMTape.bl]

theorem alloc_left_fwmem (t : TMTape) : (TMTape_alloc t false).fwmem = t.fwmem := by
  simp [TMTape_alloc]

theorem alloc_right_bkmem (t : TMTape) : (TMTape_alloc t true).bkmem = t.bkmem := by
  simp [TMTape_alloc]

theorem growLeft_fwmem (fuel : Nat) : ∀ (t : TMTape) (pos : Int),
    (growLeft fuel t pos).fwmem = t.fwmem := by
  induction fuel with
  | zero => intro t pos; rfl
  | succ fuel ih =>
    intro t pos
    unfold growLeft
    split_ifs
    · rw [ih, alloc_left_fwmem]
    · rfl

theorem growRight_bkmem (fuel : Nat) : ∀ (t : TMTape) (pos : Int),
    (growRight fuel t pos).bkmem = t.bkmem := by
  induction fuel with
  | zero => intro t pos; rfl
  | succ fuel ih =>
    intro t pos
    unfold growRight
    split_ifs
    · rw [ih, alloc_right_bkmem]
    · rfl

/-- With enough fuel the first loop of `TMTape_write_at` ends because its
condition fails: the backward blocks reach `pos`. -/
theorem growLeft_covers (fuel : Nat) : ∀ (t : TMTape) (pos : Int),
    -pos - t.bl * 16 ≤ 16 * (fuel : Int) → -(growLeft fuel t pos).bl * 16 ≤ pos := by
  induction fuel with
  | zero => intro t pos h; simp [growLeft] at *; omega
  | succ fuel ih =>
    intro t pos h
    unfold growLeft
    split_ifs with hc
    · apply ih
      rw [alloc_left_bl]
      push_cast at h
      omega
    · simp only [TM_BLOCK_SIZE, Nat.cast_ofNat] at hc
      omega

/-- With enough fuel the second loop of `TMTape_write_at` ends because its
condition fails: the forward blocks reach beyond `pos`. -/
theorem growRight_covers (fuel : Nat) : ∀ (t : TMTape) (pos : Int),
    pos + 1 - t.br * 16 ≤ 16 * (fuel : Int) → pos < (growRight fuel t pos).br * 16 := by
  induction fuel with
  | zero => intro t pos h; simp [growRight] at *; omega
  | succ fuel ih =>
    intro t pos h
    unfold growRight
    split_ifs with hc
    · apply ih
      rw [alloc_right_br]
      push_cast at h
      omega
    · simp only [TM_BLOCK_SIZE, Nat.cast_ofNat] at hc
      omega

/-- After `TMTape_write_at` the span covers `pos` and the read at `pos` returns the
written symbol. -/
theorem write_at_covers (t : TMTape) (pos : Int) (sym : Nat) :
    (-(TMTape_write_at t pos sym).bl * 16 ≤ pos ∧
      pos < (TMTape_write_at t pos sym).br * 16) ∧
    TMTape_read_at (TMTape_write_at t pos sym) pos = sym := by
  have hbl := bl_nonneg t
  have hL : -(growLeft (-pos).toNat t pos).bl * 16 ≤ pos :=
    growLeft_covers _ t pos (by omega)
  have hR : pos < (growRight (pos + 1).toNat (growLeft (-pos).toNat t pos) pos).br * 16 :=
    growRight_covers _ _ pos (by have := br_nonneg (growLeft (-pos).toNat t pos); omega)
  have hbk : (growRight (pos + 1).toNat (growLeft (-pos).toNat t pos) pos).bkmem
      = (growLeft (-pos).toNat t pos).bkmem := growRight_bkmem _ _ _
  by_cases hneg : pos < 0
  · have e : TMTape_write_at t pos sym =
        { growRight (pos + 1).toNat (growLeft (-pos).toNat t pos) pos with
          bkmem := cellWrite (growRight (pos + 1).toNat (growLeft (-pos).toNat t pos) pos).bkmem
            (-1 - pos).toNat sym } := by
      simp [TMTape_write_at, hneg]
    have ebl : (TMTape_write_at t pos sym).bl = (growLeft (-pos).toNat t pos).bl := by
      rw [e]; simp [TMTape.bl, cellWrite_length, hbk]
    have ebr : (TMTape_write_at t pos sym).br
        = (growRight (pos + 1).toNat (growLeft (-pos).toNat t pos) pos).br := by
      rw [e]; simp [TMTape.br]
    refine ⟨⟨by rw [ebl]; exact hL, by rw [ebr]; exact hR⟩, ?_⟩
    rw [read_at_neg _ pos (by rw [ebl]; exact hL) hneg, e]
    apply cellRead_cellWrite_same
    rw [hbk]
    have : ((growLeft (-pos).toNat t pos).bkmem.length : Int)
        = (growLeft (-pos).toNat t pos).bl := rfl
    omega
  · have e : TMTape_write_at t pos sym =
        { growRight (pos + 1).toNat (growLeft (-pos).toNat t pos) pos with
          fwmem := cellWrite (growRight (pos + 1).toNat (growLeft (-pos).toNat t pos) pos).fwmem
            pos.toNat sym } := by
      simp [TMTape_write_at, hneg]
    have ebl : (TMTape_write_at t pos sym).bl = (growLeft (-pos).toNat t pos).bl := by
      rw [e]; simp [TMTape.bl, hbk]
    have ebr : (TMTape_write_at t pos sym).br
        = (growRight (pos + 1).toNat (growLeft (-pos).toNat t pos) pos).br := by
      rw [e]; simp [TMTape.br, cellWrite_length]
    refine ⟨⟨by rw [ebl]; exact hL, by rw [ebr]; exact hR⟩, ?_⟩
    rw [read_at_nonneg _ pos (by omega) (by rw [ebr]; exact hR), e]
    apply cellRead_cellWrite_same
    have : ((growRight (pos + 1).toNat (growLeft (-pos).toNat t pos) pos).fwmem.length : Int)
        = (growRight (pos + 1).toNat (growLeft (-pos).toNat t pos) pos).br := rfl
    omega

/-- Claim C6: write then read of the same cell.  For every tape, every position `pos`
and every symbol `sym`, after `TMTape_write_at` the allocated span covers `pos`
and `TMTape_read_at` at `pos` returns `sym`. -/
theorem TMTape_write_at_read_same (t : TMTape) (pos : Int) (sym : Nat) :
    (-(TMTape_write_at t pos sym).bl * 16 ≤ pos ∧
      pos < (TMTape_write_at t pos sym).br * 16) ∧
    TMTape_read_at (TMTape_write_at t pos sym) pos = sym :=
  write_at_covers t pos sym

/-! ## Bulk access across the origin -/

/-- The loop condition `i < pos + n` of `TMTape_readmem` / `TMTape_writemem`
fails at the first iteration `i = pos` when `pos` is negative and `pos + n` is
not: the bound wraps around to `pos + n` while `i` converts to `2^64 + pos`. -/
theorem wrap_bound_fails (pos : Int) (n : Nat) (h1 : -2 ^ 63 ≤ pos) (h2 : pos < 0)
    (h3 : 0 ≤ pos + n) (h4 : n < 2 ^ 64) :
    ¬ toU64 pos < (toU64 pos + n) % 2 ^ 64 := by
  unfold toU64
  norm_num at *
  omega

theorem writemem_wrap_noop (t : TMTape) (pos : Int) (n : Nat) (mem : List Nat)
    (h1 : -2 ^ 63 ≤ pos) (h2 : pos < 0) (h3 : 0 ≤ pos + n) (h4 : n < 2 ^ 64) :
    TMTape_writemem t pos n mem = t := by
  have hc := wrap_bound_fails pos n h1 h2 h3 h4
  unfold TMTape_writemem
  cases n with
  | zero => rfl
  | succ k => simp only [writememLoop, if_neg hc]

theorem readmem_wrap_noop (t : TMTape) (pos : Int) (n : Nat) (mem : List Nat)
    (h1 : -2 ^ 63 ≤ pos) (h2 : pos < 0) (h3 : 0 ≤ pos + n) (h4 : n < 2 ^ 64) :
    TMTape_readmem t pos n mem = mem := by
  have hc := wrap_bound_fails pos n h1 h2 h3 h4
  unfold TMTape_readmem
  cases n with
  | zero => rfl
  | succ k => simp only [readmemLoop, if_neg hc]

/-! ## The concrete tapes arise from the tape interface -/

theorem tape_ext (t u : TMTape) (h1 : t.bkmem = u.bkmem) (h2 : t.fwmem = u.fwmem)
    (h3 : t.pos = u.pos) (h4 : t.state = u.state) (h5 : t.fast = u.fast)
    (h6 : t.left = u.left) (h7 : t.right = u.right) : t = u := by
  cases t; cases u; simp_all

/-- The tape `leftXYTape` is what `TMTape_init`, the installation of the left
pattern and `TMTape_prepare` produce, the sequence `TMProgram_compile` runs
for the tape entry `inf~-1: x y`. -/
theorem leftXYTape_prepared :
    TMTape_prepare (setLeft (TMTape_init false) ⟨0, 2, [1, 2]⟩) = leftXYTape := by
  apply tape_ext <;> rfl

set_option maxRecDepth 100000 in
/-- The tape `leftXErasedTape` is reached from the prepared tape with the left
pattern of `inf~-1: x` by writing a blank to each of the cells `-1 .. -16` and
then moving the head one cell to the left. -/
theorem leftXErasedTape_reached :
    TMTape_step
      ((List.range 16).foldl
        (fun (t : TMTape) (k : Nat) => TMTape_write_at t (-1 - (k : Int)) 0)
        (TMTape_prepare (setLeft (TMTape_init false) ⟨0, 1, [1]⟩))) false
      = leftXErasedTape := by
  apply tape_ext
  · show [_] = [_]
    congr 1
    funext i
    fin_cases i <;> decide
  all_goals rfl

/-! ## Evaluations of the code at the inputs where it departs from the claims -/

/-- Claim C2, evaluated where the code departs from it.  The tape
`leftXErasedTape` is in the non-final state 1 with its head on the materialised
cell `-1`, which holds `a = 0`; the table entries of `rightMover` at the index
of `(1, 0)` are next state 1, write symbol 0, direction right.  After `TM_step`
the returned value and the state are 1 and the head is at 0, but
`TMTape_read_at` at the old head `-1` is 1, not the written symbol 0: the
backward block holding the cell has been freed. -/
theorem TM_step_loses_written_symbol :
    halted rightMover leftXErasedTape = false ∧
    (-leftXErasedTape.bl * 16 ≤ leftXErasedTape.pos ∧
      leftXErasedTape.pos < leftXErasedTape.br * 16) ∧
    leftXErasedTape.pos = -1 ∧
    TMTape_read_at leftXErasedTape (-1) = 0 ∧
    tableIndex rightMover 1 0 = (1 - 1) * rightMover.n + 0 ∧
    rightMover.s.getD (tableIndex rightMover 1 0) 0 = 1 ∧
    rightMover.a.getD (tableIndex rightMover 1 0) 0 = 0 ∧
    rightMover.m.getD (tableIndex rightMover 1 0) false = true ∧
    (TM_step rightMover leftXErasedTape).1 = 1 ∧
    (TM_step rightMover leftXErasedTape).2.state = 1 ∧
    (TM_step rightMover leftXErasedTape).2.pos = 0 ∧
    (TM_step rightMover leftXErasedTape).2.bl = 0 ∧
    TMTape_read_at (TM_step rightMover leftXErasedTape).2 (-1) = 1 := by
  decide

/-- Claim C3, evaluated where the code departs from it.  On `leftXYTape` the
head is at 0 and `leftMover` moves it left; `TMTape_read_at` at `-1`, which is
not the old head cell, is 2 before `TM_step` and 1 after it, in non-fast and
in fast mode alike. -/
theorem TM_step_changes_other_cell :
    leftXYTape.pos = 0 ∧
    TMTape_read_at leftXYTape (-1) = 2 ∧
    TMTape_read_at (TM_step leftMover leftXYTape).2 (-1) = 1 ∧
    TMTape_read_at { leftXYTape with fast := true } (-1) = 2 ∧
    TMTape_read_at (TM_step leftMover { leftXYTape with fast := true }).2 (-1) = 1 := by
  decide

/-- Claim C4, evaluated where the code departs from it.  On `leftXYTape` the
reads at `-1, -2, ..., -16` are `2, 1, 2, 1, ...` before `TMTape_alloc(tape, left)`
and `1, 2, 1, 2, ...` after it: the new backward block holds the values of its
sixteen positions in mirrored order. -/
theorem TMTape_alloc_left_mirrors_block :
    (List.range 16).map (fun k => TMTape_read_at leftXYTape (-1 - (k : Int)))
      = [2, 1, 2, 1, 2, 1, 2, 1, 2, 1, 2, 1, 2, 1, 2, 1] ∧
    (List.range 16).map
        (fun k => TMTape_read_at (TMTape_alloc leftXYTape false) (-1 - (k : Int)))
      = [1, 2, 1, 2, 1, 2, 1, 2, 1, 2, 1, 2, 1, 2, 1, 2] := by
  decide

/-- Claim C7, evaluated where the code departs from it.  On `leftXYTape`,
`TMTape_write_at(tape, -5, 2)` has to materialise a backward block;
`TMTape_read_at` at `-1`, a position other than `-5`, is 2 before the write and
1 after it. -/
theorem TMTape_write_at_changes_other_cell :
    TMTape_read_at leftXYTape (-1) = 2 ∧
    TMTape_read_at (TMTape_write_at leftXYTape (-5) 2) (-1) = 1 ∧
    TMTape_read_at (TMTape_write_at leftXYTape (-5) 2) (-5) = 2 := by
  decide

/-- Claim C8, evaluated where the code departs from it.  Both tapes satisfy the
head-in-span invariant.  Moving the head of `leftXErasedTape` right (non-fast
mode) frees the backward block, whose cells are compared with the right
pattern (absent, so blank) although the left pattern decides what they read
once freed: the reads at `-1` and `-16` change from 0 to 1.  Moving the head of
`leftXYTape` left materialises a backward block and changes the read at `-1`
from 2 to 1. -/
theorem TMTape_step_changes_contents :
    (-leftXErasedTape.bl * 16 ≤ leftXErasedTape.pos ∧
      leftXErasedTape.pos < leftXErasedTape.br * 16) ∧
    leftXErasedTape.fast = false ∧
    TMTape_read_at leftXErasedTape (-1) = 0 ∧
    TMTape_read_at leftXErasedTape (-16) = 0 ∧
    (TMTape_step leftXErasedTape true).bl = 0 ∧
    TMTape_read_at (TMTape_step leftXErasedTape true) (-1) = 1 ∧
    TMTape_read_at (TMTape_step leftXErasedTape true) (-16) = 1 ∧
    (-leftXYTape.bl * 16 ≤ leftXYTape.pos ∧ leftXYTape.pos < leftXYTape.br * 16) ∧
    TMTape_read_at leftXYTape (-1) = 2 ∧
    TMTape_read_at (TMTape_step leftXYTape false) (-1) = 1 := by
  decide

/-- Claim C9, evaluated where the code departs from it.  On the blank tape,
`TMTape_writemem(tape, -1, 1, [7])` writes nothing (the read at `-1` stays 0)
and `TMTape_readmem(tape, -1, 1, out)` leaves `out` as it was, so the round
trip does not give back the buffer; the same happens for the range `-2 .. 2`.
Ranges that stay below the origin or start at or above it do round-trip. -/
theorem writemem_readmem_across_origin :
    TMTape_read_at (TMTape_writemem blankTape (-1) 1 [7]) (-1) = 0 ∧
    TMTape_readmem (TMTape_writemem blankTape (-1) 1 [7]) (-1) 1 [0] = [0] ∧
    TMTape_readmem (TMTape_writemem blankTape (-2) 5 [7, 8, 9, 10, 11]) (-2) 5
      [0, 0, 0, 0, 0] = [0, 0, 0, 0, 0] ∧
    TMTape_readmem (TMTape_writemem blankTape (-5) 3 [7, 8, 9]) (-5) 3 [0, 0, 0]
      = [7, 8, 9] ∧
    TMTape_readmem (TMTape_writemem blankTape 14 3 [7, 8, 9]) 14 3 [0, 0, 0]
      = [7, 8, 9] := by
  decide

/-! ## Unbounded runs -/

/-- When `k` steps reach a halted tape, the loop of `TM_run` leaves through its
condition within `k + 1` tests and returns that tape. -/
theorem runLoop_of_halted (m : TM) (k : Nat) : ∀ (t : TMTape) (fuel : Nat),
    halted m ((stepTape m)^[k] t) = true → k < fuel →
    runLoop m fuel t = some ((stepTape m)^[k] t) := by
  induction k with
  | zero =>
    intro t fuel h hf
    obtain ⟨f, rfl⟩ : ∃ f, fuel = f + 1 := ⟨fuel - 1, by omega⟩
    simp only [Function.iterate_zero, id_eq] at h
    simp [runLoop, h]
  | succ k ih =>
    intro t fuel h hf
    obtain ⟨f, rfl⟩ : ∃ f, fuel = f + 1 := ⟨fuel - 1, by omega⟩
    by_cases ht : halted m t = true
    · simp [runLoop, ht, iterate_stepTape_of_halted m t ht]
    · have hfalse : halted m t = false := by simpa using ht
      rw [Function.iterate_succ_apply] at h ⊢
      simp only [runLoop, hfalse, Bool.false_eq_true, if_false]
      exact ih (stepTape m t) f h (by omega)

/-- Claim C11: `TM_run` returns a terminal state.  For every machine and tape for
which `k` applications of `TM_step` reach a state that is 0 or final, the loop
of `TM_run` ends (any bound above `k` on the number of its tests is enough), the
returned value is that state, it is 0 or flagged final and equals the state of
the tape, and the tape is the one `TM_run_restricted` with budget `k` leaves. -/
theorem TM_run_terminal (m : TM) (t : TMTape) (k : Nat)
    (h : ((stepTape m)^[k] t).state = 0 ∨
      m.ok.getD (((stepTape m)^[k] t).state - 1) false = true) :
    ∀ fuel, k < fuel →
      TM_run m fuel t
        = some (((stepTape m)^[k] t).state, (TM_run_restricted m t k).2) ∧
      (TM_run_restricted m t k).2.state = ((stepTape m)^[k] t).state ∧
      (TM_run_restricted m t k).2 = (stepTape m)^[k] t := by
  intro fuel hf
  have hh : halted m ((stepTape m)^[k] t) = true := (halted_iff m _).2 h
  have hr : (TM_run_restricted m t k).2 = (stepTape m)^[k] t := by
    simp [TM_run_restricted, (runRestrictedLoop_spec m k t 0).1]
  refine ⟨?_, by rw [hr], hr⟩
  simp [TM_run, runLoop_of_halted m k t fuel hh hf, hr]

/-- Claim C11 at a concrete input: the two-state machine `haltAfterTwo` leaves the
blank tape in the undefined state 0 after two steps. -/
theorem TM_run_terminal_witness :
    ((stepTape haltAfterTwo)^[2] blankTape).state = 0 ∧
    TM_run haltAfterTwo 3 blankTape
      = some (0, (TM_run_restricted haltAfterTwo blankTape 2).2) :=
  ⟨by decide,
   by
    have h := (TM_run_terminal haltAfterTwo blankTape 2 (Or.inl (by decide)) 3
      (by decide)).1
    have e : ((stepTape haltAfterTwo)^[2] blankTape).state = 0 := by decide
    rw [e] at h
    exact h⟩

/-! ## Dictionaries -/

theorem TMDict_put_tok (d : TMDict) (str : String) :
    (TMDict_put d str).2.tok = if str ∈ d.tok then d.tok else d.tok ++ [str] := by
  unfold TMDict_put
  by_cases h : str ∈ d.tok
  · simp [h, List.indexOf_lt_length.2 h]
  · have : ¬ List.indexOf str d.tok < d.tok.length := fun hh => h (List.indexOf_lt_length.1 hh)
    simp [h, this]

theorem TMDict_put_mono (d : TMDict) (str x : String) (h : x ∈ d.tok) :
    x ∈ (TMDict_put d str).2.tok := by
  rw [TMDict_put_tok]
  split_ifs
  · exact h
  · exact List.mem_append_left _ h

theorem TMDict_put_mem (d : TMDict) (str : String) : str ∈ (TMDict_put d str).2.tok := by
  rw [TMDict_put_tok]
  split_ifs with h
  · exact h
  · simp

theorem TMDict_get_le (d : TMDict) (str : String) : TMDict_get d str ≤ d.n := by
  unfold TMDict_get TMDict.n
  split_ifs <;> omega

theorem TMDict_get_pos (d : TMDict) (str : String) (h : str ∈ d.tok) (hn : str ≠ "null") :
    1 ≤ TMDict_get d str := by
  unfold TMDict_get
  simp [hn, List.indexOf_lt_length.2 h]

theorem put_copy_mono (d : TMDict) (tok : TMRuleToken) (x : String) (h : x ∈ d.tok) :
    x ∈ (TMDict_put_copy_if_unique d tok).tok := by
  unfold TMDict_put_copy_if_unique
  split_ifs
  · exact TMDict_put_mono d _ x h
  · exact h

theorem put_copy_mem (d : TMDict) (tok : TMRuleToken) (h1 : tok.any = false)
    (h2 : tok.null = false) : tok.str ∈ (TMDict_put_copy_if_unique d tok).tok := by
  unfold TMDict_put_copy_if_unique
  simp [h1, h2, TMDict_put_mem]

/-- A fold of a registration step that never forgets a token keeps every token. -/
theorem foldl_tok_mono {α : Type} (f : TMDict → α → TMDict)
    (hf : ∀ d a x, x ∈ d.tok → x ∈ (f d a).tok) (l : List α) :
    ∀ (d : TMDict) (x : String), x ∈ d.tok → x ∈ (l.foldl f d).tok := by
  induction l with
  | nil => intro d x h; exact h
  | cons a l ih => intro d x h; exact ih (f d a) x (hf d a x h)

/-- A fold of a registration step registers what each element registers. -/
theorem foldl_tok_mem {α : Type} (f : TMDict → α → TMDict)
    (hf : ∀ d a x, x ∈ d.tok → x ∈ (f d a).tok) (g : α → String) (P : α → Prop)
    (hg : ∀ d a, P a → g a ∈ (f d a).tok) (l : List α) :
    ∀ (d : TMDict) (a : α), a ∈ l → P a → g a ∈ (l.foldl f d).tok := by
  induction l with
  | nil => intro d a h; simp at h
  | cons b l ih =>
    intro d a h hP
    rcases List.mem_cons.1 h with rfl | h
    · exact foldl_tok_mono f hf l (f d a) _ (hg d a hP)
    · exact ih (f d b) a h hP

/-- Every named `s_from` of a rule is registered in the state dictionary. -/
theorem compileStates_s_from (p : TMProgram) (r : TMRule) (hr : r ∈ p.rules)
    (h1 : r.s_from.any = false) (h2 : r.s_from.null = false) :
    r.s_from.str ∈ (compileStates p).tok := by
  unfold compileStates
  apply foldl_tok_mono _ (fun d a x h => put_copy_mono d a x h)
  exact foldl_tok_mem
    (fun d r => TMDict_put_copy_if_unique (TMDict_put_copy_if_unique d r.s_from) r.s_to)
    (fun d a x h => put_copy_mono _ _ x (put_copy_mono _ _ x h))
    (fun r => r.s_from.str) (fun r => r.s_from.any = false ∧ r.s_from.null = false)
    (fun d a hP => put_copy_mono _ _ _ (put_copy_mem d a.s_from hP.1 hP.2))
    p.rules _ r hr ⟨h1, h2⟩

/-! ## Accepted rules -/

/-- What `parseRule` guarantees about a rule it returns. -/
theorem parseRule_some (sf af st a_t dir : String) (r : TMRule)
    (h : parseRule sf af st a_t dir = some r) :
    r = ⟨TMRuleToken_init sf, TMRuleToken_init af, TMRuleToken_init st, TMRuleToken_init a_t,
          dir == "r" || dir == ">"⟩ ∧
    st ≠ "*" ∧ sf ≠ "null" ∧ ¬ (sf = "*" ∧ st = "_") ∧ ¬ (sf = "_" ∧ st ≠ "_") ∧
    a_t ≠ "*" ∧ ¬ (af = "*" ∧ a_t = "_") ∧ ¬ (af = "_" ∧ a_t ≠ "_") ∧
    (dir = "l" ∨ dir = "r" ∨ dir = "<" ∨ dir = ">") := by
  unfold parseRule at h
  split_ifs at h with h1 h2
  simp only [Option.some.injEq] at h
  refine ⟨h.symm, ?_⟩
  simp only [not_or, not_and, ne_eq] at h1
  obtain ⟨a1, a2, a3, a4, a5, a6, a7, a8⟩ := h1
  refine ⟨a1, a2, fun hh => a3 hh.1 hh.2, fun hh => a4 hh.1 hh.2, a5,
    fun hh => a6 hh.1 hh.2, fun hh => a7 hh.1 hh.2, ?_⟩
  by_contra hc
  simp only [not_or] at hc
  exact a8 hc.1 hc.2.1 hc.2.2.1 hc.2.2.2

/-! ## Rule compilation -/

theorem compileRule_eq_stateOp (states chars : TMDict) (r : TMRule) (m : TM) :
    compileRule states chars r m =
      stateOp r.s_from.any r.s_to.any states.n (TMDict_get states r.s_from.str)
        (TMDict_get states r.s_to.str)
        (rowOp r.a_from.any r.a_to.any (TMDict_get chars r.a_from.str)
          (TMDict_get chars r.a_to.str) r.motion) m := by
  unfold compileRule stateOp rowOp
  cases r.a_from.any <;> cases r.a_to.any <;> cases r.s_from.any <;> cases r.s_to.any <;> rfl

theorem getD_set_of_lt {α : Type} (l : List α) (i j : Nat) (v d : α) (h : i < l.length) :
    (l.set i v).getD j d = if i = j then v else l.getD j d := by
  simp only [List.getD_eq_getElem?_getD, List.getElem?_set]
  split_ifs <;> simp_all

theorem idx_lt (R n i a : Nat) (h1 : 1 ≤ i) (h2 : i ≤ R) (h3 : a < n) :
    (i - 1) * n + a < R * n := by
  obtain ⟨j, rfl⟩ : ∃ j, i = j + 1 := ⟨i - 1, by omega⟩
  have : (j + 1) * n ≤ R * n := Nat.mul_le_mul_right n h2
  simp only [Nat.add_sub_cancel]
  rw [Nat.add_mul] at this
  omega

theorem idx_inj (n i j a b : Nat) (h1 : 1 ≤ i) (h2 : 1 ≤ j) (ha : a < n) (hb : b < n)
    (h : (i - 1) * n + a = (j - 1) * n + b) : i = j ∧ a = b := by
  have hn : 0 < n := by omega
  have e1 : ((i - 1) * n + a) / n = i - 1 := by
    rw [Nat.mul_comm, Nat.mul_add_div hn, Nat.div_eq_of_lt ha]; rfl
  have e2 : ((j - 1) * n + b) / n = j - 1 := by
    rw [Nat.mul_comm, Nat.mul_add_div hn, Nat.div_eq_of_lt hb]; rfl
  have e3 : i - 1 = j - 1 := by rw [← e1, ← e2, h]
  have e4 : i = j := by omega
  subst e4
  exact ⟨rfl, by omega⟩

theorem tableIndex_eq (m : TM) (R i a : Nat) (hT : TableOK m R) (h1 : 1 ≤ i) (h2 : i ≤ R)
    (h3 : a < m.n) : tableIndex m i a = (i - 1) * m.n + a := by
  unfold tableIndex
  have := idx_lt R m.n i a h1 h2 h3
  exact Nat.mod_eq_of_lt (by have := hT.2.2.2; omega)

theorem TableOK_of_eq (m m1 : TM) (R : Nat) (hT : TableOK m R) (hn : m1.n = m.n)
    (hs : m1.s.length = m.s.length) (ha : m1.a.length = m.a.length)
    (hm : m1.m.length = m.m.length) : TableOK m1 R := by
  unfold TableOK at *
  rw [hn, hs, ha, hm]
  exact hT

theorem Updates.congr {R : Nat} {m : TM} {res : Option TM} {W W1 : Nat → Nat → Bool}
    {V V1 : Nat → Nat → Nat × Nat × Bool} (h : Updates R m res W V)
    (hW : ∀ i a, 1 ≤ i → i ≤ R → a < m.n → W i a = W1 i a)
    (hV : ∀ i a, 1 ≤ i → i ≤ R → a < m.n → W i a = true → V i a = V1 i a) :
    Updates R m res W1 V1 := by
  obtain ⟨m1, e, h1, h2, h3, h4, h5, h6, hc⟩ := h
  refine ⟨m1, e, h1, h2, h3, h4, h5, h6, ?_⟩
  intro i a hi hR ha
  rw [hc i a hi hR ha, ← hW i a hi hR ha]
  by_cases hw : W i a = true
  · simp [hw, hV i a hi hR ha hw]
  · simp [hw]

theorem Updates.bind {R : Nat} {m : TM} {o : Option TM} {f : TM → Option TM}
    {W1 W2 : Nat → Nat → Bool} {V1 V2 : Nat → Nat → Nat × Nat × Bool}
    (h1 : Updates R m o W1 V1)
    (h2 : ∀ m1, m1.n = m.n → m1.s.length = m.s.length → m1.a.length = m.a.length →
      m1.m.length = m.m.length → Updates R m1 (f m1) W2 V2) :
    Updates R m (o.bind f) (fun i a => W1 i a || W2 i a)
      (fun i a => if W2 i a = true then V2 i a else V1 i a) := by
  obtain ⟨m1, e, a1, a2, a3, a4, a5, a6, hc⟩ := h1
  obtain ⟨m2, e2, b1, b2, b3, b4, b5, b6, hc2⟩ := h2 m1 a1 a4 a5 a6
  refine ⟨m2, by simp [e, e2], by omega, by omega, by rw [b3, a3], by omega, by omega,
    by omega, ?_⟩
  intro i a hi hR ha
  rw [hc2 i a hi hR (by omega), hc i a hi hR ha]
  by_cases hw2 : W2 i a = true
  · simp [hw2]
  · by_cases hw1 : W1 i a = true
    · simp [hw1, hw2]
    · simp [hw1, hw2]

theorem Updates.pure (R : Nat) (m : TM) (V : Nat → Nat → Nat × Nat × Bool) :
    Updates R m (some m) (fun _ _ => false) V :=
  ⟨m, rfl, rfl, rfl, rfl, rfl, rfl, rfl, by intro i a _ _ _; simp⟩

theorem cell_eq (R : Nat) (m mm : TM) (i a : Nat) (hT : TableOK m R) (hn : mm.n = m.n)
    (h1 : 1 ≤ i) (h2 : i ≤ R) (h3 : a < m.n) :
    cell mm i a = (mm.s.getD ((i - 1) * m.n + a) 0, mm.a.getD ((i - 1) * m.n + a) 0,
      mm.m.getD ((i - 1) * m.n + a) false) := by
  have e : tableIndex mm i a = (i - 1) * m.n + a := by
    rw [← tableIndex_eq m R i a hT h1 h2 h3]
    simp [tableIndex, hn]
  simp only [cell, e]

/-- One call of `TM_define` on a source state `1 ≤ r ≤ R` and a symbol
`a0 < n` writes the cell `(r, a0)` and no other. -/
theorem TM_define_updates (R : Nat) (m : TM) (r a0 s a1 : Nat) (mo : Bool)
    (hT : TableOK m R) (hr1 : 1 ≤ r) (hr2 : r ≤ R) (ha0 : a0 < m.n) :
    Updates R m (TM_define m r a0 s a1 mo) (fun i a => i == r && a == a0)
      (fun _ _ => (s, a1, mo)) := by
  have hidx := tableIndex_eq m R r a0 hT hr1 hr2 ha0
  have hlt := idx_lt R m.n r a0 hr1 hr2 ha0
  have hT1 := hT
  obtain ⟨t1, t2, t3, t4⟩ := hT
  refine ⟨{ m with s := m.s.set (tableIndex m r a0) s, a := m.a.set (tableIndex m r a0) a1,
                   m := m.m.set (tableIndex m r a0) mo },
    by simp [TM_define, show r ≠ 0 by omega], rfl, rfl, rfl, by simp, by simp, by simp, ?_⟩
  intro i a hi hR ha
  rw [cell_eq R m m i a hT1 rfl hi hR ha, cell_eq R m { m with
    s := m.s.set (tableIndex m r a0) s, a := m.a.set (tableIndex m r a0) a1,
    m := m.m.set (tableIndex m r a0) mo } i a hT1 rfl hi hR ha]
  simp only [hidx]
  rw [getD_set_of_lt _ _ _ _ _ (by omega), getD_set_of_lt _ _ _ _ _ (by omega),
    getD_set_of_lt _ _ _ _ _ (by omega)]
  by_cases hc : (r - 1) * m.n + a0 = (i - 1) * m.n + a
  · obtain ⟨e1, e2⟩ := idx_inj m.n r i a0 a hr1 hi ha0 ha hc
    subst e1; subst e2
    simp
  · have : ¬ (i = r ∧ a = a0) := by
      rintro ⟨rfl, rfl⟩
      exact hc rfl
    have hb : ((i == r) && (a == a0)) = false := by
      simpa using this
    simp [hc, hb]

theorem Updates.tableOK {R : Nat} {m m1 : TM} (hT : TableOK m R) (hn : m1.n = m.n)
    (hs : m1.s.length = m.s.length) (ha : m1.a.length = m.a.length)
    (hm : m1.m.length = m.m.length) : TableOK m1 R :=
  TableOK_of_eq m m1 R hT hn hs ha hm

/-- A loop `for (j = 0; j < k; j++)` whose body writes the cells `Wj j` with the
values `V` writes the cells of all `Wj j`, `j < k`. -/
theorem foldlM_updates (R K : Nat) (f : TM → Nat → Option TM) (Wj : Nat → Nat → Nat → Bool)
    (V : Nat → Nat → Nat × Nat × Bool) (m : TM) (hT : TableOK m R)
    (hf : ∀ mm j, mm.n = m.n → TableOK mm R → j < K → Updates R mm (f mm j) (Wj j) V)
    (k : Nat) (hk : k ≤ K) :
    Updates R m ((List.range k).foldlM f m)
      (fun i a => (List.range k).any fun j => Wj j i a) V := by
  induction k with
  | zero =>
    exact (Updates.pure R m V).congr (by intros; simp) (by intro i a _ _ _ h; simp at h)
  | succ k ih =>
    have h1 := ih (by omega)
    rw [List.range_succ, List.foldlM_append]
    have h2 : ∀ m1 : TM, m1.n = m.n → m1.s.length = m.s.length →
        m1.a.length = m.a.length → m1.m.length = m.m.length →
        Updates R m1 ([k].foldlM f m1) (Wj k) V := by
      intro m1 e1 e2 e3 e4
      have := hf m1 k e1 (TableOK_of_eq m m1 R hT e1 e2 e3 e4) (by omega)
      simpa using this
    refine (Updates.bind h1 h2).congr ?_ ?_
    · intro i a _ _ _
      simp [List.any_append]
    · intro i a _ _ _ _
      by_cases hw : Wj k i a = true <;> simp [hw]

theorem any_range_eq (k : Nat) (p : Nat → Bool) (b : Bool)
    (h : b = true ↔ ∃ j, j < k ∧ p j = true) : ((List.range k).any p) = b := by
  rw [Bool.eq_iff_iff, h, List.any_eq_true]
  constructor
  · rintro ⟨j, hj, hp⟩; exact ⟨j, List.mem_range.1 hj, hp⟩
  · rintro ⟨j, hj, hp⟩; exact ⟨j, List.mem_range.2 hj, hp⟩

/-- The loop of `TM_define_forall` and `TM_define_forall_readonly` on the source
state `r` writes the whole row `r`; `g a` is the symbol written for `a`. -/
theorem defineLoop_updates (R : Nat) (m : TM) (r s : Nat) (g : Nat → Nat) (mo : Bool)
    (hT : TableOK m R) (hr1 : 1 ≤ r) (hr2 : r ≤ R) :
    Updates R m ((List.range m.n).foldlM (fun mm a => TM_define mm r a s (g a) mo) m)
      (fun i _ => i == r) (fun _ a => (s, g a, mo)) := by
  have h := foldlM_updates R m.n (fun mm a => TM_define mm r a s (g a) mo)
    (fun j i a => i == r && a == j) (fun _ a => (s, g a, mo)) m hT
    (by
      intro mm j e hTm hj
      refine (TM_define_updates R mm r j s (g j) mo hTm hr1 hr2 (by omega)).congr
        (by intros; rfl) ?_
      intro i a _ _ _ hw
      simp only [Bool.and_eq_true, beq_iff_eq] at hw
      simp [hw.2])
    m.n (le_refl _)
  refine h.congr ?_ (by intros; rfl)
  intro i a _ _ ha
  apply any_range_eq
  simp only [Bool.and_eq_true, beq_iff_eq]
  constructor
  · intro h; exact ⟨a, ha, h, rfl⟩
  · rintro ⟨j, _, h, _⟩; exact h

/-- The call for one source state `r` writes the cells `(r, a)` of the symbols
the rule addresses. -/
theorem rowOp_updates (R : Nat) (m : TM) (afAny atAny : Bool) (a0 a1 : Nat) (mo : Bool)
    (r s : Nat) (hT : TableOK m R) (hr1 : 1 ≤ r) (hr2 : r ≤ R)
    (ha0 : afAny = false → a0 < m.n) :
    Updates R m (rowOp afAny atAny a0 a1 mo m r s)
      (fun i a => i == r && (afAny || a == a0))
      (fun _ a => (s, (if atAny = true then a else a1), mo)) := by
  cases afAny <;> cases atAny
  · exact (TM_define_updates R m r a0 s a1 mo hT hr1 hr2 (ha0 rfl)).congr
      (by intros; simp) (by intros; simp)
  · refine (TM_define_updates R m r a0 s a0 mo hT hr1 hr2 (ha0 rfl)).congr
      (by intros; simp) ?_
    intro i a _ _ _ hw
    simp only [Bool.and_eq_true, beq_iff_eq] at hw
    simp [hw.2]
  · exact (defineLoop_updates R m r s (fun _ => a1) mo hT hr1 hr2).congr
      (by intros; simp) (by intros; simp)
  · exact (defineLoop_updates R m r s (fun a => a) mo hT hr1 hr2).congr
      (by intros; simp) (by intros; simp)

/-- The choice of source and target states around a row operation `op` writes
the rows of the states the rule addresses. -/
theorem stateOp_updates (k : Nat) (m : TM) (sfAny stAny : Bool) (s0 s1 : Nat)
    (op : TM → Nat → Nat → Option TM) (C : Nat → Bool) (V : Nat → Nat → Nat × Nat × Bool)
    (hT : TableOK m k)
    (hop : ∀ mm r s, mm.n = m.n → TableOK mm k → 1 ≤ r → r ≤ k →
      Updates k mm (op mm r s) (fun i a => i == r && C a) (fun _ a => V s a))
    (hs0 : sfAny = false → 1 ≤ s0 ∧ s0 ≤ k) :
    Updates k m (stateOp sfAny stAny k s0 s1 op m)
      (fun i a => (sfAny || i == s0) && C a)
      (fun i a => V (if stAny = true then i else s1) a) := by
  cases sfAny <;> cases stAny
  · exact (hop m s0 s1 rfl hT (hs0 rfl).1 (hs0 rfl).2).congr (by intros; simp)
      (by intros; simp)
  · refine (hop m s0 s0 rfl hT (hs0 rfl).1 (hs0 rfl).2).congr (by intros; simp) ?_
    intro i a _ _ _ hw
    simp only [Bool.and_eq_true, beq_iff_eq] at hw
    simp [hw.1]
  · have h := foldlM_updates k k (fun mm i => op mm (i + 1) s1)
      (fun j i a => i == j + 1 && C a) (fun _ a => V s1 a) m hT
      (fun mm j e hTm hj => hop mm (j + 1) s1 e hTm (by omega) (by omega)) k (le_refl _)
    refine h.congr ?_ (by intros; simp)
    intro i a hi hk _
    apply any_range_eq
    simp only [Bool.true_or, Bool.true_and, Bool.and_eq_true, beq_iff_eq]
    constructor
    · intro h; exact ⟨i - 1, by omega, by omega, h⟩
    · rintro ⟨j, _, _, h⟩; exact h
  · have h := foldlM_updates k k (fun mm i => op mm (i + 1) (i + 1))
      (fun j i a => i == j + 1 && C a) (fun i a => V i a) m hT
      (by
        intro mm j e hTm hj
        refine (hop mm (j + 1) (j + 1) e hTm (by omega) (by omega)).congr
          (by intros; rfl) ?_
        intro i a _ _ _ hw
        simp only [Bool.and_eq_true, beq_iff_eq] at hw
        simp [hw.1])
      k (le_refl _)
    refine h.congr ?_ (by intros; simp)
    intro i a hi hk _
    apply any_range_eq
    simp only [Bool.true_or, Bool.true_and, Bool.and_eq_true, beq_iff_eq]
    constructor
    · intro h; exact ⟨i - 1, by omega, by omega, h⟩
    · rintro ⟨j, _, _, h⟩; exact h

/-- The body of the rule loop writes the cells `(i, a)` with `s_from` a wildcard
or `i` its code and `a_from` a wildcard or `a` its code. -/
theorem compileRule_updates (states chars : TMDict) (r : TMRule) (m : TM)
    (hT : TableOK m states.n)
    (hs : r.s_from.any = false →
      1 ≤ TMDict_get states r.s_from.str ∧ TMDict_get states r.s_from.str ≤ states.n)
    (ha : r.a_from.any = false → TMDict_get chars r.a_from.str < m.n) :
    Updates states.n m (compileRule states chars r m)
      (fun i a => (r.s_from.any || i == TMDict_get states r.s_from.str) &&
        (r.a_from.any || a == TMDict_get chars r.a_from.str))
      (fun i a => ((if r.s_to.any = true then i else TMDict_get states r.s_to.str),
        (if r.a_to.any = true then a else TMDict_get chars r.a_to.str), r.motion)) := by
  rw [compileRule_eq_stateOp]
  exact stateOp_updates states.n m r.s_from.any r.s_to.any _ _ _
    (fun a => r.a_from.any || a == TMDict_get chars r.a_from.str)
    (fun s a => (s, (if r.a_to.any = true then a else TMDict_get chars r.a_to.str), r.motion))
    hT
    (fun mm rr s e hTm h1 h2 =>
      rowOp_updates states.n mm r.a_from.any r.a_to.any _ _ r.motion rr s hTm h1 h2
        (fun h => by rw [e]; exact ha h))
    hs

theorem TMRuleToken_init_any (str : String) :
    (TMRuleToken_init str).any = true ↔ (str = "*" ∨ str = "_") := by
  simp [TMRuleToken_init]

theorem star_any : (TMRuleToken_init "*").any = true := by decide

theorem TMRuleToken_init_str (str : String) : (TMRuleToken_init str).str = str := rfl

/-- Claim C19: rule compilation equals the reference expansion.  For every rule
`sf af -> st a_t dir` the parser accepts, with `sf` registered when it is a name
(as `TMProgram_compile` registers it), applied to a table with a row for every
registered state and `n = chars.n + 1` columns, the body of the rule loop
returns a table in which a cell `(i, a)`, `1 ≤ i ≤ states.n`, `a < n`, is
written iff (`sf` is a wildcard or `i` is the code of `sf`) and (`af` is a
wildcard or `a` is the code of `af`); a written cell gets next state `i` if `st`
is the keep marker and the code of `st` otherwise, written symbol `a` if `a_t`
is the keep marker and the code of `a_t` otherwise, and motion right iff `dir`
is `r` or `>`; every other cell, the sizes and the final flags are unchanged. -/
theorem compileRule_reference (states chars : TMDict) (m : TM)
    (sf af st a_t dir : String) (r : TMRule)
    (hacc : parseRule sf af st a_t dir = some r)
    (hreg : sf = "*" ∨ sf = "_" ∨ sf ∈ states.tok)
    (hn : m.n = chars.n + 1) (hT : TableOK m states.n) :
    ∃ m1, compileRule states chars r m = some m1 ∧
      m1.n = m.n ∧ m1.q = m.q ∧ m1.ok = m.ok ∧
      m1.s.length = m.s.length ∧ m1.a.length = m.a.length ∧ m1.m.length = m.m.length ∧
      ∀ i a, 1 ≤ i → i ≤ states.n → a < m.n →
        cell m1 i a =
          if (sf = "*" ∨ sf = "_" ∨ i = TMDict_get states sf) ∧
              (af = "*" ∨ af = "_" ∨ a = TMDict_get chars af) then
            ((if st = "_" then i else TMDict_get states st),
              (if a_t = "_" then a else TMDict_get chars a_t),
              decide (dir = "r" ∨ dir = ">"))
          else cell m i a := by
  obtain ⟨hr, h1, h2, _, _, h5, _, _, _⟩ := parseRule_some sf af st a_t dir r hacc
  subst hr
  have hs : (TMRuleToken_init sf).any = false →
      1 ≤ TMDict_get states sf ∧ TMDict_get states sf ≤ states.n := by
    intro hany
    have hw : ¬ (sf = "*" ∨ sf = "_") := by
      rw [← TMRuleToken_init_any]; simp [hany]
    have hmem : sf ∈ states.tok := by
      rcases hreg with h | h | h
      · exact absurd (Or.inl h) hw
      · exact absurd (Or.inr h) hw
      · exact h
    exact ⟨TMDict_get_pos states sf hmem h2, TMDict_get_le states sf⟩
  have ha : (TMRuleToken_init af).any = false → TMDict_get chars af < m.n := by
    intro _
    have := TMDict_get_le chars af
    omega
  obtain ⟨m1, e, a1, a2, a3, a4, a5, a6, hc⟩ :=
    compileRule_updates states chars
      ⟨TMRuleToken_init sf, TMRuleToken_init af, TMRuleToken_init st, TMRuleToken_init a_t,
        dir == "r" || dir == ">"⟩ m hT hs ha
  refine ⟨m1, e, a1, a2, a3, a4, a5, a6, ?_⟩
  intro i a hi hk hlt
  rw [hc i a hi hk hlt]
  simp only [TMRuleToken_init, Bool.or_eq_true, Bool.and_eq_true, beq_iff_eq, h1, h5,
    false_or, or_assoc]
  congr 1
  by_cases hd1 : dir = "r" <;> by_cases hd2 : dir = ">" <;> simp [hd1, hd2]

/-- Claim C19 at a concrete input: the rule `_ a -> _ b <` on the blank table of
two states `A`, `s` and two symbols `a`, `b`. -/
theorem compileRule_reference_witness :
    ∃ m1, compileRule ⟨["A", "s"]⟩ ⟨["a", "b"]⟩
        ⟨TMRuleToken_init "_", TMRuleToken_init "a", TMRuleToken_init "_",
          TMRuleToken_init "b", false⟩ (TM_init 3 3) = some m1 ∧
      cell m1 2 1 = (2, 2, false) ∧ cell m1 2 2 = (0, 0, false) := by
  obtain ⟨m1, e, _, _, _, _, _, _, hc⟩ :=
    compileRule_reference ⟨["A", "s"]⟩ ⟨["a", "b"]⟩ (TM_init 3 3) "_" "a" "_" "b" "<" _
      rfl (Or.inr (Or.inl rfl)) rfl (by unfold TableOK; decide)
  refine ⟨m1, e, ?_, ?_⟩
  · rw [hc 2 1 (by decide) (by decide) (by decide)]; decide
  · rw [hc 2 2 (by decide) (by decide) (by decide)]; decide

/-- Claim C20: wildcard state expansion.  Compiling the accepted rule
`* a -> s b r`, with `a`, `s`, `b` names, sets the cell `(i, a)` of every
registered state `i` to next state `s`, written symbol `b`, motion right, and
leaves the cell `(i, c)` unchanged for every symbol `c` other than `a`. -/
theorem wildcard_state_expansion (states chars : TMDict) (m : TM) (a s b : String)
    (r : TMRule) (hacc : parseRule "*" a s b "r" = some r)
    (ha : a ≠ "*" ∧ a ≠ "_") (hs : s ≠ "_") (hb : b ≠ "_")
    (hn : m.n = chars.n + 1) (hT : TableOK m states.n) :
    ∃ m1, compileRule states chars r m = some m1 ∧
      ∀ i, 1 ≤ i → i ≤ states.n →
        cell m1 i (TMDict_get chars a) = (TMDict_get states s, TMDict_get chars b, true) ∧
        ∀ c, c < m.n → c ≠ TMDict_get chars a → cell m1 i c = cell m i c := by
  obtain ⟨hr, h1, _, _, _, h5, _, _, _⟩ := parseRule_some "*" a s b "r" r hacc
  subst hr
  have hsany : (TMRuleToken_init s).any = false := by
    have := TMRuleToken_init_any s
    cases h : (TMRuleToken_init s).any
    · rfl
    · exact absurd (this.1 h) (by simp [h1, hs])
  have hbany : (TMRuleToken_init b).any = false := by
    have := TMRuleToken_init_any b
    cases h : (TMRuleToken_init b).any
    · rfl
    · exact absurd (this.1 h) (by simp [h5, hb])
  have haany : (TMRuleToken_init a).any = false := by
    have := TMRuleToken_init_any a
    cases h : (TMRuleToken_init a).any
    · rfl
    · exact absurd (this.1 h) (by simp [ha.1, ha.2])
  have hlt : TMDict_get chars a < m.n := by
    have := TMDict_get_le chars a
    omega
  obtain ⟨m1, e, _, _, _, _, _, _, hc⟩ :=
    compileRule_updates states chars
      ⟨TMRuleToken_init "*", TMRuleToken_init a, TMRuleToken_init s, TMRuleToken_init b,
        "r" == "r" || "r" == ">"⟩ m hT
      (by intro h; exact absurd h (by simp [star_any])) (fun _ => hlt)
  refine ⟨m1, e, ?_⟩
  intro i hi hk
  constructor
  · rw [hc i _ hi hk hlt]
    simp [hsany, hbany, haany, TMRuleToken_init_str, star_any]
  · intro c hc1 hc2
    rw [hc i c hi hk hc1]
    simp [haany, TMRuleToken_init_str, hc2]

/-- Claim C20 at a concrete input: the rule `* a -> s b r` on the blank table of
two states `A`, `s` and two symbols `a`, `b`. -/
theorem wildcard_state_expansion_witness :
    ∃ m1, compileRule ⟨["A", "s"]⟩ ⟨["a", "b"]⟩
        ⟨TMRuleToken_init "*", TMRuleToken_init "a", TMRuleToken_init "s",
          TMRuleToken_init "b", true⟩ (TM_init 3 3) = some m1 ∧
      cell m1 1 1 = (2, 2, true) ∧ cell m1 2 1 = (2, 2, true) ∧
      cell m1 1 2 = cell (TM_init 3 3) 1 2 := by
  obtain ⟨m1, e, h⟩ :=
    wildcard_state_expansion ⟨["A", "s"]⟩ ⟨["a", "b"]⟩ (TM_init 3 3) "a" "s" "b" _ rfl
      (by decide) (by decide) (by decide) rfl (by unfold TableOK; decide)
  exact ⟨m1, e, (h 1 (by decide) (by decide)).1, (h 2 (by decide) (by decide)).1,
    (h 1 (by decide) (by decide)).2 2 (by decide) (by decide)⟩

theorem tmod_gt_neg (a : Int) (k : Nat) (hk : 0 < k) : -(k : Int) < Int.tmod a k := by
  rcases a with m | m
  · have h : (0 : Int) ≤ Int.tmod (Int.ofNat m) k :=
      Int.tmod_nonneg (k : Int) (Int.ofNat_nonneg m)
    have hk2 : (0 : Int) < k := by omega
    exact Int.lt_of_lt_of_le (by omega) h
  · show -(k : Int) < -(((m + 1) % k : Nat) : Int)
    have := Nat.mod_lt (m + 1) hk
    omega

/-- A value that is representable in `int64_t` is not changed by the wrap. -/
theorem toI64_eq (x : Int) (h : InI64 x) : toI64 x = x := by
  unfold toI64
  unfold InI64 at h
  omega

/-- For a positive modulus `modulo` is the mathematical remainder. -/
theorem modulo_eq_emod (a : Int) (k : Nat) (hk : 0 < k) : modulo a k = a % k := by
  unfold modulo
  have h1 := tmod_gt_neg a k hk
  have h3 := Int.tmod_add_tdiv a k
  rw [Int.tmod_eq_emod (by omega) (by omega)]
  have e : Int.tmod a k + k = a + k * (1 - a.tdiv k) := by
    rw [Int.mul_sub, Int.mul_one]; omega
  rw [e, Int.add_mul_emod_self_left]

theorem modulo_toNat_lt (a : Int) (k : Nat) (hk : 0 < k) : (modulo a k).toNat < k := by
  rw [modulo_eq_emod a k hk]
  have := Int.emod_lt_of_pos a (show (0 : Int) < k by omega)
  have := Int.emod_nonneg a (show (k : Int) ≠ 0 by omega)
  omega

/-! ## `TMProgram_compile` returns for every accepted program -/

theorem foldlM_some {α β : Type} (f : β → α → Option β)
    (hf : ∀ b a, ∃ b1, f b a = some b1) (l : List α) :
    ∀ b, ∃ b1, l.foldlM f b = some b1 := by
  induction l with
  | nil => intro b; exact ⟨b, rfl⟩
  | cons a l ih =>
    intro b
    obtain ⟨b1, h1⟩ := hf b a
    obtain ⟨b2, h2⟩ := ih b1
    exact ⟨b2, by simp [List.foldlM_cons, h1, h2]⟩

theorem TM_define_some (m : TM) (r a0 s a1 : Nat) (mo : Bool) (hr : r ≠ 0) :
    ∃ m1, TM_define m r a0 s a1 mo = some m1 := by
  simp [TM_define, hr]

theorem rowOp_some (afAny atAny : Bool) (a0 a1 : Nat) (mo : Bool) (m : TM) (r s : Nat)
    (hr : r ≠ 0) : ∃ m1, rowOp afAny atAny a0 a1 mo m r s = some m1 := by
  cases afAny <;> cases atAny
  · exact TM_define_some m r a0 s a1 mo hr
  · exact TM_define_some m r a0 s a0 mo hr
  · exact foldlM_some _ (fun mm a => TM_define_some mm r a s a1 mo hr) _ m
  · exact foldlM_some _ (fun mm a => TM_define_some mm r a s a mo hr) _ m

theorem compileRule_some (states chars : TMDict) (r : TMRule) (m : TM)
    (hs : r.s_from.any = false → TMDict_get states r.s_from.str ≠ 0) :
    ∃ m1, compileRule states chars r m = some m1 := by
  rw [compileRule_eq_stateOp]
  unfold stateOp
  cases h1 : r.s_from.any <;> cases r.s_to.any
  · exact rowOp_some _ _ _ _ _ m _ _ (hs h1)
  · exact rowOp_some _ _ _ _ _ m _ _ (hs h1)
  · exact foldlM_some _ (fun mm i => rowOp_some _ _ _ _ _ mm _ _ (by omega)) _ m
  · exact foldlM_some _ (fun mm i => rowOp_some _ _ _ _ _ mm _ _ (by omega)) _ m

theorem foldlM_some_of_mem {α β : Type} (f : β → α → Option β) (l : List α)
    (hf : ∀ b a, a ∈ l → ∃ b1, f b a = some b1) :
    ∀ b, ∃ b1, l.foldlM f b = some b1 := by
  induction l with
  | nil => intro b; exact ⟨b, rfl⟩
  | cons a l ih =>
    intro b
    obtain ⟨b1, h1⟩ := hf b a (List.mem_cons_self a l)
    obtain ⟨b2, h2⟩ := ih (fun b x hx => hf b x (List.mem_cons_of_mem a hx)) b1
    exact ⟨b2, by simp [List.foldlM_cons, h1, h2]⟩

theorem parseRules_mem : ∀ (ls : List RuleLine) (rs : List TMRule),
    parseRules ls = some rs → ∀ r, r ∈ rs → AcceptedRule r := by
  intro ls
  induction ls with
  | nil =>
    intro rs h r hr
    simp only [parseRules, Option.some.injEq] at h
    subst h
    simp at hr
  | cons l ls ih =>
    intro rs h r hr
    simp only [parseRules] at h
    cases h1 : parseRule l.s_from_s l.a_from_s l.s_to_s l.a_to_s l.motion_s with
    | none => simp [h1] at h
    | some r1 =>
      cases h2 : parseRules ls with
      | none => simp [h1, h2] at h
      | some rs1 =>
        simp only [h1, h2, Option.some.injEq] at h
        subst h
        rcases List.mem_cons.1 hr with rfl | hr
        · exact ⟨_, _, _, _, _, h1⟩
        · exact ih rs1 h2 r hr

/-- What `TMProgram_parse` guarantees about the program it returns. -/
theorem TMProgram_parse_some (start : String) (finals : List String)
    (rules : List RuleLine) (tape : List TapeLine) (p : TMProgram)
    (h : TMProgram_parse start finals rules tape = some p) :
    parseStateName start = some p.start_state ∧
    parseFinals finals = some p.final_states ∧
    parseRules rules = some p.rules ∧
    TMProgram_parse_tape_file tape = .ok p.entries := by
  unfold TMProgram_parse at h
  cases h1 : parseStateName start with
  | none => simp [h1] at h
  | some s1 =>
    cases h2 : parseFinals finals with
    | none => simp [h1, h2] at h
    | some f1 =>
      cases h3 : parseRules rules with
      | none => simp [h1, h2, h3] at h
      | some r1 =>
        cases h4 : TMProgram_parse_tape_file tape with
        | error e => simp [h1, h2, h3, h4] at h
        | ok es =>
          simp only [h1, h2, h3, h4, Option.some.injEq] at h
          subst h
          exact ⟨rfl, rfl, rfl, rfl⟩

/-- For a program whose rules the parser has accepted no `assert` of
`TM_define` fails: `TMProgram_compile` returns an executable, with the tape and
the dictionaries of `compileTape`, `compileStates` and `compileChars`. -/
theorem TMProgram_compile_some (p : TMProgram) (fast : Bool)
    (hacc : ∀ r, r ∈ p.rules → AcceptedRule r) :
    ∃ exec, TMProgram_compile p fast = some exec ∧
      exec.tape = compileTape (compileChars p) p.entries fast ∧
      exec.states = compileStates p ∧ exec.chars = compileChars p := by
  have key : ∀ m, ∃ m1, p.rules.foldlM
      (fun m r => compileRule (compileStates p) (compileChars p) r m) m = some m1 := by
    apply foldlM_some_of_mem
    intro m r hr
    apply compileRule_some
    intro hany
    obtain ⟨sf, af, st, a_t, dir, hp⟩ := hacc r hr
    obtain ⟨e, _, hnull, _⟩ := parseRule_some sf af st a_t dir r hp
    have hstr : r.s_from.str = sf := by rw [e]; rfl
    have hn : r.s_from.null = false := by
      rw [e]; simp [TMRuleToken_init, hnull]
    have hmem := compileStates_s_from p r hr hany hn
    have := TMDict_get_pos (compileStates p) r.s_from.str hmem (by rw [hstr]; exact hnull)
    omega
  obtain ⟨m1, h1⟩ := key (p.final_states.foldl (markFinal (compileStates p))
    (TM_init ((compileChars p).n + 1) ((compileStates p).n + 1)))
  exact ⟨⟨m1, compileTape (compileChars p) p.entries fast, compileStates p, compileChars p⟩,
    by simp only [TMProgram_compile, h1, Option.map_some'], rfl, rfl, rfl⟩

/-! ## The compiled tape of a single infinite entry -/

/-- After `TMTape_prepare` every read returns the boundary value. -/
theorem read_at_prepare (t : TMTape) (p : Int) :
    TMTape_read_at (TMTape_prepare t) p = TMTape_undefined t p := by
  unfold TMTape_prepare
  rw [read_at_alloc_right, read_at_out _ p (by simp [TMTape.bl, TMTape.br]; omega)]
  exact undefined_congr t _ rfl rfl p

theorem patternData_getD (chars : TMDict) (e : TMProgramTapeEntry) (k : Nat) (hk : k < e.n) :
    (patternData chars e).getD k 0 = TMDict_get chars (e.data.getD ((k + e.shift) % e.n) "") := by
  unfold patternData
  simp [List.getD_eq_getElem?_getD, List.getElem?_map, List.getElem?_range hk]

/-- The value of the left pattern `TMProgram_compile` installs for `e`. -/
theorem leftPattern_read (chars : TMDict) (e : TMProgramTapeEntry) (hn : 0 < e.n) (p : Int)
    (hs : InI64 (e.end_ + 1)) (hp : InI64 (p - e.end_ - 1)) :
    patternAt ⟨toI64 (e.end_ + 1), e.n, patternData chars e⟩ p
      = TMDict_get chars
          (e.data.getD ((((p - e.end_ - 1) % (e.n : Int)).toNat + e.shift) % e.n) "") := by
  simp only [patternAt]
  rw [toI64_eq _ hs, show p - (e.end_ + 1) = p - e.end_ - 1 by omega, toI64_eq _ hp,
    patternData_getD chars e _ (modulo_toNat_lt _ _ hn), modulo_eq_emod _ _ hn]

theorem parse_single_leftInf (E : Int) (data : List String) (es : List TMProgramTapeEntry)
    (h : TMProgram_parse_tape_file [TapeLine.leftInf E data] = .ok es) :
    data.length ≠ 0 ∧ es = [⟨0, E, true, false, 0, data⟩] := by
  simp only [TMProgram_parse_tape_file, parseTapeLines, addLine, newEntry] at h
  by_cases hd : data.length = 0
  · simp [hd] at h
  · simp only [hd, if_false, resolveLoop, List.nil_append, Except.ok.injEq] at h
    exact ⟨hd, h.symm⟩

/-- Claim C14, the claim as stated fails where the 64-bit arithmetic wraps.  For
the line `inf~0: a b c` the position `-2^63` lies left of `E = 0`, and
`d[(p - E - 1) mod n]` is `a`, but the difference `p - start` wraps to
`2^63 - 1` and the tape reads the code of `b`.  For the line
`inf~9223372036854775807: a` the start `E + 1` of the pattern wraps to `-2^63`,
so no position lies left of it and position 0 reads blank. -/
theorem leftInf_alignment_wraps :
    TMProgram_parse "A" [] [] [TapeLine.leftInf 0 ["a", "b", "c"]]
      = some ⟨[], ⟨false, false, "A"⟩, [], [⟨0, 0, true, false, 0, ["a", "b", "c"]⟩]⟩ ∧
    (TMProgram_compile
        ⟨[], ⟨false, false, "A"⟩, [], [⟨0, 0, true, false, 0, ["a", "b", "c"]⟩]⟩ false).map
        (fun e => (e.chars.tok, e.tape.left.start, TMTape_read_at e.tape (-2 ^ 63)))
      = some (["a", "b", "c"], 1, 2) ∧
    (["a", "b", "c"] : List String).getD ((-2 ^ 63 - 0 - 1) % ((3 : Nat) : Int)).toNat "" = "a" ∧
    TMProgram_parse "A" [] [] [TapeLine.leftInf (2 ^ 63 - 1) ["a"]]
      = some ⟨[], ⟨false, false, "A"⟩, [], [⟨0, 2 ^ 63 - 1, true, false, 0, ["a"]⟩]⟩ ∧
    (TMProgram_compile
        ⟨[], ⟨false, false, "A"⟩, [], [⟨0, 2 ^ 63 - 1, true, false, 0, ["a"]⟩]⟩ false).map
        (fun e => (e.chars.tok, e.tape.left.start, TMTape_read_at e.tape 0))
      = some (["a"], -2 ^ 63, 0) := by
  refine ⟨rfl, by decide, by decide, rfl, by decide⟩

/-- Claim C14, as amended: left-infinite pattern alignment within the `int64_t`
range.  For an accepted program whose only tape line is `inf~E: d0 ... d(n-1)`
with `E + 1` representable in `int64_t`, `TMProgram_compile` returns an
executable whose tape reads the code of `d[(p - E - 1) mod n]` at every
`p ≤ E` for which `p - E - 1` is representable in `int64_t` (the last symbol of
the pattern sits at `E`) and blank at every `p > E`. -/
theorem leftInf_alignment (start : String) (finals : List String) (rules : List RuleLine)
    (E : Int) (data : List String) (fast : Bool) (p : TMProgram)
    (hp : TMProgram_parse start finals rules [TapeLine.leftInf E data] = some p)
    (hE : InI64 (E + 1)) :
    ∃ exec, TMProgram_compile p fast = some exec ∧
      ∀ pos : Int,
        (pos ≤ E → InI64 (pos - E - 1) → TMTape_read_at exec.tape pos
          = TMDict_get exec.chars (data.getD ((pos - E - 1) % (data.length : Int)).toNat "")) ∧
        (E < pos → TMTape_read_at exec.tape pos = 0) := by
  obtain ⟨_, _, hrules, htape⟩ := TMProgram_parse_some start finals rules _ p hp
  obtain ⟨hd, hes⟩ := parse_single_leftInf E data p.entries htape
  obtain ⟨exec, he, ht, _, hc⟩ :=
    TMProgram_compile_some p fast (parseRules_mem rules p.rules hrules)
  refine ⟨exec, he, ?_⟩
  have hn : 0 < data.length := Nat.pos_of_ne_zero hd
  have htape2 : exec.tape = TMTape_prepare (setLeft (TMTape_init fast)
      ⟨toI64 (E + 1), data.length, patternData exec.chars ⟨0, E, true, false, 0, data⟩⟩) := by
    rw [ht, hc, hes]
    simp [compileTape, registerPattern, writeEntry, TMProgramTapeEntry.n]
  intro pos
  rw [htape2, read_at_prepare]
  have hl : (setLeft (TMTape_init fast)
      ⟨toI64 (E + 1), data.length, patternData exec.chars ⟨0, E, true, false, 0, data⟩⟩).left
      = ⟨toI64 (E + 1), data.length, patternData exec.chars ⟨0, E, true, false, 0, data⟩⟩ :=
    rfl
  have hr : (setLeft (TMTape_init fast)
      ⟨toI64 (E + 1), data.length, patternData exec.chars ⟨0, E, true, false, 0, data⟩⟩).right
      = ⟨0, 0, []⟩ := rfl
  have hst : toI64 (E + 1) = E + 1 := toI64_eq _ hE
  unfold TMTape_undefined
  rw [hl, hr]
  constructor
  · intro hle hin
    rw [if_pos ⟨hd, by show pos < toI64 (E + 1); rw [hst]; omega⟩]
    have := leftPattern_read exec.chars ⟨0, E, true, false, 0, data⟩ hn pos hE hin
    simp only [TMProgramTapeEntry.n, Nat.add_zero] at this
    rw [this, Nat.mod_eq_of_lt]
    have h1 := Int.emod_lt_of_pos (pos - E - 1) (show (0 : Int) < data.length by omega)
    have h2 := Int.emod_nonneg (pos - E - 1) (show (data.length : Int) ≠ 0 by omega)
    omega
  · intro hgt
    rw [if_neg (by intro h; have := h.2; simp only at this; rw [hst] at this; omega),
      if_neg (by simp)]

/-- Claim C14 as amended, at a concrete input: the program with start state `A`,
no rules and the tape line `inf~-1: x y`. -/
theorem leftInf_alignment_witness :
    ∃ exec, TMProgram_compile
        ⟨[], ⟨false, false, "A"⟩, [], [⟨0, -1, true, false, 0, ["x", "y"]⟩]⟩ false = some exec ∧
      TMTape_read_at exec.tape (-1) = TMDict_get exec.chars "y" ∧
      TMTape_read_at exec.tape (-2) = TMDict_get exec.chars "x" ∧
      TMTape_read_at exec.tape (-3) = TMDict_get exec.chars "y" ∧
      TMTape_read_at exec.tape 0 = 0 := by
  obtain ⟨exec, he, h⟩ := leftInf_alignment "A" [] [] (-1) ["x", "y"] false
    ⟨[], ⟨false, false, "A"⟩, [], [⟨0, -1, true, false, 0, ["x", "y"]⟩]⟩ rfl
    (by unfold InI64; decide)
  refine ⟨exec, he, ?_, ?_, ?_, ?_⟩
  · simpa using (h (-1)).1 (by decide) (by unfold InI64; decide)
  · simpa using (h (-2)).1 (by decide) (by unfold InI64; decide)
  · simpa using (h (-3)).1 (by decide) (by unfold InI64; decide)
  · exact (h 0).2 (by decide)

/-! ## Writes leave the other cells alone -/

theorem getD_set_ne {α : Type} (l : List α) (i j : Nat) (v d : α) (h : i ≠ j) :
    (l.set i v).getD j d = l.getD j d := by
  simp [List.getD_eq_getElem?_getD, List.getElem?_set_ne h]

theorem cellRead_cellWrite_ne (mem : List Block) (k k1 sym : Nat) (h : k ≠ k1) :
    cellRead (cellWrite mem k sym) k1 = cellRead mem k1 := by
  unfold cellRead cellWrite
  by_cases hq : k / TM_BLOCK_SIZE = k1 / TM_BLOCK_SIZE
  · have hne : cellIx k1 ≠ cellIx k := by
      intro hc
      have := congrArg Fin.val hc
      simp only [cellIx] at this
      simp only [TM_BLOCK_SIZE] at hq this
      omega
    by_cases hlen : k / TM_BLOCK_SIZE < mem.length
    · rw [getD_set_of_lt _ _ _ _ _ hlen, if_pos hq, ← hq]
      simp [Block.set, hne]
    · rw [List.set_eq_of_length_le (by omega)]
  · rw [getD_set_ne _ _ _ _ _ hq]

/-- The store of `TMTape_write_at` after the two loops changes no other read. -/
theorem read_at_store_ne (t : TMTape) (pos p : Int) (sym : Nat) (h : p ≠ pos) :
    TMTape_read_at
      (if pos < 0 then { t with bkmem := cellWrite t.bkmem (-1 - pos).toNat sym }
        else { t with fwmem := cellWrite t.fwmem pos.toNat sym }) p
      = TMTape_read_at t p := by
  have hbl := bl_nonneg t
  have hbr := br_nonneg t
  by_cases hneg : pos < 0
  · rw [if_pos hneg]
    have ebl : ({ t with bkmem := cellWrite t.bkmem (-1 - pos).toNat sym } : TMTape).bl = t.bl := by
      simp [TMTape.bl, cellWrite_length]
    have ebr : ({ t with bkmem := cellWrite t.bkmem (-1 - pos).toNat sym } : TMTape).br = t.br :=
      rfl
    by_cases h1 : p < -t.bl * 16 ∨ t.br * 16 ≤ p
    · rw [read_at_out _ p (by rw [ebl, ebr]; exact h1), read_at_out t p h1]
      exact undefined_congr t _ rfl rfl p
    · by_cases h2 : p < 0
      · rw [read_at_neg _ p (by rw [ebl]; omega) h2, read_at_neg t p (by omega) h2]
        exact cellRead_cellWrite_ne _ _ _ _ (by omega)
      · rw [read_at_nonneg _ p (by omega) (by rw [ebr]; omega),
          read_at_nonneg t p (by omega) (by omega)]
  · rw [if_neg hneg]
    have ebl : ({ t with fwmem := cellWrite t.fwmem pos.toNat sym } : TMTape).bl = t.bl := rfl
    have ebr : ({ t with fwmem := cellWrite t.fwmem pos.toNat sym } : TMTape).br = t.br := by
      simp [TMTape.br, cellWrite_length]
    by_cases h1 : p < -t.bl * 16 ∨ t.br * 16 ≤ p
    · rw [read_at_out _ p (by rw [ebl, ebr]; exact h1), read_at_out t p h1]
      exact undefined_congr t _ rfl rfl p
    · by_cases h2 : p < 0
      · rw [read_at_neg _ p (by rw [ebl]; omega) h2, read_at_neg t p (by omega) h2]
      · rw [read_at_nonneg _ p (by omega) (by rw [ebr]; omega),
          read_at_nonneg t p (by omega) (by omega)]
        exact cellRead_cellWrite_ne _ _ _ _ (by omega)

theorem growRight_read (fuel : Nat) : ∀ (t : TMTape) (pos p : Int),
    TMTape_read_at (growRight fuel t pos) p = TMTape_read_at t p := by
  induction fuel with
  | zero => intro t pos p; rfl
  | succ fuel ih =>
    intro t pos p
    unfold growRight
    split_ifs
    · rw [ih, read_at_alloc_right]
    · rfl

theorem alloc_left_left (t : TMTape) (b : Bool) : (TMTape_alloc t b).left = t.left := by
  cases b <;> simp [TMTape_alloc]

theorem alloc_left_right (t : TMTape) (b : Bool) : (TMTape_alloc t b).right = t.right := by
  cases b <;> simp [TMTape_alloc]

/-- Both boundary patterns are absent. -/
theorem undefined_of_noPatterns (t : TMTape) (h : t.left.n = 0 ∧ t.right.n = 0) (p : Int) :
    TMTape_undefined t p = 0 := by
  simp [TMTape_undefined, h.1, h.2]

/-- Without boundary patterns a backward allocation changes no read. -/
theorem read_at_alloc_left (t : TMTape) (h : t.left.n = 0 ∧ t.right.n = 0) (p : Int) :
    TMTape_read_at (TMTape_alloc t false) p = TMTape_read_at t p := by
  have hbl := bl_nonneg t
  have hbr := br_nonneg t
  have hbl1 := alloc_left_bl t
  have hbr1 : (TMTape_alloc t false).br = t.br := by simp [TMTape_alloc, TMTape.br]
  have hlen : (t.bkmem.length : Int) = t.bl := rfl
  have hu : TMTape_undefined (TMTape_alloc t false) p = TMTape_undefined t p :=
    undefined_congr t _ (alloc_left_left t false) (alloc_left_right t false) p
  have hbk : (TMTape_alloc t false).bkmem = t.bkmem ++ [fun i =>
      TMTape_read_at t (-(t.bl + 1) * TM_BLOCK_SIZE + i.val)] := by simp [TMTape_alloc]
  by_cases h1 : p < -(t.bl + 1) * 16
  · rw [read_at_out _ p (by omega), read_at_out t p (by omega), hu]
  · by_cases h2 : p < -t.bl * 16
    · rw [read_at_neg _ p (by omega) (by omega), hbk, cellRead_append_eq _ _ _ (by omega),
        read_at_out t p (by omega), undefined_of_noPatterns t h]
      show TMTape_read_at t (-(t.bl + 1) * TM_BLOCK_SIZE + (cellIx (-1 - p).toNat).val) = 0
      rw [read_at_out t _ (by
        have := (cellIx (-1 - p).toNat).isLt
        simp only [TM_BLOCK_SIZE, Nat.cast_ofNat] at this ⊢
        omega)]
      exact undefined_of_noPatterns t h _
    · by_cases h3 : p < 0
      · rw [read_at_neg _ p (by omega) h3, read_at_neg t p (by omega) h3, hbk,
          cellRead_append_lt _ _ _ (by omega)]
      · by_cases h4 : p < t.br * 16
        · rw [read_at_nonneg _ p (by omega) (by omega), read_at_nonneg t p (by omega) h4]
          simp [TMTape_alloc]
        · rw [read_at_out _ p (by omega), read_at_out t p (by omega), hu]

theorem growLeft_read (fuel : Nat) : ∀ (t : TMTape) (pos p : Int),
    t.left.n = 0 ∧ t.right.n = 0 →
    TMTape_read_at (growLeft fuel t pos) p = TMTape_read_at t p := by
  induction fuel with
  | zero => intro t pos p _; rfl
  | succ fuel ih =>
    intro t pos p h
    unfold growLeft
    split_ifs
    · rw [ih _ _ _ (by rw [alloc_left_left, alloc_left_right]; exact h), read_at_alloc_left t h]
    · rfl

theorem growLeft_patterns (fuel : Nat) : ∀ (t : TMTape) (pos : Int),
    (growLeft fuel t pos).left = t.left ∧ (growLeft fuel t pos).right = t.right := by
  induction fuel with
  | zero => intro t pos; exact ⟨rfl, rfl⟩
  | succ fuel ih =>
    intro t pos
    unfold growLeft
    split_ifs
    · rw [(ih _ _).1, (ih _ _).2, alloc_left_left, alloc_left_right]; exact ⟨rfl, rfl⟩
    · exact ⟨rfl, rfl⟩

theorem growRight_patterns (fuel : Nat) : ∀ (t : TMTape) (pos : Int),
    (growRight fuel t pos).left = t.left ∧ (growRight fuel t pos).right = t.right := by
  induction fuel with
  | zero => intro t pos; exact ⟨rfl, rfl⟩
  | succ fuel ih =>
    intro t pos
    unfold growRight
    split_ifs
    · rw [(ih _ _).1, (ih _ _).2, alloc_left_left, alloc_left_right]; exact ⟨rfl, rfl⟩
    · exact ⟨rfl, rfl⟩

theorem write_at_patterns (t : TMTape) (pos : Int) (sym : Nat) :
    (TMTape_write_at t pos sym).left = t.left ∧ (TMTape_write_at t pos sym).right = t.right := by
  have h1 := growLeft_patterns (-pos).toNat t pos
  have h2 := growRight_patterns (pos + 1).toNat (growLeft (-pos).toNat t pos) pos
  unfold TMTape_write_at
  simp only []
  split_ifs
  · exact ⟨h2.1.trans h1.1, h2.2.trans h1.2⟩
  · exact ⟨h2.1.trans h1.1, h2.2.trans h1.2⟩

/-- Without boundary patterns `TMTape_write_at` changes the read at `pos` only. -/
theorem write_at_frame (t : TMTape) (h : t.left.n = 0 ∧ t.right.n = 0) (pos p : Int)
    (sym : Nat) (hp : p ≠ pos) :
    TMTape_read_at (TMTape_write_at t pos sym) p = TMTape_read_at t p := by
  unfold TMTape_write_at
  simp only []
  rw [read_at_store_ne _ pos p sym hp, growRight_read, growLeft_read _ _ _ _ h]

/-! ## The compiled tape of a single finite or right-infinite entry -/

theorem read_at_prepare_init (fast : Bool) (p : Int) :
    TMTape_read_at (TMTape_prepare (TMTape_init fast)) p = 0 := by
  rw [read_at_prepare]
  exact undefined_of_noPatterns _ ⟨rfl, rfl⟩ p

theorem prepare_patterns (t : TMTape) :
    (TMTape_prepare t).left = t.left ∧ (TMTape_prepare t).right = t.right := by
  unfold TMTape_prepare
  rw [alloc_left_left, alloc_left_right]
  exact ⟨rfl, rfl⟩

/-- What one iteration of the resolving loop leaves of the older entry covers
only positions the entry covered before, and none of the new entry when the
new entry is infinite or the older one is finite; the flags stay exclusive.
The bounds `end + 1` and `pos - 1` are assumed not to overflow. -/
theorem resolveStep_covers (new that that1 : TMProgramTapeEntry)
    (hflags : that.l_inf = false ∨ that.r_inf = false)
    (hnew : new.l_inf = false → new.r_inf = false → new.pos ≤ new.end_ + 1)
    (hr : InI64 (new.end_ + 1) ∧ InI64 (new.pos - 1))
    (h : resolveStep new that = .keep that1 ∨ ∃ cut, resolveStep new that = .split that1 cut) :
    that1.data = that.data ∧ (that1.l_inf = false ∨ that1.r_inf = false) ∧
    (that.l_inf = false ∧ that.r_inf = false → that1.l_inf = false ∧ that1.r_inf = false) ∧
    ∀ p, covers that1 p →
      covers that p ∧
      ((new.l_inf = false ∨ new.r_inf = false) →
        (new.l_inf = true ∨ new.r_inf = true ∨ (that.l_inf = false ∧ that.r_inf = false)) →
        ¬ covers new p) := by
  unfold resolveStep at h
  simp only [toI64_eq _ hr.1, toI64_eq _ hr.2] at h
  rcases h with h | ⟨cut, h⟩
  · split_ifs at h <;> simp only [Resolved.keep.injEq] at h <;> subst h
    all_goals refine ⟨rfl, by simp_all, by simp_all, ?_⟩
    all_goals intro p hc
    all_goals simp_all [covers]
    all_goals omega
  · split_ifs at h
    simp only [Resolved.split.injEq] at h
    obtain ⟨h1, _⟩ := h
    subst h1
    refine ⟨rfl, by simp_all, by simp_all, ?_⟩
    intro p hc
    simp_all [covers]
    omega

/-- The resolving loop returns when every older entry is kept: each entry it
returns is what the loop keeps of an older entry, and disjoint older entries
stay disjoint. -/
theorem resolveLoop_ok (new : TMProgramTapeEntry)
    (hnew : new.l_inf = false → new.r_inf = false → new.pos ≤ new.end_ + 1)
    (hr : InI64 (new.end_ + 1) ∧ InI64 (new.pos - 1)) :
    ∀ es : List TMProgramTapeEntry,
      (∀ e, e ∈ es → ∃ e1, resolveStep new e = .keep e1) →
      (∀ e, e ∈ es → (e.l_inf = false ∨ e.r_inf = false)) →
      ∃ es1, resolveLoop new es = .ok es1 ∧
        (∀ e1, e1 ∈ es1 → ∃ e, e ∈ es ∧ resolveStep new e = .keep e1) ∧
        (es.Pairwise DisjointEntries → es1.Pairwise DisjointEntries) := by
  intro es
  induction es with
  | nil => intro _ _; exact ⟨[], rfl, by simp, by simp⟩
  | cons that rest ih =>
    intro hk hfl
    obtain ⟨es1, h1, h2, h3⟩ := ih
      (fun e he => hk e (List.mem_cons_of_mem _ he))
      (fun e he => hfl e (List.mem_cons_of_mem _ he))
    obtain ⟨that1, hstep⟩ := hk that (List.mem_cons_self _ _)
    refine ⟨that1 :: es1, by simp [resolveLoop, hstep, h1], ?_, ?_⟩
    · intro e1 he1
      rcases List.mem_cons.1 he1 with rfl | he1
      · exact ⟨that, List.mem_cons_self _ _, hstep⟩
      · obtain ⟨e, he, hk⟩ := h2 e1 he1
        exact ⟨e, List.mem_cons_of_mem _ he, hk⟩
    · intro hp
      obtain ⟨hp1, hp2⟩ := List.pairwise_cons.1 hp
      refine List.pairwise_cons.2 ⟨?_, h3 hp2⟩
      intro e1 he1 p hc
      obtain ⟨e, he, hk⟩ := h2 e1 he1
      have c1 := ((resolveStep_covers new that that1 (hfl that (List.mem_cons_self _ _))
        hnew hr (Or.inl hstep)).2.2.2 p hc.1).1
      have c2 := ((resolveStep_covers new e e1 (hfl e (List.mem_cons_of_mem _ he))
        hnew hr (Or.inl hk)).2.2.2 p hc.2).1
      exact hp1 e he p ⟨c1, c2⟩

theorem newEntry_ok (l : TapeLine) (e : TMProgramTapeEntry) (h : newEntry l = .ok e) :
    e = lineEntry l ∧ (e.l_inf = false ∨ e.r_inf = false) ∧
    (e.l_inf = false → e.r_inf = false → e.pos ≤ e.end_ + 1) := by
  cases l with
  | insertion pos data =>
    simp only [newEntry, Except.ok.injEq] at h
    subst h
    exact ⟨rfl, Or.inl rfl, fun _ _ => by simp only []; omega⟩
  | pattern pos end_ data =>
    simp only [newEntry] at h
    split_ifs at h with h1 h2
    simp only [Except.ok.injEq] at h
    subst h
    exact ⟨rfl, Or.inl rfl, fun _ _ => by simp only []; omega⟩
  | rightInf pos data =>
    simp only [newEntry] at h
    split_ifs at h with h1
    simp only [Except.ok.injEq] at h
    subst h
    exact ⟨rfl, Or.inl rfl, fun _ hh => by simp at hh⟩
  | leftInf end_ data =>
    simp only [newEntry] at h
    split_ifs at h with h1
    simp only [Except.ok.injEq] at h
    subst h
    exact ⟨rfl, Or.inr rfl, fun hh _ => by simp at hh⟩

/-- The line loop on a run that only trims: it returns, and the entries it
returns are pairwise disjoint.  `es` are the entries the lines consumed so far
have left. -/
theorem parseTapeLines_disjoint : ∀ (lines : List TapeLine) (es : List TMProgramTapeEntry),
    es.Pairwise DisjointEntries →
    (∀ e, e ∈ es → (e.l_inf = false ∨ e.r_inf = false)) →
    (∀ l, l ∈ lines → LineInRange l) → TrimsOnly lines es →
    ∃ es1, parseTapeLines lines es = .ok es1 ∧ es1.Pairwise DisjointEntries := by
  intro lines
  induction lines with
  | nil => intro es hp _ _ _; exact ⟨es, rfl, hp⟩
  | cons l rest ih =>
    intro es hp hfl hrange htrim
    obtain ⟨⟨e0, he0⟩, hkeep, hdes, hrest⟩ := htrim
    obtain ⟨heq, hflnew, hnew⟩ := newEntry_ok l e0 he0
    subst heq
    have hr : InI64 ((lineEntry l).end_ + 1) ∧ InI64 ((lineEntry l).pos - 1) :=
      hrange l (List.mem_cons_self _ _)
    obtain ⟨es1, hl1, hl2, hl3⟩ := resolveLoop_ok (lineEntry l) hnew hr es hkeep hfl
    have hadd : addLine es l = .ok (es1 ++ [lineEntry l]) := by
      simp [addLine, he0, hl1]
    obtain ⟨es2, hr1, hr2⟩ := ih (es1 ++ [lineEntry l])
      (by
        refine List.pairwise_append.2 ⟨hl3 hp, List.pairwise_singleton _ _, ?_⟩
        intro a ha b hb p hc
        rw [List.mem_singleton] at hb
        subst hb
        obtain ⟨e, he, hk⟩ := hl2 a ha
        have hcov := (resolveStep_covers (lineEntry l) e a (hfl e he) hnew hr
          (Or.inl hk)).2.2.2 p hc.1
        by_cases hfin : (lineEntry l).finite ∧ ¬ e.finite
        · exact hdes e he hfin.1 hfin.2 p ⟨hcov.1, hc.2⟩
        · refine hcov.2 hflnew ?_ hc.2
          cases h3 : (lineEntry l).l_inf
          · cases h4 : (lineEntry l).r_inf
            · refine Or.inr (Or.inr ?_)
              by_contra hne
              exact hfin ⟨⟨h3, h4⟩, hne⟩
            · exact Or.inr (Or.inl rfl)
          · exact Or.inl rfl)
      (by
        intro e he
        rcases List.mem_append.1 he with he | he
        · obtain ⟨e', he', hk⟩ := hl2 e he
          exact (resolveStep_covers (lineEntry l) e' e (hfl e' he') hnew hr (Or.inl hk)).2.1
        · rw [List.mem_singleton] at he
          subst he
          exact hflnew)
      (fun l' hl' => hrange l' (List.mem_cons_of_mem _ hl'))
      (hrest _ hadd)
    exact ⟨es2, by simp [parseTapeLines, hadd, hr1], hr2⟩

/-- Claim C18, as amended: for every ordered list of tape lines whose bounds
`end + 1` and `pos - 1` are representable in `int64_t` and whose resolution only
trims (every line is accepted, no older entry is deleted or split, and no
finite entry is pushed while an infinite entry that overlaps it is in the
list), the resolver returns entries that are pairwise disjoint (a left-infinite
entry covering all `p ≤ end`, a right-infinite one all `p ≥ pos`). -/
theorem resolver_disjoint (lines : List TapeLine)
    (hrange : ∀ l, l ∈ lines → LineInRange l) (htrim : TrimsOnly lines []) :
    ∃ es, TMProgram_parse_tape_file lines = .ok es ∧ es.Pairwise DisjointEntries :=
  parseTapeLines_disjoint lines [] List.Pairwise.nil (by simp) hrange htrim

/-! ## The resolver: infinite entries when the loop returns -/

theorem keep_flags (new that that1 : TMProgramTapeEntry)
    (hflags : that.l_inf = false ∨ that.r_inf = false)
    (h : resolveStep new that = .keep that1) :
    (that1.l_inf = false ∨ that1.r_inf = false) ∧
    (that1.l_inf = true → that.l_inf = true ∧ new.l_inf = false) ∧
    (that1.r_inf = true → that.r_inf = true ∧ (new.l_inf = true ∨ new.r_inf = false)) := by
  unfold resolveStep at h
  split_ifs at h <;> simp only [Resolved.keep.injEq] at h <;> subst h
  all_goals simp_all

theorem resolveLoop_flags (new : TMProgramTapeEntry) :
    ∀ es es1 : List TMProgramTapeEntry, resolveLoop new es = .ok es1 →
      (∀ e, e ∈ es → (e.l_inf = false ∨ e.r_inf = false)) →
      (∀ e1, e1 ∈ es1 → (e1.l_inf = false ∨ e1.r_inf = false)) ∧
      es1.countP (fun e => e.l_inf) ≤ es.countP (fun e => e.l_inf) ∧
      es1.countP (fun e => e.r_inf) ≤ es.countP (fun e => e.r_inf) ∧
      (new.l_inf = true → es1.countP (fun e => e.l_inf) = 0) ∧
      (new.l_inf = false → new.r_inf = true → es1.countP (fun e => e.r_inf) = 0) := by
  intro es
  induction es with
  | nil =>
    intro es1 h _
    simp only [resolveLoop, Except.ok.injEq] at h
    subst h
    simp
  | cons that rest ih =>
    intro es1 h hfl
    have hfr : ∀ e, e ∈ rest → (e.l_inf = false ∨ e.r_inf = false) :=
      fun e he => hfl e (List.mem_cons_of_mem _ he)
    cases hstep : resolveStep new that with
    | split a b => simp [resolveLoop, hstep] at h
    | del => simp [resolveLoop, hstep] at h
    | keep that1 =>
      simp only [resolveLoop, hstep] at h
      cases hrest : resolveLoop new rest with
      | error err => simp [hrest] at h
      | ok es2 =>
        simp only [hrest, Except.ok.injEq] at h
        subst h
        obtain ⟨k1, k2, k3, k4, k5⟩ := ih es2 hrest hfr
        obtain ⟨f1, f2, f3⟩ := keep_flags new that that1 (hfl that (List.mem_cons_self _ _)) hstep
        refine ⟨?_, ?_, ?_, ?_, ?_⟩
        · intro e1 he1
          rcases List.mem_cons.1 he1 with rfl | he1
          · exact f1
          · exact k1 e1 he1
        · rw [List.countP_cons, List.countP_cons]
          cases h1 : that1.l_inf <;> cases h2 : that.l_inf <;>
            simp only [h1, h2, Bool.false_eq_true, if_false, if_true] at f2 ⊢
          · omega
          · omega
          · exact (f2 trivial).1.elim
          · omega
        · rw [List.countP_cons, List.countP_cons]
          cases h1 : that1.r_inf <;> cases h2 : that.r_inf <;>
            simp only [h1, h2, Bool.false_eq_true, if_false, if_true] at f3 ⊢
          · omega
          · omega
          · exact (f3 trivial).1.elim
          · omega
        · intro hl
          rw [List.countP_cons, k4 hl]
          by_cases c : that1.l_inf = true
          · have := (f2 c).2
            rw [hl] at this
            cases this
          · simp [c]
        · intro hl hr
          rw [List.countP_cons, k5 hl hr]
          by_cases c : that1.r_inf = true
          · rcases (f3 c).2 with q | q
            · rw [hl] at q; cases q
            · rw [hr] at q; cases q
          · simp [c]

theorem parseTapeLines_infinite :
    ∀ (lines : List TapeLine) (es es1 : List TMProgramTapeEntry),
      parseTapeLines lines es = .ok es1 →
      (∀ e, e ∈ es → (e.l_inf = false ∨ e.r_inf = false)) →
      es.countP (fun e => e.l_inf) ≤ 1 → es.countP (fun e => e.r_inf) ≤ 1 →
      es1.countP (fun e => e.l_inf) ≤ 1 ∧ es1.countP (fun e => e.r_inf) ≤ 1 := by
  intro lines
  induction lines with
  | nil =>
    intro es es1 h _ hl hr
    simp only [parseTapeLines, Except.ok.injEq] at h
    subst h
    exact ⟨hl, hr⟩
  | cons line lines ih =>
    intro es es1 h hfl hl hr
    simp only [parseTapeLines, addLine] at h
    cases hnew : newEntry line with
    | error err => simp [hnew] at h
    | ok new =>
      simp only [hnew] at h
      cases hloop : resolveLoop new es with
      | error err => simp [hloop] at h
      | ok older =>
        simp only [hloop] at h
        obtain ⟨k1, k2, k3, k4, k5⟩ := resolveLoop_flags new es older hloop hfl
        obtain ⟨_, nf, _⟩ := newEntry_ok line new hnew
        refine ih (older ++ [new]) es1 h ?_ ?_ ?_
        · intro e he
          rcases List.mem_append.1 he with he | he
          · exact k1 e he
          · rw [List.mem_singleton.1 he]; exact nf
        · rw [List.countP_append]
          by_cases c : new.l_inf = true
          · simp [k4 c, c]
          · simp only [List.countP_cons, List.countP_nil, c]
            simp only [Bool.false_eq_true, if_false]
            omega
        · rw [List.countP_append]
          by_cases c : new.r_inf = true
          · have c2 : new.l_inf = false := by
              rcases nf with q | q
              · exact q
              · rw [c] at q; cases q
            simp [k5 c2 c, c]
          · simp only [List.countP_cons, List.countP_nil, c]
            simp only [Bool.false_eq_true, if_false]
            omega

/-- Whenever the resolver returns, that is, whenever no line makes the loop take
a delete branch or the split branch, the entry list holds at most one
left-infinite and at most one right-infinite entry. -/
theorem infinite_entries_of_ok (lines : List TapeLine) (es : List TMProgramTapeEntry)
    (h : TMProgram_parse_tape_file lines = .ok es) :
    es.countP (fun e => e.l_inf) ≤ 1 ∧ es.countP (fun e => e.r_inf) ≤ 1 :=
  parseTapeLines_infinite lines [] es h (by simp) (by simp) (by simp)

/-! ## The resolver: rotation, symbols and the compiler -/

/-- Claim C18, the claim as stated fails: for the lines `inf~-1: x` and `-3: z`
the resolver returns the left-infinite entry ending at `-1` and the finite
entry `[-3, -3]`, which both cover the position `-3`.  It also fails where the
bound `end + 1` wraps: for the lines `0~inf: x` and
`inf~9223372036854775807: y` the start of the older entry is moved to
`end + 1`, which wraps to `-2^63`, and both entries cover the position 0. -/
theorem resolver_overlap :
    TMProgram_parse_tape_file [TapeLine.leftInf (-1) ["x"], TapeLine.insertion (-3) ["z"]]
      = .ok [⟨0, -1, true, false, 0, ["x"]⟩, ⟨-3, -3, false, false, 0, ["z"]⟩] ∧
    covers ⟨0, -1, true, false, 0, ["x"]⟩ (-3) ∧
    covers ⟨-3, -3, false, false, 0, ["z"]⟩ (-3) ∧
    ¬ ([(⟨0, -1, true, false, 0, ["x"]⟩ : TMProgramTapeEntry),
        ⟨-3, -3, false, false, 0, ["z"]⟩].Pairwise DisjointEntries) ∧
    TMProgram_parse_tape_file [TapeLine.rightInf 0 ["x"], TapeLine.leftInf (2 ^ 63 - 1) ["y"]]
      = .ok [⟨-2 ^ 63, 0, false, true, 0, ["x"]⟩, ⟨0, 2 ^ 63 - 1, true, false, 0, ["y"]⟩] ∧
    covers ⟨-2 ^ 63, 0, false, true, 0, ["x"]⟩ 0 ∧
    covers ⟨0, 2 ^ 63 - 1, true, false, 0, ["y"]⟩ 0 := by
  refine ⟨rfl, by simp [covers], by simp [covers], ?_, by rfl, by simp [covers],
    by simp [covers]⟩
  intro h
  have := (List.pairwise_cons.1 h).1 _ (List.mem_singleton.2 rfl) (-3)
  exact this ⟨by simp [covers], by simp [covers]⟩

/-- Claim C18 as amended, at a concrete input: the lines `-5~-3: a b c`,
`inf~-4: y`, `5~inf: x` and `0: z`.  The second line trims the first to
`[-3, -3]`, and the last line is a finite one pushed next to two infinite
entries that it does not overlap. -/
theorem resolver_disjoint_witness :
    ∃ es, TMProgram_parse_tape_file trimmedLines = .ok es ∧ es.Pairwise DisjointEntries := by
  refine resolver_disjoint trimmedLines ?_ ?_
  · intro l hl
    simp only [trimmedLines, List.mem_cons, List.mem_singleton, List.not_mem_nil,
      or_false] at hl
    rcases hl with rfl | rfl | rfl | rfl <;> (unfold LineInRange InI64; decide)
  · refine ⟨⟨_, rfl⟩, by simp, by simp, ?_⟩
    intro es1 h1
    have e1 : es1 = [⟨-5, -3, false, false, 0, ["a", "b", "c"]⟩] := by
      have : addLine [] (TapeLine.pattern (-5) (-3) ["a", "b", "c"])
          = .ok [⟨-5, -3, false, false, 0, ["a", "b", "c"]⟩] := by rfl
      rw [this] at h1
      exact (Except.ok.inj h1).symm
    subst e1
    refine ⟨⟨_, rfl⟩, ?_, ?_, ?_⟩
    · intro e he
      rw [List.mem_singleton] at he
      subst he
      exact ⟨_, by rfl⟩
    · intro e _ hf
      exact absurd hf.1 (by decide)
    intro es2 h2
    have e2 : es2 = [⟨-3, -3, false, false, 2, ["a", "b", "c"]⟩,
        ⟨0, -4, true, false, 0, ["y"]⟩] := by
      have : addLine [⟨-5, -3, false, false, 0, ["a", "b", "c"]⟩] (TapeLine.leftInf (-4) ["y"])
          = .ok [⟨-3, -3, false, false, 2, ["a", "b", "c"]⟩,
              ⟨0, -4, true, false, 0, ["y"]⟩] := by rfl
      rw [this] at h2
      exact (Except.ok.inj h2).symm
    subst e2
    refine ⟨⟨_, rfl⟩, ?_, ?_, ?_⟩
    · intro e he
      simp only [List.mem_cons, List.mem_singleton, List.not_mem_nil, or_false] at he
      rcases he with rfl | rfl <;> exact ⟨_, by rfl⟩
    · intro e _ hf
      exact absurd hf.2 (by decide)
    intro es3 h3
    have e3 : es3 = [⟨-3, -3, false, false, 2, ["a", "b", "c"]⟩,
        ⟨0, -4, true, false, 0, ["y"]⟩, ⟨5, 0, false, true, 0, ["x"]⟩] := by
      have : addLine [⟨-3, -3, false, false, 2, ["a", "b", "c"]⟩,
            ⟨0, -4, true, false, 0, ["y"]⟩] (TapeLine.rightInf 5 ["x"])
          = .ok [⟨-3, -3, false, false, 2, ["a", "b", "c"]⟩,
              ⟨0, -4, true, false, 0, ["y"]⟩, ⟨5, 0, false, true, 0, ["x"]⟩] := by rfl
      rw [this] at h3
      exact (Except.ok.inj h3).symm
    subst e3
    refine ⟨⟨_, rfl⟩, ?_, ?_, fun _ _ => trivial⟩
    · intro e he
      simp only [List.mem_cons, List.mem_singleton, List.not_mem_nil, or_false] at he
      rcases he with rfl | rfl | rfl <;> exact ⟨_, by rfl⟩
    · intro e he _ hne p hc
      simp only [List.mem_cons, List.mem_singleton, List.not_mem_nil, or_false] at he
      rcases he with rfl | rfl | rfl
      · exact hne ⟨rfl, rfl⟩
      · have h1 := hc.1
        have h2 := hc.2
        simp [covers, lineEntry] at h1 h2
        omega
      · have h1 := hc.1
        have h2 := hc.2
        simp [covers, lineEntry] at h1 h2
        omega

/-- Claim C13, evaluated where the code departs from it.  For the lines `0~5: a`
and `2~3: b` the resolving loop takes the split branch: it cuts the older entry
down to `[0, 1]` and builds the right remainder `[4, 5]` as `cut`, but links in
an uninitialised entry in its place and visits it next, so the parser does not
return the two pieces. -/
theorem split_inserts_uninitialised :
    resolveStep ⟨2, 3, false, false, 0, ["b"]⟩ ⟨0, 5, false, false, 0, ["a"]⟩
      = .split ⟨0, 1, false, false, 0, ["a"]⟩ ⟨4, 5, false, false, 0, ["a"]⟩ ∧
    TMProgram_parse_tape_file nestedLines = .error .uninitialisedEntry ∧
    TMProgram_parse_tape_file nestedLines
      ≠ .ok [⟨0, 1, false, false, 0, ["a"]⟩, ⟨4, 5, false, false, 0, ["a"]⟩,
          ⟨2, 3, false, false, 0, ["b"]⟩] ∧
    (TMProgram_parse "A" [] [] nestedLines).isNone = true := by
  refine ⟨rfl, rfl, ?_, rfl⟩
  intro h
  have e : TMProgram_parse_tape_file nestedLines = .error .uninitialisedEntry := rfl
  rw [e] at h
  cases h

/-- Claim C17, evaluated where the code departs from it.  For the lines
`inf~-10: x`, `0~5: a`, `2~3: b` the list already holds a left-infinite entry
when the split branch links in an entry whose `l_inf` and `r_inf` were never
written. -/
theorem split_after_infinite :
    TMProgram_parse_tape_file
      [TapeLine.leftInf (-10) ["x"], TapeLine.pattern 0 5 ["a"]]
      = .ok [⟨0, -10, true, false, 0, ["x"]⟩, ⟨0, 5, false, false, 0, ["a"]⟩] ∧
    TMProgram_parse_tape_file
      [TapeLine.leftInf (-10) ["x"], TapeLine.pattern 0 5 ["a"], TapeLine.pattern 2 3 ["b"]]
      = .error .uninitialisedEntry :=
  ⟨rfl, rfl⟩

/-- Claim C12, evaluated where the code departs from it.  For the lines
`inf~-1: x y` and `-3: z` (codes 1, 2, 3) the last line covering `-1` and `-2`
is the first one, which assigns `y` to `-1` and `x` to `-2`; the compiled tape
reads `x` at `-1` and `y` at `-2`. -/
theorem later_wins_fails :
    TMProgram_parse "A" [] [] mirrorLines = some mirrorProgram ∧
    entrySymbol ⟨0, -1, true, false, 0, ["x", "y"]⟩ (-1) = "y" ∧
    entrySymbol ⟨0, -1, true, false, 0, ["x", "y"]⟩ (-2) = "x" ∧
    (TMProgram_compile mirrorProgram false).map
        (fun e => (TMDict_get e.chars "x", TMDict_get e.chars "y", TMDict_get e.chars "z",
          TMTape_read_at e.tape (-1), TMTape_read_at e.tape (-2), TMTape_read_at e.tape (-3)))
      = some (1, 2, 3, 1, 2, 3) := by
  refine ⟨rfl, by decide, by decide, by decide⟩

/-! ## The compiled table: the last rule that addresses a cell -/

theorem markFinal_tables (states : TMDict) (fs : List TMRuleToken) :
    ∀ m : TM, (fs.foldl (markFinal states) m).n = m.n ∧
      (fs.foldl (markFinal states) m).q = m.q ∧
      (fs.foldl (markFinal states) m).s = m.s ∧
      (fs.foldl (markFinal states) m).a = m.a ∧
      (fs.foldl (markFinal states) m).m = m.m := by
  induction fs with
  | nil => intro m; exact ⟨rfl, rfl, rfl, rfl, rfl⟩
  | cons f fs ih =>
    intro m
    obtain ⟨h1, h2, h3, h4, h5⟩ := ih (markFinal states m f)
    have e : (markFinal states m f).n = m.n ∧ (markFinal states m f).q = m.q ∧
        (markFinal states m f).s = m.s ∧ (markFinal states m f).a = m.a ∧
        (markFinal states m f).m = m.m := by
      unfold markFinal
      split_ifs <;> exact ⟨rfl, rfl, rfl, rfl, rfl⟩
    simp only [List.foldl_cons]
    exact ⟨h1.trans e.1, h2.trans e.2.1, h3.trans e.2.2.1, h4.trans e.2.2.2.1,
      h5.trans e.2.2.2.2⟩

theorem cell_TM_init (n q i a : Nat) : cell (TM_init n q) i a = (0, 0, false) := by
  simp only [cell, TM_init, zalloc64, zalloc2, List.getD_eq_getElem?_getD,
    List.getElem?_replicate]
  split_ifs <;> rfl

/-- The rule loop of `TMProgram_compile`: every rule is compiled, and a cell ends
with the value of the last rule that addresses it, or with its old value. -/
theorem rules_updates (states chars : TMDict) :
    ∀ (rs : List TMRule) (m : TM), TableOK m states.n →
      (∀ r, r ∈ rs →
        (r.s_from.any = false →
          1 ≤ TMDict_get states r.s_from.str ∧ TMDict_get states r.s_from.str ≤ states.n) ∧
        (r.a_from.any = false → TMDict_get chars r.a_from.str < m.n)) →
      ∃ m1, rs.foldlM (fun m r => compileRule states chars r m) m = some m1 ∧
        m1.n = m.n ∧ m1.q = m.q ∧ m1.ok = m.ok ∧
        ∀ i a, 1 ≤ i → i ≤ states.n → a < m.n →
          cell m1 i a =
            match rs.reverse.find? (fun r => ruleAddresses states chars r i a) with
            | some r => ruleValue states chars r i a
            | none => cell m i a := by
  intro rs
  induction rs with
  | nil =>
    intro m _ _
    exact ⟨m, rfl, rfl, rfl, rfl, fun i a _ _ _ => by simp⟩
  | cons r rs ih =>
    intro m hT hr
    obtain ⟨m1, e1, n1, q1, ok1, s1, a1, mo1, c1⟩ :=
      compileRule_updates states chars r m hT (hr r (List.mem_cons_self _ _)).1
        (hr r (List.mem_cons_self _ _)).2
    obtain ⟨m2, e2, n2, q2, ok2, c2⟩ := ih m1 (Updates.tableOK hT n1 s1 a1 mo1)
      (fun x hx => ⟨(hr x (List.mem_cons_of_mem _ hx)).1, by
        rw [n1]; exact (hr x (List.mem_cons_of_mem _ hx)).2⟩)
    refine ⟨m2, by simp [List.foldlM_cons, e1, e2], n2.trans n1, q2.trans q1, ok2.trans ok1, ?_⟩
    intro i a hi1 hi2 ha
    rw [c2 i a hi1 hi2 (by rw [n1]; exact ha), List.reverse_cons, List.find?_append]
    cases hf : rs.reverse.find? (fun r => ruleAddresses states chars r i a) with
    | some x => simp
    | none =>
      simp only [Option.none_or, List.find?_cons, List.find?_nil]
      rw [c1 i a hi1 hi2 ha]
      by_cases hw : ruleAddresses states chars r i a = true
      · have hw1 := hw
        unfold ruleAddresses at hw1
        simp only [hw, hw1, if_true]
        rfl
      · have hw1 := hw
        unfold ruleAddresses at hw1
        simp only [hw, hw1]
        simp

/-- The table `TMProgram_compile` returns for an accepted program: every cell of
a registered state holds the value of the last rule that addresses it. -/
theorem compile_cells (start : String) (finals : List String) (rules : List RuleLine)
    (tape : List TapeLine) (p : TMProgram) (fast : Bool)
    (hp : TMProgram_parse start finals rules tape = some p)
    (hsize : ((compileChars p).n + 1) * ((compileStates p).n + 1) ≤ 2 ^ 64) :
    ∃ e, TMProgram_compile p fast = some e ∧
      e.states = compileStates p ∧ e.chars = compileChars p ∧
      e.tape = compileTape (compileChars p) p.entries fast ∧
      e.machine.n = e.chars.n + 1 ∧ e.machine.q = e.states.n + 1 ∧
      e.machine.ok = (p.final_states.foldl (markFinal (compileStates p))
        (TM_init ((compileChars p).n + 1) ((compileStates p).n + 1))).ok ∧
      ∀ i a, 1 ≤ i → i ≤ e.states.n → a < e.machine.n →
        cell e.machine i a = lastWrite e.states e.chars p.rules i a := by
  obtain ⟨_, _, hrules, _⟩ := TMProgram_parse_some start finals rules tape p hp
  have hacc := parseRules_mem rules p.rules hrules
  obtain ⟨t1, t2, t3, t4, t5⟩ := markFinal_tables (compileStates p) p.final_states
    (TM_init ((compileChars p).n + 1) ((compileStates p).n + 1))
  have hT : TableOK (p.final_states.foldl (markFinal (compileStates p))
      (TM_init ((compileChars p).n + 1) ((compileStates p).n + 1))) (compileStates p).n := by
    unfold TableOK
    rw [t1, t3, t4, t5]
    simp only [TM_init, zalloc64, zalloc2, List.length_replicate]
    have : (compileStates p).n * ((compileChars p).n + 1)
        ≤ ((compileChars p).n + 1) * ((compileStates p).n + 1) := by
      rw [Nat.mul_comm]
      exact Nat.mul_le_mul_left _ (Nat.le_succ _)
    exact ⟨this, this, this, le_trans this hsize⟩
  obtain ⟨m2, e2, n2, q2, ok2, c2⟩ := rules_updates (compileStates p) (compileChars p) p.rules _ hT
    (by
      intro r hr
      refine ⟨?_, ?_⟩
      · intro hany
        obtain ⟨sf, af, st, a_t, dir, hpr⟩ := hacc r hr
        obtain ⟨e, _, hnull, _⟩ := parseRule_some sf af st a_t dir r hpr
        have hstr : r.s_from.str = sf := by rw [e]; rfl
        have hn : r.s_from.null = false := by
          rw [e]; simp [TMRuleToken_init, hnull]
        have hmem := compileStates_s_from p r hr hany hn
        exact ⟨TMDict_get_pos (compileStates p) r.s_from.str hmem (by rw [hstr]; exact hnull),
          TMDict_get_le _ _⟩
      · intro _
        rw [t1]
        have := TMDict_get_le (compileChars p) r.a_from.str
        simp only [TM_init]
        omega)
  refine ⟨⟨m2, compileTape (compileChars p) p.entries fast, compileStates p, compileChars p⟩,
    by simp only [TMProgram_compile, e2, Option.map_some'], rfl, rfl, rfl, ?_, ?_, ok2, ?_⟩
  · show m2.n = (compileChars p).n + 1
    rw [n2, t1]; rfl
  · show m2.q = (compileStates p).n + 1
    rw [q2, t2]; rfl
  · intro i a hi1 hi2 ha
    have ha : a < m2.n := ha
    rw [n2, t1] at ha
    show cell m2 i a = lastWrite (compileStates p) (compileChars p) p.rules i a
    rw [c2 i a hi1 hi2 (by rw [t1]; exact ha)]
    unfold lastWrite
    cases hf : p.rules.reverse.find? (fun r => ruleAddresses (compileStates p) (compileChars p) r i a) with
    | some x => rfl
    | none =>
      simp only []
      unfold cell
      unfold tableIndex
      rw [t1, t3, t4, t5]
      exact cell_TM_init _ _ i a

theorem TMTape_step_state (t : TMTape) (right : Bool) : (TMTape_step t right).state = t.state := by
  unfold TMTape_step TMTape_alloc
  simp only []
  split_ifs <;> rfl

theorem TMTape_write_state (t : TMTape) (sym : Nat) : (TMTape_write t sym).state = t.state := by
  unfold TMTape_write
  split_ifs <;> rfl

theorem lastWrite_of_unaddressed (states chars : TMDict) (rules : List TMRule) (i a : Nat)
    (h : ∀ r, r ∈ rules → ruleAddresses states chars r i a = false) :
    lastWrite states chars rules i a = (0, 0, false) := by
  unfold lastWrite
  have : rules.reverse.find? (fun r => ruleAddresses states chars r i a) = none := by
    rw [List.find?_eq_none]
    intro r hr
    rw [h r (List.mem_reverse.1 hr)]
    simp
  rw [this]

/-- Claim C21: last write wins.  For every program the parser accepts (whose
table fits the 64-bit index), `TMProgram_compile` returns an executable, and the
value of each table cell `(i, a)` of a registered state `i` and a symbol
`a < n` is the value given by the last rule in declaration order that addresses
the cell (the zeroes of `TM_init` when none does). -/
theorem last_write_wins (start : String) (finals : List String) (rules : List RuleLine)
    (tape : List TapeLine) (p : TMProgram) (fast : Bool)
    (hp : TMProgram_parse start finals rules tape = some p)
    (hsize : ((compileChars p).n + 1) * ((compileStates p).n + 1) ≤ 2 ^ 64) :
    ∃ e, TMProgram_compile p fast = some e ∧
      e.states = compileStates p ∧ e.chars = compileChars p ∧
      e.machine.n = e.chars.n + 1 ∧
      ∀ i a, 1 ≤ i → i ≤ e.states.n → a < e.machine.n →
        cell e.machine i a = lastWrite e.states e.chars p.rules i a := by
  obtain ⟨e, h1, h2, h3, _, h5, _, _, h8⟩ := compile_cells start finals rules tape p fast hp hsize
  exact ⟨e, h1, h2, h3, h5, h8⟩

/-- Claim C21 at the rules `* a -> s1 b r` and `q3 a -> s2 c l` (states `q1`,
`s1`, `q3`, `s2` with codes 1 to 4, symbols `a`, `b`, `c` with codes 1 to 3):
the cell `(q3, a)` is `(s2, c, left)` and the cell `(i, a)` of every other state
is `(s1, b, right)`. -/
theorem last_write_wins_witness :
    ∃ e, TMProgram_compile lastWriteProgram false = some e ∧
      e.states.tok = ["q1", "s1", "q3", "s2"] ∧ e.chars.tok = ["a", "b", "c"] ∧
      cell e.machine 3 1 = (4, 3, false) ∧
      cell e.machine 1 1 = (2, 2, true) ∧ cell e.machine 2 1 = (2, 2, true) ∧
      cell e.machine 4 1 = (2, 2, true) := by
  obtain ⟨e, h1, h2, h3, h4, h5⟩ :=
    last_write_wins "q1" [] lastWriteRules [] lastWriteProgram false rfl (by decide)
  have hn : e.machine.n = 4 := by rw [h4, h3]; decide
  have hq : e.states.n = 4 := by rw [h2]; decide
  refine ⟨e, h1, by rw [h2]; decide, by rw [h3]; decide, ?_, ?_, ?_, ?_⟩
  · rw [h5 3 1 (by decide) (by omega) (by omega), h2, h3]; decide
  · rw [h5 1 1 (by decide) (by omega) (by omega), h2, h3]; decide
  · rw [h5 2 1 (by decide) (by omega) (by omega), h2, h3]; decide
  · rw [h5 4 1 (by decide) (by omega) (by omega), h2, h3]; decide

/-- Claim C22, the claim as stated fails for a final state: in the program with
the start state `A`, the final state `A` and no rules, no rule addresses the
cell `(1, 0)` and its next-state entry is 0, but the compiled tape, in state 1
with the head on the symbol 0, is still in state 1 after `TM_step`. -/
theorem unset_cell_final_state :
    TMProgram_parse "A" ["A"] [] [] = some finalStartProgram ∧
    finalStartProgram.rules = [] ∧
    (TMProgram_compile finalStartProgram false).map
        (fun e => (e.machine.s.getD (tableIndex e.machine 1 0) 0, e.tape.state,
          TMTape_read e.tape, (TM_step e.machine e.tape).1,
          (TM_step e.machine e.tape).2.state))
      = some (0, 1, 0, 1, 1) := by
  refine ⟨rfl, rfl, by decide⟩

/-- Claim C22, as amended: unset cells halt.  For every program the parser
accepts (whose table fits the 64-bit index) and every cell `(i, a)` of a
registered state that no rule addresses, the next-state entry of the compiled
table is 0, and a tape in the state `i`, not flagged final, whose head reads `a`
is in the undefined state 0 after one `TM_step`, which returns 0. -/
theorem unset_cells_halt (start : String) (finals : List String) (rules : List RuleLine)
    (tape : List TapeLine) (p : TMProgram) (fast : Bool)
    (hp : TMProgram_parse start finals rules tape = some p)
    (hsize : ((compileChars p).n + 1) * ((compileStates p).n + 1) ≤ 2 ^ 64) :
    ∃ e, TMProgram_compile p fast = some e ∧
      e.states = compileStates p ∧ e.chars = compileChars p ∧
      e.machine.n = e.chars.n + 1 ∧
      e.machine.ok = (p.final_states.foldl (markFinal (compileStates p))
        (TM_init ((compileChars p).n + 1) ((compileStates p).n + 1))).ok ∧
      ∀ i a, 1 ≤ i → i ≤ e.states.n → a < e.machine.n →
        (∀ r, r ∈ p.rules → ruleAddresses e.states e.chars r i a = false) →
        e.machine.s.getD (tableIndex e.machine i a) 0 = 0 ∧
        ∀ t : TMTape, t.state = i → TMTape_read t = a →
          e.machine.ok.getD (i - 1) false = false →
          (TM_step e.machine t).1 = 0 ∧ (TM_step e.machine t).2.state = 0 := by
  obtain ⟨e, h1, h2, h3, _, h5, _, h7, h8⟩ :=
    compile_cells start finals rules tape p fast hp hsize
  refine ⟨e, h1, h2, h3, h5, h7, ?_⟩
  intro i a hi1 hi2 ha hun
  have hc := h8 i a hi1 hi2 ha
  rw [lastWrite_of_unaddressed _ _ _ i a hun] at hc
  have hs : e.machine.s.getD (tableIndex e.machine i a) 0 = 0 := by
    have := congrArg Prod.fst hc
    exact this
  refine ⟨hs, ?_⟩
  intro t ht hr hok
  have hh : halted e.machine t = false := by
    unfold halted
    rw [ht, hok]
    simp
    omega
  have key : (TM_step e.machine t).2.state = 0 := by
    unfold TM_step
    simp only [hh, Bool.false_eq_true, if_false]
    rw [TMTape_step_state, TMTape_write_state, ht, hr]
    exact hs
  refine ⟨?_, key⟩
  have : (TM_step e.machine t).1 = (TM_step e.machine t).2.state := by
    unfold TM_step
    split_ifs <;> rfl
  rw [this, key]

/-- Claim C22 as amended, at the program with the rule `A x -> B y r`: no rule
addresses the cell `(B, blank)`, and a tape in state `B` reading a blank is in
state 0 after one `TM_step`. -/
theorem unset_cells_halt_witness :
    ∃ e, TMProgram_compile oneRuleProgram false = some e ∧
      e.machine.s.getD (tableIndex e.machine 2 0) 0 = 0 ∧
      (TM_step e.machine blankTapeState2).2.state = 0 := by
  obtain ⟨e, h1, h2, h3, h4, h5, h6⟩ :=
    unset_cells_halt "A" [] [⟨"A", "x", "B", "y", "r"⟩] [] oneRuleProgram false rfl (by decide)
  have hn : e.machine.n = 3 := by rw [h4, h3]; decide
  have hq : e.states.n = 2 := by rw [h2]; decide
  have h := h6 2 0 (by decide) (by omega) (by omega)
    (by rw [h2, h3]; decide)
  exact ⟨e, h1, h.1, (h.2 blankTapeState2 rfl rfl (by rw [h5]; decide)).2⟩

/-! ## The start state and the compiled tape -/

theorem TMDict_put_head (d : TMDict) (s x : String) (rest : List String)
    (h : d.tok = x :: rest) : ∃ rest1, (TMDict_put d s).2.tok = x :: rest1 := by
  rw [TMDict_put_tok, h]
  split_ifs
  · exact ⟨rest, rfl⟩
  · exact ⟨rest ++ [s], rfl⟩

theorem put_copy_head (d : TMDict) (tok : TMRuleToken) (x : String)
    (h : ∃ rest, d.tok = x :: rest) : ∃ rest1, (TMDict_put_copy_if_unique d tok).tok = x :: rest1 := by
  obtain ⟨rest, h⟩ := h
  unfold TMDict_put_copy_if_unique
  split_ifs
  · exact TMDict_put_head d _ x rest h
  · exact ⟨rest, h⟩

theorem foldl_head {α : Type} (f : TMDict → α → TMDict) (x : String)
    (hf : ∀ d a, (∃ rest, d.tok = x :: rest) → ∃ rest1, (f d a).tok = x :: rest1)
    (l : List α) :
    ∀ d : TMDict, (∃ rest, d.tok = x :: rest) → ∃ rest1, (l.foldl f d).tok = x :: rest1 := by
  induction l with
  | nil => intro d h; exact h
  | cons a l ih => intro d h; exact ih (f d a) (hf d a h)

theorem parseStateName_some (name : String) (tok : TMRuleToken)
    (h : parseStateName name = some tok) :
    tok = ⟨false, false, name⟩ ∧ name ≠ "null" ∧ name ≠ "*" ∧ name ≠ "_" ∧
      check_name name = true := by
  unfold parseStateName at h
  split_ifs at h with h1 h2 h3
  simp only [Option.some.injEq] at h
  simp only [not_or] at h3
  exact ⟨h.symm, h2, h3.1, h3.2, by simpa using h1⟩

/-- The start state is the first token of the state dictionary. -/
theorem compileStates_head (p : TMProgram) (start : String)
    (h : p.start_state = ⟨false, false, start⟩) :
    ∃ rest, (compileStates p).tok = start :: rest := by
  unfold compileStates
  apply foldl_head _ start (fun d a hd => put_copy_head d a start hd)
  apply foldl_head _ start
    (fun d a hd => put_copy_head _ a.s_to start (put_copy_head d a.s_from start hd))
  rw [h]
  exact ⟨[], rfl⟩

theorem alloc_pos_state (t : TMTape) (right : Bool) :
    (TMTape_alloc t right).pos = t.pos ∧ (TMTape_alloc t right).state = t.state := by
  unfold TMTape_alloc
  simp only []
  split_ifs <;> exact ⟨rfl, rfl⟩

theorem growLeft_pos_state (fuel : Nat) : ∀ (t : TMTape) (pos : Int),
    (growLeft fuel t pos).pos = t.pos ∧ (growLeft fuel t pos).state = t.state := by
  induction fuel with
  | zero => intro t pos; exact ⟨rfl, rfl⟩
  | succ fuel ih =>
    intro t pos
    unfold growLeft
    split_ifs
    · rw [(ih _ _).1, (ih _ _).2]; exact alloc_pos_state t false
    · exact ⟨rfl, rfl⟩

theorem growRight_pos_state (fuel : Nat) : ∀ (t : TMTape) (pos : Int),
    (growRight fuel t pos).pos = t.pos ∧ (growRight fuel t pos).state = t.state := by
  induction fuel with
  | zero => intro t pos; exact ⟨rfl, rfl⟩
  | succ fuel ih =>
    intro t pos
    unfold growRight
    split_ifs
    · rw [(ih _ _).1, (ih _ _).2]; exact alloc_pos_state t true
    · exact ⟨rfl, rfl⟩

theorem write_at_pos_state (t : TMTape) (pos : Int) (sym : Nat) :
    (TMTape_write_at t pos sym).pos = t.pos ∧ (TMTape_write_at t pos sym).state = t.state := by
  have h1 := growLeft_pos_state (-pos).toNat t pos
  have h2 := growRight_pos_state (pos + 1).toNat (growLeft (-pos).toNat t pos) pos
  unfold TMTape_write_at
  simp only []
  split_ifs
  · exact ⟨h2.1.trans h1.1, h2.2.trans h1.2⟩
  · exact ⟨h2.1.trans h1.1, h2.2.trans h1.2⟩

theorem foldl_pos_state {α : Type} (f : TMTape → α → TMTape)
    (hf : ∀ t a, (f t a).pos = t.pos ∧ (f t a).state = t.state) (l : List α) :
    ∀ t : TMTape, (l.foldl f t).pos = t.pos ∧ (l.foldl f t).state = t.state := by
  induction l with
  | nil => intro t; exact ⟨rfl, rfl⟩
  | cons a l ih =>
    intro t
    exact ⟨(ih (f t a)).1.trans (hf t a).1, (ih (f t a)).2.trans (hf t a).2⟩

theorem writeEntry_pos_state (chars : TMDict) (t : TMTape) (e : TMProgramTapeEntry) :
    (writeEntry chars t e).pos = t.pos ∧ (writeEntry chars t e).state = t.state := by
  unfold writeEntry
  split_ifs
  · exact foldl_pos_state _ (fun tt k => write_at_pos_state tt _ _) _ t
  · exact ⟨rfl, rfl⟩

/-- The tape `TMProgram_compile` builds has the head at 0 and the state 1. -/
theorem compileTape_pos_state (chars : TMDict) (entries : List TMProgramTapeEntry)
    (fast : Bool) :
    (compileTape chars entries fast).pos = 0 ∧ (compileTape chars entries fast).state = 1 := by
  unfold compileTape
  have h := foldl_pos_state (writeEntry chars) (writeEntry_pos_state chars) entries
    (TMTape_prepare (entries.foldl (registerPattern chars) (TMTape_init fast)))
  rw [h.1, h.2]
  unfold TMTape_prepare
  rw [(alloc_pos_state _ true).1, (alloc_pos_state _ true).2]
  exact ⟨rfl, rfl⟩

/-- Claim C23: the machine starts in the declared start state at the origin.
For every program the parser accepts, `TMProgram_compile` returns an executable
in whose state dictionary the start-state token has the code 1, and whose tape
has the state 1 and the head position 0. -/
theorem start_state_at_origin (start : String) (finals : List String)
    (rules : List RuleLine) (tape : List TapeLine) (p : TMProgram) (fast : Bool)
    (hp : TMProgram_parse start finals rules tape = some p) :
    ∃ e, TMProgram_compile p fast = some e ∧
      TMDict_get e.states start = 1 ∧ TMDict_at e.states 1 = some start ∧
      (TMDict_put e.states start).1 = 1 ∧
      e.tape.state = 1 ∧ e.tape.pos = 0 := by
  obtain ⟨hs, _, hrules, _⟩ := TMProgram_parse_some start finals rules tape p hp
  obtain ⟨hst, hnull, _, _, _⟩ := parseStateName_some start p.start_state hs
  obtain ⟨e, he, ht, hd, _⟩ := TMProgram_compile_some p fast (parseRules_mem rules p.rules hrules)
  obtain ⟨rest, hrest⟩ := compileStates_head p start hst
  have hpos := compileTape_pos_state (compileChars p) p.entries fast
  refine ⟨e, he, ?_, ?_, ?_, by rw [ht]; exact hpos.2, by rw [ht]; exact hpos.1⟩
  · rw [hd]
    unfold TMDict_get
    rw [hrest]
    simp [hnull]
  · rw [hd]
    unfold TMDict_at TMDict.n
    rw [hrest]
    simp
  · rw [hd]
    unfold TMDict_put
    rw [hrest]
    simp

/-- Claim C23 at the program with the start state `A` and the tape lines
`inf~-1: x y` and `-3: z`. -/
theorem start_state_at_origin_witness :
    ∃ e, TMProgram_compile mirrorProgram false = some e ∧
      TMDict_get e.states "A" = 1 ∧ TMDict_at e.states 1 = some "A" ∧
      (TMDict_put e.states "A").1 = 1 ∧
      e.tape.state = 1 ∧ e.tape.pos = 0 :=
  start_state_at_origin "A" [] [] mirrorLines mirrorProgram false rfl

/-! ## Dictionaries: registration order and the two lookups -/

theorem TMDict_put_absent (d : TMDict) (tok : String) (h : tok ∉ d.tok) :
    TMDict_put d tok = (d.n + 1, ⟨d.tok ++ [tok]⟩) := by
  unfold TMDict_put TMDict.n
  have : ¬ List.indexOf tok d.tok < d.tok.length := fun hh => h (List.indexOf_lt_length.1 hh)
  rw [if_neg this]

theorem TMDict_put_present (d : TMDict) (tok : String) (h : tok ∈ d.tok) :
    TMDict_put d tok = (d.tok.indexOf tok + 1, d) := by
  unfold TMDict_put
  rw [if_pos (List.indexOf_lt_length.2 h)]

theorem TMDict_at_index (d : TMDict) (tok : String) (h : tok ∈ d.tok) :
    TMDict_at d (d.tok.indexOf tok + 1) = some tok := by
  unfold TMDict_at TMDict.n
  have := List.indexOf_lt_length.2 h
  rw [if_pos ⟨by omega, by omega⟩]
  simp only [Nat.add_sub_cancel, List.get?_eq_getElem?]
  exact List.getElem?_indexOf h

theorem TMDict_at_none (d : TMDict) (k : Nat) (h : k = 0 ∨ d.n < k) : TMDict_at d k = none := by
  unfold TMDict_at
  rw [if_neg]
  intro hh
  omega

theorem TMDict_get_absent (d : TMDict) (tok : String) (h : tok ∉ d.tok) :
    TMDict_get d tok = 0 := by
  unfold TMDict_get
  have : ¬ List.indexOf tok d.tok < d.tok.length := fun hh => h (List.indexOf_lt_length.1 hh)
  split_ifs <;> rfl

theorem TMDict_get_present (d : TMDict) (tok : String) (h : tok ∈ d.tok) :
    TMDict_get d tok = if tok = "null" then 0 else d.tok.indexOf tok + 1 := by
  unfold TMDict_get
  rw [if_pos (List.indexOf_lt_length.2 h)]

theorem foldl_put_nodup : ∀ (toks : List String) (d : TMDict), d.tok.Nodup →
    (toks.foldl (fun d s => (TMDict_put d s).2) d).tok.Nodup ∧
    ∀ x, x ∈ (toks.foldl (fun d s => (TMDict_put d s).2) d).tok ↔ x ∈ d.tok ∨ x ∈ toks := by
  intro toks
  induction toks with
  | nil => intro d h; exact ⟨h, fun x => by simp⟩
  | cons s toks ih =>
    intro d h
    have hn : (TMDict_put d s).2.tok.Nodup := by
      rw [TMDict_put_tok]
      split_ifs with hs
      · exact h
      · exact List.Nodup.append h (List.nodup_singleton s)
          (by simpa [List.disjoint_singleton] using hs)
    obtain ⟨k1, k2⟩ := ih (TMDict_put d s).2 hn
    refine ⟨k1, fun x => ?_⟩
    simp only [List.foldl_cons]
    rw [k2 x, TMDict_put_tok]
    split_ifs with hs
    · constructor
      · rintro (hx | hx)
        · exact Or.inl hx
        · exact Or.inr (List.mem_cons_of_mem _ hx)
      · rintro (hx | hx)
        · exact Or.inl hx
        · rcases List.mem_cons.1 hx with rfl | hx
          · exact Or.inl hs
          · exact Or.inr hx
    · simp only [List.mem_append, List.mem_singleton, List.mem_cons]
      tauto

/-- A dictionary built from the empty one by puts holds every token once, and
holds exactly the tokens that were put. -/
theorem putAll_nodup (toks : List String) :
    (putAll toks).tok.Nodup ∧ ∀ x, x ∈ (putAll toks).tok ↔ x ∈ toks := by
  obtain ⟨h1, h2⟩ := foldl_put_nodup toks TMDict_init (by simp [TMDict_init])
  exact ⟨h1, fun x => by rw [putAll, h2 x]; simp [TMDict_init]⟩

/-- In a dictionary without repeated tokens every code `1 .. n` has a token, and
that token is at the index `k - 1`. -/
theorem TMDict_at_code (d : TMDict) (hd : d.tok.Nodup) (k : Nat) (h1 : 1 ≤ k) (h2 : k ≤ d.n) :
    ∃ s, TMDict_at d k = some s ∧ s ∈ d.tok ∧ d.tok.indexOf s + 1 = k := by
  unfold TMDict.n at h2
  have hk : k - 1 < d.tok.length := by omega
  refine ⟨d.tok[k - 1], ?_, List.getElem_mem _, ?_⟩
  · unfold TMDict_at TMDict.n
    rw [if_pos ⟨by omega, h2⟩]
    simp only [List.get?_eq_getElem?]
    exact List.getElem?_eq_getElem hk
  · rw [List.indexOf_getElem hd (k - 1) hk]
    omega

/-- Claim C24: `TMDict_put` is idempotent and assigns codes in first-registration
order.  Putting a token that is absent from a dictionary of `n` tokens returns
`n + 1` and appends exactly that token; putting a token that is present returns
its code (a code in `1 .. n` whose token it is) and leaves the dictionary
unchanged, so a second put of the same token changes nothing; and in a
dictionary built from the empty one by any sequence of puts every token occurs
once, every code `1 .. n` is the code of a token that was put, and every token
that was put has a code in `1 .. n`. -/
theorem TMDict_put_codes (d : TMDict) (tok : String) (toks : List String) :
    (tok ∉ d.tok →
      (TMDict_put d tok).1 = d.n + 1 ∧ (TMDict_put d tok).2.tok = d.tok ++ [tok] ∧
      (TMDict_put d tok).2.n = d.n + 1) ∧
    (tok ∈ d.tok →
      (TMDict_put d tok).2 = d ∧ 1 ≤ (TMDict_put d tok).1 ∧ (TMDict_put d tok).1 ≤ d.n ∧
      TMDict_at d (TMDict_put d tok).1 = some tok) ∧
    TMDict_put (TMDict_put d tok).2 tok = ((TMDict_put d tok).1, (TMDict_put d tok).2) ∧
    (putAll toks).tok.Nodup ∧
    (∀ k, 1 ≤ k → k ≤ (putAll toks).n →
      ∃ s, s ∈ toks ∧ TMDict_put (putAll toks) s = (k, putAll toks)) ∧
    (∀ s, s ∈ toks →
      1 ≤ (TMDict_put (putAll toks) s).1 ∧ (TMDict_put (putAll toks) s).1 ≤ (putAll toks).n ∧
      (TMDict_put (putAll toks) s).2 = putAll toks) := by
  have present : ∀ (dd : TMDict) (s : String), s ∈ dd.tok →
      (TMDict_put dd s).2 = dd ∧ 1 ≤ (TMDict_put dd s).1 ∧ (TMDict_put dd s).1 ≤ dd.n ∧
      TMDict_at dd (TMDict_put dd s).1 = some s := by
    intro dd s h
    rw [TMDict_put_present dd s h]
    have := List.indexOf_lt_length.2 h
    exact ⟨rfl, by simp, by simp only [TMDict.n]; omega, TMDict_at_index dd s h⟩
  obtain ⟨hnd, hmem⟩ := putAll_nodup toks
  refine ⟨?_, present d tok, ?_, hnd, ?_, ?_⟩
  · intro h
    rw [TMDict_put_absent d tok h]
    exact ⟨rfl, rfl, by simp [TMDict.n]⟩
  · by_cases h : tok ∈ d.tok
    · have e := TMDict_put_present d tok h
      rw [e]
      exact e
    · rw [TMDict_put_absent d tok h]
      have hin : tok ∈ (⟨d.tok ++ [tok]⟩ : TMDict).tok := by simp
      rw [TMDict_put_present _ tok hin]
      simp only [List.indexOf_append_of_not_mem h, List.indexOf_cons_self, TMDict.n,
        Nat.add_zero]
  · intro k h1 h2
    obtain ⟨s, _, hs, hi⟩ := TMDict_at_code (putAll toks) hnd k h1 h2
    exact ⟨s, (hmem s).1 hs, by rw [TMDict_put_present _ s hs, hi]⟩
  · intro s hs
    obtain ⟨a1, a2, a3, _⟩ := present (putAll toks) s ((hmem s).2 hs)
    exact ⟨a2, a3, a1⟩

/-- Claim C24 at the puts of `a`, `b`, `a`, `c`: the codes are 1, 2, 1, 3 and the
dictionary holds `a`, `b`, `c`. -/
theorem TMDict_put_codes_witness :
    (putAll ["a", "b", "a", "c"]).tok = ["a", "b", "c"] ∧
    (TMDict_put (putAll ["a", "b"]) "c").1 = 3 ∧
    (TMDict_put (putAll ["a", "b"]) "a").2 = putAll ["a", "b"] ∧
    (∃ s, s ∈ ["a", "b", "a", "c"] ∧
      TMDict_put (putAll ["a", "b", "a", "c"]) s = (2, putAll ["a", "b", "a", "c"])) :=
  ⟨by decide,
   by
    have h := ((TMDict_put_codes (putAll ["a", "b"]) "c" []).1 (by decide)).1
    rw [h]; decide,
   ((TMDict_put_codes (putAll ["a", "b"]) "a" []).2.1 (by decide)).1,
   (TMDict_put_codes TMDict_init "a" ["a", "b", "a", "c"]).2.2.2.2.1 2 (by decide) (by decide)⟩

/-- Claim C25, the claim as stated fails when `null` is put: in the dictionary
built from the empty one by `TMDict_put(dict, "null")` the code 1 is in `1 .. n`
and `TMDict_at` returns `null` for it, but `TMDict_get` returns 0 for `null`. -/
theorem get_at_null :
    (putAll ["null"]).n = 1 ∧ (TMDict_put TMDict_init "null").1 = 1 ∧
    TMDict_at (putAll ["null"]) 1 = some "null" ∧
    TMDict_get (putAll ["null"]) "null" = 0 ∧
    ¬ (∀ k, 1 ≤ k → k ≤ (putAll ["null"]).n →
        ∃ s, TMDict_at (putAll ["null"]) k = some s ∧ TMDict_get (putAll ["null"]) s = k) := by
  refine ⟨by decide, by decide, by decide, by decide, ?_⟩
  intro h
  obtain ⟨s, h1, h2⟩ := h 1 (by decide) (by decide)
  have e : TMDict_at (putAll ["null"]) 1 = some "null" := by decide
  rw [e] at h1
  simp only [Option.some.injEq] at h1
  subst h1
  revert h2
  decide

/-- Claim C25, as amended: the dictionary maps registered tokens to the codes
`1 .. n` and back.  For every dictionary built from the empty one by
`TMDict_put` calls: `TMDict_at` of the code a put returns is the token that was
put; for every `k` in `1 .. n`, `TMDict_at` returns a token, and `TMDict_get` of
that token is `k` unless the token is `null`, for which `TMDict_get` returns 0;
`TMDict_get` returns 0 for every unregistered token; and `TMDict_at` returns
nothing for 0 and for every `k > n`. -/
theorem TMDict_bijection (toks : List String) :
    (∀ tok, TMDict_at (TMDict_put (putAll toks) tok).2 (TMDict_put (putAll toks) tok).1
        = some tok) ∧
    (∀ k, 1 ≤ k → k ≤ (putAll toks).n →
      ∃ s, TMDict_at (putAll toks) k = some s ∧
        TMDict_get (putAll toks) s = if s = "null" then 0 else k) ∧
    (∀ tok, tok ∉ (putAll toks).tok → TMDict_get (putAll toks) tok = 0) ∧
    TMDict_at (putAll toks) 0 = none ∧
    (∀ k, (putAll toks).n < k → TMDict_at (putAll toks) k = none) := by
  obtain ⟨hnd, _⟩ := putAll_nodup toks
  refine ⟨?_, ?_, fun tok h => TMDict_get_absent _ tok h, TMDict_at_none _ 0 (Or.inl rfl),
    fun k hk => TMDict_at_none _ k (Or.inr hk)⟩
  · intro tok
    by_cases h : tok ∈ (putAll toks).tok
    · rw [TMDict_put_present _ tok h]
      exact TMDict_at_index _ tok h
    · rw [TMDict_put_absent _ tok h]
      have hin : tok ∈ (⟨(putAll toks).tok ++ [tok]⟩ : TMDict).tok := by simp
      have := TMDict_at_index ⟨(putAll toks).tok ++ [tok]⟩ tok hin
      simp only [List.indexOf_append_of_not_mem h, List.indexOf_cons_self, Nat.add_zero] at this
      exact this
  · intro k h1 h2
    obtain ⟨s, hs1, hs2, hs3⟩ := TMDict_at_code (putAll toks) hnd k h1 h2
    exact ⟨s, hs1, by rw [TMDict_get_present _ s hs2, hs3]⟩

/-- Claim C25 as amended, at the puts of `a`, `null`, `b`: the codes 1 and 3 map
back to themselves, the code 2 of `null` maps to 0. -/
theorem TMDict_bijection_witness :
    (∃ s, TMDict_at (putAll ["a", "null", "b"]) 3 = some s ∧
      TMDict_get (putAll ["a", "null", "b"]) s = if s = "null" then 0 else 3) ∧
    TMDict_get (putAll ["a", "null", "b"]) "c" = 0 ∧
    TMDict_at (putAll ["a", "null", "b"]) 4 = none :=
  ⟨(TMDict_bijection ["a", "null", "b"]).2.1 3 (by decide) (by decide),
   (TMDict_bijection ["a", "null", "b"]).2.2.1 "c" (by decide),
   (TMDict_bijection ["a", "null", "b"]).2.2.2.2 4 (by decide)⟩

/-! ## Rule legality and valid names -/

theorem legalPair_iff (x y : String) :
    LegalPair x y ↔ ¬ (y = "*" ∨ (x = "*" ∧ y = "_") ∨ (x = "_" ∧ y ≠ "_")) := by
  unfold LegalPair IsName
  by_cases h1 : x = "*" <;> by_cases h2 : x = "_" <;> by_cases h3 : y = "*" <;>
    by_cases h4 : y = "_" <;> simp_all

/-- The rule branch of the parser accepts a line exactly when the line is a legal
rule and its two state tokens pass `check_name`. -/
theorem parseRule_isSome_iff (sf af st a_t dir : String) :
    (parseRule sf af st a_t dir).isSome = true ↔
      (LegalRule sf af st a_t dir ∧ check_name sf = true ∧ check_name st = true) := by
  unfold parseRule LegalRule
  rw [legalPair_iff sf st, legalPair_iff af a_t]
  split_ifs with h1 h2
  · simp only [Option.isSome_none, Bool.false_eq_true, false_iff]
    tauto
  · simp only [Option.isSome_none, Bool.false_eq_true, false_iff]
    simp only [Bool.or_eq_true, Bool.not_eq_true'] at h2
    rintro ⟨_, a, b⟩
    rcases h2 with h2 | h2
    · rw [a] at h2; cases h2
    · rw [b] at h2; cases h2
  · simp only [Option.isSome_some, true_iff]
    simp only [Bool.or_eq_true, Bool.not_eq_true', not_or, Bool.not_eq_false] at h2
    refine ⟨?_, h2.1, h2.2⟩
    tauto

/-- Claim C27, the claim as stated fails for an invalid state name: the line
`a$ x -> b y r` has a legal direction, its `sf` is not `null` and both pairs have
the shape (name, name), but the parser rejects it (`Invalid name detected`). -/
theorem legal_rule_rejected :
    LegalRule "a$" "x" "b" "y" "r" ∧ check_name "a$" = false ∧
    (parseRule "a$" "x" "b" "y" "r").isSome = false := by
  refine ⟨?_, by decide, by decide⟩
  unfold LegalRule LegalPair IsName
  decide

/-- Claim C27, as amended: rule legality.  A rule line `sf af -> st a_t dir`
whose four tokens pass `check_name` is accepted by the parser iff `dir` is one of
`l`, `r`, `<`, `>`, `sf` is not `null`, and each of the pairs `(sf, st)` and
`(af, a_t)` has one of the four shapes (name, name), (name, `_`), (`*`, name),
(`_`, `_`); a line whose `sf` or `st` does not pass `check_name` is rejected. -/
theorem rule_legality (sf af st a_t dir : String) :
    (check_name sf = true ∧ check_name af = true ∧ check_name st = true ∧
        check_name a_t = true →
      ((parseRule sf af st a_t dir).isSome = true ↔ LegalRule sf af st a_t dir)) ∧
    (check_name sf = false ∨ check_name st = false →
      (parseRule sf af st a_t dir).isSome = false) := by
  have key := parseRule_isSome_iff sf af st a_t dir
  refine ⟨fun hv => ?_, fun hv => ?_⟩
  · rw [key]
    exact ⟨fun h => h.1, fun h => ⟨h, hv.1, hv.2.2.1⟩⟩
  · cases h : (parseRule sf af st a_t dir).isSome
    · rfl
    · have := key.1 h
      rcases hv with hv | hv
      · rw [this.2.1] at hv; cases hv
      · rw [this.2.2] at hv; cases hv

/-- Claim C27 as amended, at the lines `* a -> s1 b r` (accepted), `q a -> * b r`
(rejected: `*` in a target slot) and `q$ a -> p b r` (rejected: invalid name). -/
theorem rule_legality_witness :
    (parseRule "*" "a" "s1" "b" "r").isSome = true ∧
    ¬ LegalRule "q" "a" "*" "b" "r" ∧
    (parseRule "q$" "a" "p" "b" "r").isSome = false :=
  ⟨((rule_legality "*" "a" "s1" "b" "r").1 (by decide)).2
      (by unfold LegalRule LegalPair IsName; decide),
   fun h => absurd (((rule_legality "q" "a" "*" "b" "r").1 (by decide)).2 h) (by decide),
   (rule_legality "q$" "a" "p" "b" "r").2 (Or.inl (by decide))⟩

theorem allowed_iff (c : Char) : allowed.contains c = true ↔ c ∈ tokenCharset := by
  have h : allowed.toFinset = tokenCharset.toFinset := by decide
  have e : allowed.contains c = true ↔ c ∈ allowed := by simp
  rw [e, ← List.mem_toFinset, h, List.mem_toFinset]

/-- Claim C28: `check_name` accepts exactly the valid names.  For every string
`s`, `check_name s` is true iff `s` is not `(null)` and either `s` is one of the
reserved literals `*`, `_`, `null` or every character of `s` is a letter, a
digit or one of the characters `- _ . ~ + ^ < > [ ]`, the two braces, `( )`. -/
theorem check_name_valid (s : String) : check_name s = true ↔ ValidName s := by
  unfold check_name ValidName
  by_cases h1 : s = "*" ∨ s = "_" ∨ s = "null"
  · rw [if_pos h1]
    simp only [true_iff]
    refine ⟨?_, Or.inl h1⟩
    rcases h1 with h | h | h <;> rw [h] <;> decide
  · rw [if_neg h1]
    by_cases h2 : s = "(null)"
    · rw [if_pos h2]
      simp [h2]
    · rw [if_neg h2]
      simp only [List.all_eq_true, Bool.or_eq_true, ne_eq, h2, not_false_eq_true, true_and, h1,
        false_or]
      constructor
      · intro h c hc
        rcases h c hc with h | h
        · unfold Char.isAlphanum at h
          simp only [Bool.or_eq_true] at h
          rcases h with h | h
          · exact Or.inl h
          · exact Or.inr (Or.inl h)
        · exact Or.inr (Or.inr ((allowed_iff c).1 h))
      · intro h c hc
        rcases h c hc with h | h | h
        · left; unfold Char.isAlphanum; simp [h]
        · left; unfold Char.isAlphanum; simp [h]
        · exact Or.inr ((allowed_iff c).2 h)

/-- Claim C28 at the names `q_0[1]` (valid) and `a$` (not valid). -/
theorem check_name_valid_witness :
    ValidName "q_0[1]" ∧ ¬ ValidName "a$" ∧ ¬ ValidName "(null)" :=
  ⟨(check_name_valid "q_0[1]").1 (by decide),
   fun h => absurd ((check_name_valid "a$").2 h) (by decide),
   fun h => absurd ((check_name_valid "(null)").2 h) (by decide)⟩

/-! ## Which tokens `TMProgram_compile` registers -/

theorem foldl_put_mem : ∀ (toks : List String) (d : TMDict) (x : String),
    x ∈ (toks.foldl (fun d s => (TMDict_put d s).2) d).tok ↔ x ∈ d.tok ∨ x ∈ toks := by
  intro toks
  induction toks with
  | nil => intro d x; simp
  | cons s toks ih =>
    intro d x
    simp only [List.foldl_cons]
    rw [ih, TMDict_put_tok]
    split_ifs with hs
    · constructor
      · rintro (hx | hx)
        · exact Or.inl hx
        · exact Or.inr (List.mem_cons_of_mem _ hx)
      · rintro (hx | hx)
        · exact Or.inl hx
        · rcases List.mem_cons.1 hx with rfl | hx
          · exact Or.inl hs
          · exact Or.inr hx
    · simp only [List.mem_append, List.mem_singleton, List.mem_cons]
      tauto

theorem foldl_entries_mem : ∀ (es : List TMProgramTapeEntry) (d : TMDict) (x : String),
    x ∈ (es.foldl (fun d e => e.data.foldl (fun dd str => (TMDict_put dd str).2) d) d).tok ↔
      x ∈ d.tok ∨ ∃ e, e ∈ es ∧ x ∈ e.data := by
  intro es
  induction es with
  | nil => intro d x; simp
  | cons e es ih =>
    intro d x
    simp only [List.foldl_cons]
    rw [ih, foldl_put_mem]
    constructor
    · rintro ((hx | hx) | ⟨e1, he1, hx⟩)
      · exact Or.inl hx
      · exact Or.inr ⟨e, List.mem_cons_self _ _, hx⟩
      · exact Or.inr ⟨e1, List.mem_cons_of_mem _ he1, hx⟩
    · rintro (hx | ⟨e1, he1, hx⟩)
      · exact Or.inl (Or.inl hx)
      · rcases List.mem_cons.1 he1 with rfl | he1
        · exact Or.inl (Or.inr hx)
        · exact Or.inr ⟨e1, he1, hx⟩

theorem put_copy_not_mem (d : TMDict) (tok : TMRuleToken) (x : String)
    (hw : tok.null = false → tok.str ≠ x) (h : x ∉ d.tok) :
    x ∉ (TMDict_put_copy_if_unique d tok).tok := by
  unfold TMDict_put_copy_if_unique
  split_ifs with hc
  · rw [TMDict_put_tok]
    split_ifs
    · exact h
    · simp only [List.mem_append, List.mem_singleton, not_or]
      exact ⟨h, fun e => hw hc.2 e.symm⟩
  · exact h

theorem foldl_not_mem {α : Type} (f : TMDict → α → TMDict) (x : String) (P : α → Prop)
    (hf : ∀ d a, P a → x ∉ d.tok → x ∉ (f d a).tok) (l : List α) (hl : ∀ a, a ∈ l → P a) :
    ∀ d : TMDict, x ∉ d.tok → x ∉ (l.foldl f d).tok := by
  induction l with
  | nil => intro d h; exact h
  | cons a l ih =>
    intro d h
    exact ih (fun b hb => hl b (List.mem_cons_of_mem _ hb)) (f d a)
      (hf d a (hl a (List.mem_cons_self _ _)) h)

theorem TMRuleToken_init_null (str : String) :
    (TMRuleToken_init str).null = false → (TMRuleToken_init str).str ≠ "null" := by
  intro h e
  have e1 : str = "null" := e
  rw [e1] at h
  revert h
  decide

theorem parseFinals_mem : ∀ (names : List String) (toks : List TMRuleToken),
    parseFinals names = some toks → ∀ t, t ∈ toks → ∃ name, parseStateName name = some t := by
  intro names
  induction names with
  | nil =>
    intro toks h t ht
    simp only [parseFinals, Option.some.injEq] at h
    subst h
    simp at ht
  | cons name names ih =>
    intro toks h t ht
    simp only [parseFinals] at h
    cases h1 : parseStateName name with
    | none => simp [h1] at h
    | some t1 =>
      cases h2 : parseFinals names with
      | none => simp [h1, h2] at h
      | some ts =>
        simp only [h1, h2, Option.some.injEq] at h
        subst h
        rcases List.mem_cons.1 ht with rfl | ht
        · exact ⟨name, h1⟩
        · exact ih ts h2 t ht

/-- For a program the parser accepts, `null` is never registered as a state, and
it is registered as a symbol exactly when a tape entry holds it. -/
theorem null_registered_iff (start : String) (finals : List String) (rules : List RuleLine)
    (tape : List TapeLine) (p : TMProgram)
    (hp : TMProgram_parse start finals rules tape = some p) :
    "null" ∉ (compileStates p).tok ∧
    ("null" ∈ (compileChars p).tok ↔ ∃ e, e ∈ p.entries ∧ "null" ∈ e.data) := by
  obtain ⟨hs, hf, hrules, _⟩ := TMProgram_parse_some start finals rules tape p hp
  have hacc := parseRules_mem rules p.rules hrules
  have hstate : ∀ name t, parseStateName name = some t → t.null = false → t.str ≠ "null" := by
    intro name t h _
    obtain ⟨e, hn, _⟩ := parseStateName_some name t h
    rw [e]
    exact hn
  have hrule : ∀ r, r ∈ p.rules →
      (r.s_from.null = false → r.s_from.str ≠ "null") ∧
      (r.a_from.null = false → r.a_from.str ≠ "null") ∧
      (r.s_to.null = false → r.s_to.str ≠ "null") ∧
      (r.a_to.null = false → r.a_to.str ≠ "null") := by
    intro r hr
    obtain ⟨sf, af, st, a_t, dir, hpr⟩ := hacc r hr
    obtain ⟨e, _⟩ := parseRule_some sf af st a_t dir r hpr
    rw [e]
    exact ⟨TMRuleToken_init_null sf, TMRuleToken_init_null af, TMRuleToken_init_null st,
      TMRuleToken_init_null a_t⟩
  refine ⟨?_, ?_⟩
  · unfold compileStates
    apply foldl_not_mem _ "null" (fun t => t.null = false → t.str ≠ "null")
      (fun d a ha h => put_copy_not_mem d a "null" ha h) p.final_states
      (fun t ht => by
        obtain ⟨name, hn⟩ := parseFinals_mem finals p.final_states hf t ht
        exact hstate name t hn)
    apply foldl_not_mem _ "null" (fun r => r ∈ p.rules)
      (fun d r hr h => put_copy_not_mem _ r.s_to "null" (hrule r hr).2.2.1
        (put_copy_not_mem d r.s_from "null" (hrule r hr).1 h)) p.rules (fun r hr => hr)
    exact put_copy_not_mem _ _ "null" (hstate start p.start_state hs) (by simp [TMDict_init])
  · unfold compileChars
    rw [foldl_entries_mem]
    have : "null" ∉ (p.rules.foldl
        (fun d r => TMDict_put_copy_if_unique (TMDict_put_copy_if_unique d r.a_from) r.a_to)
        TMDict_init).tok := by
      apply foldl_not_mem _ "null" (fun r => r ∈ p.rules)
        (fun d r hr h => put_copy_not_mem _ r.a_to "null" (hrule r hr).2.2.2
          (put_copy_not_mem d r.a_from "null" (hrule r hr).2.1 h)) p.rules (fun r hr => hr)
      simp [TMDict_init]
    simp [this]

/-! ## The parser and the compiler at the inputs where they depart from the claims -/

/-- Claim C26, evaluated where the code departs from it.  The tape line
`0: null` makes `TMProgram_compile` register the token `null` in the symbol
dictionary (code 1) and count it in the alphabet size `n = 2`, while the
program has no symbol name other than the reserved `null`; `TMDict_get` still
returns 0 for `null`, and the cell 0 is blank.  The rule `A null -> B null r`
does not register `null`. -/
theorem null_registered_by_tape :
    TMProgram_parse "A" [] [] [TapeLine.insertion 0 ["null"]] = some nullTapeProgram ∧
    (TMProgram_compile nullTapeProgram false).map
        (fun e => (e.chars.tok, e.machine.n, TMDict_at e.chars 1, TMDict_get e.chars "null",
          TMTape_read_at e.tape 0))
      = some (["null"], 2, some "null", 0, 0) ∧
    TMProgram_parse "A" [] [⟨"A", "null", "B", "null", "r"⟩] [] = some nullRuleProgram ∧
    (TMProgram_compile nullRuleProgram false).map (fun e => (e.chars.tok, e.machine.n))
      = some ([], 1) := by
  refine ⟨rfl, by decide, rfl, by decide⟩

/-- Claim C29, evaluated where the code departs from it.  The tokens `a$` and
`(null)` do not pass `check_name`; the parser accepts them as the symbols of the
rule `q a$ -> p (null) r` and of the tape line `0: a$ (null)`, and
`TMProgram_compile` registers both as symbols.  In a state slot the same tokens
are rejected. -/
theorem invalid_symbols_accepted :
    check_name "a$" = false ∧ check_name "(null)" = false ∧
    TMProgram_parse "q" [] [⟨"q", "a$", "p", "(null)", "r"⟩]
        [TapeLine.insertion 0 ["a$", "(null)"]] = some invalidSymbolProgram ∧
    (TMProgram_compile invalidSymbolProgram false).map (fun e => e.chars.tok)
      = some ["a$", "(null)"] ∧
    (parseRule "a$" "x" "p" "y" "r").isSome = false ∧
    (parseRule "q" "x" "(null)" "y" "r").isSome = false := by
  refine ⟨by decide, by decide, rfl, by decide, by decide, by decide⟩

/-! ## Tape lines the parser rejects -/

/-- Claim C31, the claim as stated fails when the pattern starts away from the
blocks: on the tape compiled from the entry `inf~-101: x` there is no backward
block, the left pattern is installed with `start = -100`, and the position
`-50`, left of all blocks, reads blank and not the value 1 of the pattern.  It
also fails where the 64-bit difference wraps: on the tape prepared with the
right pattern `start = -1`, `data = [1, 2, 3]` the position `2^63 - 1` is right
of all forward blocks and `data[(pos - start) mod 3]` is 3, but `pos - start`
wraps to `-2^63` and the read returns 2. -/
theorem read_between_pattern_and_blocks :
    TMProgram_parse "A" [] [] [TapeLine.leftInf (-101) ["x"]] = some farLeftProgram ∧
    (TMProgram_compile farLeftProgram false).map
        (fun e => (e.tape.bkmem.length, e.tape.left.n, e.tape.left.start,
          TMTape_read_at e.tape (-50), patternAt e.tape.left (-50),
          TMTape_read_at e.tape (-150)))
      = some (0, 1, -100, 0, 1, 1) ∧
    (TMTape_prepare (setRight (TMTape_init false) ⟨-1, 3, [1, 2, 3]⟩)).fwmem.length = 1 ∧
    TMTape_read_at (TMTape_prepare (setRight (TMTape_init false) ⟨-1, 3, [1, 2, 3]⟩))
      (2 ^ 63 - 1) = 2 ∧
    ([1, 2, 3] : List Nat).getD ((2 ^ 63 - 1 - (-1)) % ((3 : Nat) : Int)).toNat 0 = 3 := by
  refine ⟨rfl, by decide, by decide, by decide, by decide⟩

/-- Claim C31, as amended: unmaterialised reads return the boundary value of
their position.  For every tape and every `pos` outside the allocated span,
`TMTape_read_at` returns `left.data[(pos - left.start) mod left.n]` when a left
pattern is installed and `pos < left.start`; otherwise
`right.data[(pos - right.start) mod right.n]` when a right pattern is installed
and `pos >= right.start`; otherwise blank; the difference to the start of the
pattern is computed in `int64_t`, and the formula is that of the claim
whenever the difference is representable in `int64_t`.  In particular a
position left of all backward blocks reads the left pattern when the pattern
starts at or right of the first materialised cell, and a position right of all
forward blocks reads the right pattern when both patterns start at or left of
the end of the span. -/
theorem read_at_unmaterialised (t : TMTape) (pos : Int)
    (h : pos < -t.bl * (TM_BLOCK_SIZE : Int) ∨ pos ≥ t.br * (TM_BLOCK_SIZE : Int)) :
    TMTape_read_at t pos =
      (if t.left.n ≠ 0 ∧ pos < t.left.start then
        t.left.data.getD (toI64 (pos - t.left.start) % (t.left.n : Int)).toNat 0
      else if t.right.n ≠ 0 ∧ pos ≥ t.right.start then
        t.right.data.getD (toI64 (pos - t.right.start) % (t.right.n : Int)).toNat 0
      else 0) ∧
    (InI64 (pos - t.left.start) → InI64 (pos - t.right.start) →
      TMTape_read_at t pos =
        (if t.left.n ≠ 0 ∧ pos < t.left.start then
          t.left.data.getD ((pos - t.left.start) % (t.left.n : Int)).toNat 0
        else if t.right.n ≠ 0 ∧ pos ≥ t.right.start then
          t.right.data.getD ((pos - t.right.start) % (t.right.n : Int)).toNat 0
        else 0)) ∧
    (pos < -t.bl * (TM_BLOCK_SIZE : Int) → t.left.n ≠ 0 →
      -t.bl * (TM_BLOCK_SIZE : Int) ≤ t.left.start → InI64 (pos - t.left.start) →
      TMTape_read_at t pos = t.left.data.getD ((pos - t.left.start) % (t.left.n : Int)).toNat 0) ∧
    (pos ≥ t.br * (TM_BLOCK_SIZE : Int) → t.right.n ≠ 0 →
      t.left.start ≤ t.br * (TM_BLOCK_SIZE : Int) →
      t.right.start ≤ t.br * (TM_BLOCK_SIZE : Int) → InI64 (pos - t.right.start) →
      TMTape_read_at t pos
        = t.right.data.getD ((pos - t.right.start) % (t.right.n : Int)).toNat 0) ∧
    (t.left.n = 0 → t.right.n = 0 → TMTape_read_at t pos = 0) := by
  have hout : TMTape_read_at t pos = TMTape_undefined t pos :=
    read_at_out t pos (by simp only [TM_BLOCK_SIZE, Nat.cast_ofNat] at h; omega)
  have key : TMTape_undefined t pos =
      (if t.left.n ≠ 0 ∧ pos < t.left.start then
        t.left.data.getD (toI64 (pos - t.left.start) % (t.left.n : Int)).toNat 0
      else if t.right.n ≠ 0 ∧ pos ≥ t.right.start then
        t.right.data.getD (toI64 (pos - t.right.start) % (t.right.n : Int)).toNat 0
      else 0) := by
    unfold TMTape_undefined patternAt
    split_ifs with h1 h2
    · rw [modulo_eq_emod _ _ (Nat.pos_of_ne_zero h1.1)]
    · rw [modulo_eq_emod _ _ (Nat.pos_of_ne_zero h2.1)]
    · rfl
  rw [hout, key]
  refine ⟨rfl, ?_, ?_, ?_, ?_⟩
  · intro h1 h2
    rw [toI64_eq _ h1, toI64_eq _ h2]
  · intro h1 h2 h3 h4
    rw [if_pos ⟨h2, by omega⟩, toI64_eq _ h4]
  · intro h1 h2 h3 h4 h5
    rw [if_neg (by intro hc; omega), if_pos ⟨h2, by omega⟩, toI64_eq _ h5]
  · intro h1 h2
    rw [if_neg (by intro hc; exact hc.1 h1), if_neg (by intro hc; exact hc.1 h2)]

/-- Claim C31 as amended, at the tape prepared with the left pattern of
`inf~-1: x`: the position `-5` is outside the span and reads the pattern. -/
theorem read_at_unmaterialised_witness :
    TMTape_read_at leftXTape (-5) = 1 := by
  have h := (read_at_unmaterialised leftXTape (-5) (Or.inl (by decide))).2.2.1
    (by decide) (by decide) (by decide) (by unfold InI64; decide)
  rw [h]
  decide

/-- Claim C34: `TMTape_prepare` yields a tape that reads exactly as its boundary
patterns.  After `TMTape_prepare` the head position is 0, the state is 1, there
are no backward blocks and exactly one forward block, the patterns are those of
the tape before the call, and every position, the 16 cells of the new block
included, reads the boundary value `TMTape_undefined`. -/
theorem TMTape_prepare_reads_patterns (t : TMTape) :
    (TMTape_prepare t).pos = 0 ∧ (TMTape_prepare t).state = 1 ∧
    (TMTape_prepare t).bkmem = [] ∧ (TMTape_prepare t).fwmem.length = 1 ∧
    (TMTape_prepare t).left = t.left ∧ (TMTape_prepare t).right = t.right ∧
    ∀ p, TMTape_read_at (TMTape_prepare t) p = TMTape_undefined t p ∧
      TMTape_read_at (TMTape_prepare t) p = TMTape_undefined (TMTape_prepare t) p := by
  refine ⟨?_, ?_, ?_, ?_, (prepare_patterns t).1, (prepare_patterns t).2, ?_⟩
  · simp [TMTape_prepare, TMTape_alloc]
  · simp [TMTape_prepare, TMTape_alloc]
  · simp [TMTape_prepare, TMTape_alloc]
  · simp [TMTape_prepare, TMTape_alloc]
  · intro p
    refine ⟨read_at_prepare t p, ?_⟩
    rw [read_at_prepare t p]
    exact (undefined_congr t _ (prepare_patterns t).1 (prepare_patterns t).2 p).symm

/-! ## The engine and the tape at the inputs where they depart from the claims -/

/-- Claim C33, the claim as stated fails at the parser: the rule line
`A _ -> B a r` is rejected as an illegal rule (a `_` in the source slot needs a
`_` in the target slot), so the program of the example is not accepted and
nothing is run. -/
theorem example_program_rejected :
    (parseRule "A" "_" "B" "a" "r").isSome = false ∧
    (parseRule "B" "_" "A" "a" "l").isSome = false ∧
    (TMProgram_parse "A" [] [⟨"A", "_", "B", "a", "r"⟩, ⟨"B", "_", "A", "a", "l"⟩] []).isSome
      = false := by
  refine ⟨by decide, by decide, by decide⟩

/-- Claim C33, as amended: the end-to-end example with the wildcard written `*`.
For the program with the start state `A`, no final states and the two rules
`A * -> B a r` and `B * -> A a l` on an empty tape (`A`, `B` have the codes 1,
2 and `a` the code 1), `TM_run_restricted` with budget 4 returns the state `A`
with the head position 0 and the symbol `a` in the cells 0 and 1, every other
cell near the origin being blank: the machine has not halted. -/
theorem end_to_end_example :
    TMProgram_parse "A" [] [⟨"A", "*", "B", "a", "r"⟩, ⟨"B", "*", "A", "a", "l"⟩] []
      = some pingPongProgram ∧
    (TMProgram_compile pingPongProgram false).map
        (fun e => (e.states.tok, e.chars.tok,
          (TM_run_restricted e.machine e.tape 4).1,
          (TM_run_restricted e.machine e.tape 4).2.state,
          (TM_run_restricted e.machine e.tape 4).2.pos,
          TMTape_read_at (TM_run_restricted e.machine e.tape 4).2 (-1),
          TMTape_read_at (TM_run_restricted e.machine e.tape 4).2 0,
          TMTape_read_at (TM_run_restricted e.machine e.tape 4).2 1,
          TMTape_read_at (TM_run_restricted e.machine e.tape 4).2 2,
          halted e.machine (TM_run_restricted e.machine e.tape 4).2))
      = some (["A", "B"], ["a"], 1, 1, 0, 0, 1, 1, 0, false) := by
  refine ⟨rfl, rfl⟩

/-- Claim C32, evaluated where the code departs from it.  On the tape prepared
with the left pattern of `inf~-1: x`, in non-fast mode, a step to the left
leaves the head at `-1`, outside the forward block, whose 16 cells all hold the
boundary value (blank): the block is not freed.  A step back to the right leaves
the head at 0, outside the backward block, whose 16 cells all hold the boundary
value `x`: the block is not freed. -/
theorem redundant_block_not_freed :
    leftXTape.fast = false ∧
    (TMTape_step leftXTape false).pos = -1 ∧
    (List.range 16).all (fun i =>
      TMTape_read_at (TMTape_step leftXTape false) (i : Int)
        = TMTape_undefined (TMTape_step leftXTape false) (i : Int)) = true ∧
    leftXTape.fwmem.length = 1 ∧ (TMTape_step leftXTape false).fwmem.length = 1 ∧
    (TMTape_step (TMTape_step leftXTape false) true).pos = 0 ∧
    (List.range 16).all (fun i =>
      TMTape_read_at (TMTape_step (TMTape_step leftXTape false) true) (-16 + (i : Int))
        = TMTape_undefined (TMTape_step (TMTape_step leftXTape false) true) (-16 + (i : Int)))
      = true ∧
    (TMTape_step leftXTape false).bkmem.length = 1 ∧
    (TMTape_step (TMTape_step leftXTape false) true).bkmem.length = 1 := by
  refine ⟨by decide, by decide, by decide, by decide, by decide, by decide, by decide,
    by decide, by decide⟩

set_option maxRecDepth 100000 in
/-- Claim C39, evaluated where the code departs from it.  For the program with
no rules and the tape lines `0~inf: x` and `0~15: null`, in non-fast mode, the
tape is in the non-final state 1 with the head on a blank at 0 and the cell
`(1, 0)` is addressed by no rule; `TM_step` sets the state to 0 and moves the
head to `-1`, but the old head cell reads `x` afterwards, not blank: the step to
the left frees the forward block, and the cell reads the right pattern.  In
fast mode the old head cell reads blank. -/
theorem halting_step_loses_blank :
    TMProgram_parse "A" [] [] [TapeLine.rightInf 0 ["x"], TapeLine.pattern 0 15 ["null"]]
      = some erasedRightProgram ∧
    (TMProgram_compile erasedRightProgram false).map
        (fun e => (e.tape.state, e.machine.ok.getD 0 false, e.tape.pos, TMTape_read e.tape,
          TMDict_get e.chars "x",
          (TM_step e.machine e.tape).1, (TM_step e.machine e.tape).2.state,
          (TM_step e.machine e.tape).2.pos, TMTape_read_at (TM_step e.machine e.tape).2 0,
          (TM_step e.machine e.tape).2.fwmem.length))
      = some (1, false, 0, 0, 1, 0, 0, -1, 1, 0) ∧
    (TMProgram_compile erasedRightProgram true).map
        (fun e => ((TM_step e.machine e.tape).2.state, (TM_step e.machine e.tape).2.pos,
          TMTape_read_at (TM_step e.machine e.tape).2 0))
      = some (0, -1, 0) := by
  refine ⟨rfl, rfl, rfl⟩

/-! ## The head stays in the allocated span -/

theorem prepare_headInSpan (t : TMTape) : HeadInSpan (TMTape_prepare t) := by
  unfold HeadInSpan TMTape_prepare TMTape_alloc
  simp [TMTape.bl, TMTape.br]

theorem step_headInSpan (t : TMTape) (right : Bool) (h : HeadInSpan t) :
    HeadInSpan (TMTape_step t right) := by
  unfold HeadInSpan at *
  simp only [TMTape.bl, TMTape.br, TM_BLOCK_SIZE, Nat.cast_ofNat] at h
  unfold TMTape_step TMTape_alloc
  simp only [TMTape.bl, TMTape.br, TM_BLOCK_SIZE, Nat.cast_ofNat]
  cases right
  · simp only [Bool.false_eq_true, if_false]
    split_ifs <;> simp only [List.length_append, List.length_dropLast, List.length_singleton] <;>
      simp only [List.length_append, List.length_singleton] at * <;> omega
  · simp only [if_true]
    split_ifs <;> simp only [List.length_append, List.length_dropLast, List.length_singleton] <;>
      simp only [List.length_append, List.length_singleton] at * <;> omega

theorem write_headInSpan (t : TMTape) (sym : Nat) (h : HeadInSpan t) :
    HeadInSpan (TMTape_write t sym) := by
  unfold HeadInSpan at *
  unfold TMTape_write
  split_ifs <;> simp only [TMTape.bl, TMTape.br, cellWrite_length] at * <;> exact h

theorem TM_step_headInSpan (m : TM) (t : TMTape) (h : HeadInSpan t) :
    HeadInSpan (TM_step m t).2 := by
  unfold TM_step
  split_ifs
  · exact h
  · exact step_headInSpan _ _ (write_headInSpan _ _ h)

theorem read_of_headInSpan (t : TMTape) (h : HeadInSpan t) :
    TMTape_read t = TMTape_read_at t t.pos := by
  unfold HeadInSpan at h
  simp only [TM_BLOCK_SIZE, Nat.cast_ofNat] at h
  unfold TMTape_read
  split_ifs with hneg
  · rw [read_at_neg t t.pos h.1 hneg]
  · rw [read_at_nonneg t t.pos (by omega) h.2]

theorem iterate_headInSpan (m : TM) (k : Nat) : ∀ t : TMTape, HeadInSpan t →
    HeadInSpan ((stepTape m)^[k] t) := by
  induction k with
  | zero => intro t h; exact h
  | succ k ih =>
    intro t h
    rw [Function.iterate_succ_apply]
    exact ih _ (TM_step_headInSpan m t h)

theorem step_alloc_count (t : TMTape) :
    (TMTape_step t true).fwmem.length
        = (if t.pos + 1 = t.br * (TM_BLOCK_SIZE : Int) then t.fwmem.length + 1
          else t.fwmem.length) ∧
    (TMTape_step t true).bkmem.length ≤ t.bkmem.length ∧
    (TMTape_step t false).bkmem.length
        = (if t.pos - 1 < -t.bl * (TM_BLOCK_SIZE : Int) ∧ -t.bl * (TM_BLOCK_SIZE : Int) ≤ t.pos
            then t.bkmem.length + 1
          else t.bkmem.length) ∧
    (TMTape_step t false).fwmem.length ≤ t.fwmem.length := by
  unfold TMTape_step TMTape_alloc
  simp only [TMTape.bl, TMTape.br, TM_BLOCK_SIZE, Nat.cast_ofNat, Bool.false_eq_true, if_false,
    if_true]
  refine ⟨?_, ?_, ?_, ?_⟩
  · split_ifs <;> simp only [List.length_append, List.length_dropLast, List.length_singleton] <;>
      omega
  · split_ifs <;> simp only [List.length_append, List.length_dropLast, List.length_singleton] <;>
      omega
  · split_ifs <;> simp only [List.length_append, List.length_dropLast, List.length_singleton] <;>
      omega
  · split_ifs <;> simp only [List.length_append, List.length_dropLast, List.length_singleton] <;>
      omega

/-- Claim C35: the head-in-span invariant.  The predicate
`-bl * 16 <= pos < br * 16` holds after `TMTape_prepare`; it is preserved by
`TMTape_step` in both directions and both modes (so compaction never frees the
block that holds the head), by `TMTape_write`, by `TM_step` and by any number of
calls of `TM_step`; on a tape that satisfies it a step to the right allocates
exactly one forward block when `pos + 1 = br * 16` and none otherwise, a step to
the left exactly one backward block when `pos = -bl * 16` and none otherwise,
and neither allocates on the other side; and the head accessors index an
existing block, with `TMTape_read` equal to `TMTape_read_at` at the head. -/
theorem head_in_span_invariant (t : TMTape) (m : TM) (right : Bool) (sym : Nat) (k : Nat) :
    HeadInSpan (TMTape_prepare t) ∧
    (HeadInSpan t →
      HeadInSpan (TMTape_step t right) ∧ HeadInSpan (TMTape_write t sym) ∧
      HeadInSpan (TM_step m t).2 ∧ HeadInSpan ((stepTape m)^[k] t) ∧
      (TMTape_step t true).fwmem.length
        = (if t.pos + 1 = t.br * (TM_BLOCK_SIZE : Int) then t.fwmem.length + 1
          else t.fwmem.length) ∧
      (TMTape_step t true).bkmem.length ≤ t.bkmem.length ∧
      (TMTape_step t false).bkmem.length
        = (if t.pos = -t.bl * (TM_BLOCK_SIZE : Int) then t.bkmem.length + 1
          else t.bkmem.length) ∧
      (TMTape_step t false).fwmem.length ≤ t.fwmem.length ∧
      (t.pos < 0 → (-1 - t.pos).toNat / TM_BLOCK_SIZE < t.bkmem.length) ∧
      (0 ≤ t.pos → t.pos.toNat / TM_BLOCK_SIZE < t.fwmem.length) ∧
      TMTape_read t = TMTape_read_at t t.pos ∧
      TMTape_read_at (TMTape_write t sym) t.pos = sym) := by
  refine ⟨prepare_headInSpan t, fun h => ?_⟩
  obtain ⟨c1, c2, c3, c4⟩ := step_alloc_count t
  have h0 := h
  unfold HeadInSpan at h0
  simp only [TMTape.bl, TMTape.br, TM_BLOCK_SIZE, Nat.cast_ofNat] at h0
  refine ⟨step_headInSpan t right h, write_headInSpan t sym h, TM_step_headInSpan m t h,
    iterate_headInSpan m k t h, c1, c2, ?_, c4, ?_, ?_, read_of_headInSpan t h, ?_⟩
  · rw [c3]
    simp only [TMTape.bl, TM_BLOCK_SIZE, Nat.cast_ofNat]
    by_cases hc : t.pos = -(t.bkmem.length : Int) * 16
    · rw [if_pos hc, if_pos ⟨by omega, by omega⟩]
    · rw [if_neg hc, if_neg (by omega)]
  · intro hneg
    simp only [TM_BLOCK_SIZE]
    omega
  · intro hpos
    simp only [TM_BLOCK_SIZE]
    omega
  · have hw := write_headInSpan t sym h
    unfold HeadInSpan at hw
    simp only [TM_BLOCK_SIZE, Nat.cast_ofNat] at hw
    have e : (TMTape_write t sym).pos = t.pos := by
      unfold TMTape_write; split_ifs <;> rfl
    rw [e] at hw
    by_cases hneg : t.pos < 0
    · rw [read_at_neg _ t.pos hw.1 hneg]
      unfold TMTape_write
      rw [if_pos hneg]
      exact cellRead_cellWrite_same _ _ _ (by simp only [TM_BLOCK_SIZE] at *; omega)
    · rw [read_at_nonneg _ t.pos (by omega) hw.2]
      unfold TMTape_write
      rw [if_neg hneg]
      exact cellRead_cellWrite_same _ _ _ (by simp only [TM_BLOCK_SIZE] at *; omega)

/-- Claim C35 at the tape prepared with the left pattern of `inf~-1: x`, moved
one cell to the left: one backward block has been allocated and the head cell
`-1` is materialised. -/
theorem head_in_span_invariant_witness :
    HeadInSpan leftXTape ∧ HeadInSpan (TMTape_step leftXTape false) ∧
    (TMTape_step leftXTape false).bkmem.length = 1 :=
  ⟨(head_in_span_invariant (setLeft (TMTape_init false) ⟨0, 1, [1]⟩) rightMover true 0 0).1,
   ((head_in_span_invariant leftXTape rightMover false 0 0).2
      (by unfold HeadInSpan; decide)).1,
   by
    rw [((head_in_span_invariant leftXTape rightMover false 0 0).2
      (by unfold HeadInSpan; decide)).2.2.2.2.2.2.1]
    decide⟩

/-! ## Tapes without boundary patterns -/

theorem step_patterns (t : TMTape) (right : Bool) :
    (TMTape_step t right).left = t.left ∧ (TMTape_step t right).right = t.right := by
  unfold TMTape_step TMTape_alloc
  simp only []
  split_ifs <;> exact ⟨rfl, rfl⟩

theorem edgeScan_zero (t : TMTape) (pat : TMTapePattern) (lo : Int) (hn : pat.n = 0)
    (h : edgeScan t pat lo = true) (k : Nat) (hk : k < 16) :
    TMTape_read_at t (lo + k) = 0 := by
  unfold edgeScan at h
  rw [List.all_eq_true] at h
  have := h k (List.mem_range.2 hk)
  simp only [hn, ne_eq, not_true_eq_false, false_and, or_false, true_and, Bool.not_eq_true',
    decide_eq_false_iff_not, not_not] at this
  exact this

theorem cellRead_dropLast (mem : List Block) (k : Nat) (h : k / 16 + 1 < mem.length) :
    cellRead mem.dropLast k = cellRead mem k := by
  unfold cellRead
  simp only [TM_BLOCK_SIZE]
  rw [List.getD_eq_getElem?_getD, List.getD_eq_getElem?_getD, List.dropLast_eq_take,
    List.getElem?_take_of_lt (by omega)]

/-- Dropping the outermost backward block when all its cells read blank changes
no read on a tape without boundary patterns. -/
theorem read_at_drop_backward (t : TMTape) (hp : t.left.n = 0 ∧ t.right.n = 0) (p : Int)
    (hbl : 0 < t.bkmem.length)
    (hz : ∀ k : Nat, k < 16 → TMTape_read_at t (-t.bl * 16 + k) = 0) :
    TMTape_read_at { t with bkmem := t.bkmem.dropLast } p = TMTape_read_at t p := by
  have hbr := br_nonneg t
  have ebl : ({ t with bkmem := t.bkmem.dropLast } : TMTape).bl = t.bl - 1 := by
    simp only [TMTape.bl, List.length_dropLast]
    omega
  have ebr : ({ t with bkmem := t.bkmem.dropLast } : TMTape).br = t.br := rfl
  have hl : (t.bkmem.length : Int) = t.bl := rfl
  have hu : ∀ u : TMTape, u.left = t.left → u.right = t.right → TMTape_undefined u p = 0 := by
    intro u h1 h2
    rw [undefined_congr t u h1 h2 p]
    exact undefined_of_noPatterns t hp p
  by_cases h1 : p < -t.bl * 16
  · rw [read_at_out _ p (by rw [ebl]; omega), read_at_out t p (by omega), hu ({ t with bkmem := t.bkmem.dropLast } : TMTape) rfl rfl,
      hu t rfl rfl]
  · by_cases h2 : p < -(t.bl - 1) * 16
    · rw [read_at_out _ p (by rw [ebl]; omega), hu ({ t with bkmem := t.bkmem.dropLast } : TMTape) rfl rfl]
      have := hz (p - -t.bl * 16).toNat (by omega)
      rw [← this]
      congr 1
      omega
    · by_cases h3 : p < 0
      · rw [read_at_neg _ p (by rw [ebl]; omega) h3, read_at_neg t p (by omega) h3]
        exact cellRead_dropLast _ _ (by omega)
      · by_cases h4 : p < t.br * 16
        · rw [read_at_nonneg _ p (by omega) (by rw [ebr]; omega),
            read_at_nonneg t p (by omega) h4]
        · rw [read_at_out _ p (by rw [ebr]; omega), read_at_out t p (by omega), hu ({ t with bkmem := t.bkmem.dropLast } : TMTape) rfl rfl,
            hu t rfl rfl]

/-- Dropping the outermost forward block when all its cells read blank changes no
read on a tape without boundary patterns. -/
theorem read_at_drop_forward (t : TMTape) (hp : t.left.n = 0 ∧ t.right.n = 0) (p : Int)
    (hbr : 0 < t.fwmem.length)
    (hz : ∀ k : Nat, k < 16 → TMTape_read_at t ((t.br - 1) * 16 + k) = 0) :
    TMTape_read_at { t with fwmem := t.fwmem.dropLast } p = TMTape_read_at t p := by
  have hbl := bl_nonneg t
  have ebr : ({ t with fwmem := t.fwmem.dropLast } : TMTape).br = t.br - 1 := by
    simp only [TMTape.br, List.length_dropLast]
    omega
  have ebl : ({ t with fwmem := t.fwmem.dropLast } : TMTape).bl = t.bl := rfl
  have hl : (t.fwmem.length : Int) = t.br := rfl
  have hu : ∀ u : TMTape, u.left = t.left → u.right = t.right → TMTape_undefined u p = 0 := by
    intro u h1 h2
    rw [undefined_congr t u h1 h2 p]
    exact undefined_of_noPatterns t hp p
  by_cases h1 : p < -t.bl * 16
  · rw [read_at_out _ p (by rw [ebl]; omega), read_at_out t p (by omega), hu ({ t with fwmem := t.fwmem.dropLast } : TMTape) rfl rfl,
      hu t rfl rfl]
  · by_cases h3 : p < 0
    · rw [read_at_neg _ p (by rw [ebl]; omega) h3, read_at_neg t p (by omega) h3]
    · by_cases h4 : p < (t.br - 1) * 16
      · rw [read_at_nonneg _ p (by omega) (by rw [ebr]; omega),
          read_at_nonneg t p (by omega) (by omega)]
        exact cellRead_dropLast _ _ (by omega)
      · by_cases h5 : p < t.br * 16
        · rw [read_at_out _ p (by rw [ebr]; omega), hu ({ t with fwmem := t.fwmem.dropLast } : TMTape) rfl rfl]
          have := hz (p - (t.br - 1) * 16).toNat (by omega)
          rw [← this]
          congr 1
          omega
        · rw [read_at_out _ p (by rw [ebr]; omega), read_at_out t p (by omega), hu ({ t with fwmem := t.fwmem.dropLast } : TMTape) rfl rfl,
            hu t rfl rfl]

theorem read_at_alloc_noPatterns (t : TMTape) (hp : t.left.n = 0 ∧ t.right.n = 0)
    (right : Bool) (p : Int) :
    TMTape_read_at (TMTape_alloc t right) p = TMTape_read_at t p := by
  cases right
  · exact read_at_alloc_left t hp p
  · exact read_at_alloc_right t p

theorem TMTape_step_eq (t : TMTape) (right : Bool) :
    TMTape_step t right =
      if right then
        compactBackward (setPos (if t.pos = t.br * TM_BLOCK_SIZE - 1 then TMTape_alloc t true else t)
          ((if t.pos = t.br * TM_BLOCK_SIZE - 1 then TMTape_alloc t true else t).pos + 1))
      else
        compactForward (setPos (if -t.pos = t.bl * TM_BLOCK_SIZE then TMTape_alloc t false else t)
          ((if -t.pos = t.bl * TM_BLOCK_SIZE then TMTape_alloc t false else t).pos - 1)) := by
  cases right <;> rfl

theorem read_at_compactBackward (t : TMTape) (hp : t.left.n = 0 ∧ t.right.n = 0) (p : Int) :
    TMTape_read_at (compactBackward t) p = TMTape_read_at t p := by
  unfold compactBackward
  split_ifs with hc hs
  · exact read_at_drop_backward t hp p (by
        have := hc.2.1
        simp only [TMTape.bl] at this
        omega)
      (fun k hk => by
        have := edgeScan_zero _ _ _ hp.2 hs k hk
        simp only [TM_BLOCK_SIZE, Nat.cast_ofNat] at this
        exact this)
  · rfl
  · rfl

theorem read_at_compactForward (t : TMTape) (hp : t.left.n = 0 ∧ t.right.n = 0) (p : Int) :
    TMTape_read_at (compactForward t) p = TMTape_read_at t p := by
  unfold compactForward
  split_ifs with hc hs
  · exact read_at_drop_forward t hp p (by
        have := hc.2.1
        simp only [TMTape.br] at this
        omega)
      (fun k hk => by
        have := edgeScan_zero _ _ _ hp.1 hs k hk
        simp only [TM_BLOCK_SIZE, Nat.cast_ofNat] at this
        exact this)
  · rfl
  · rfl

theorem read_at_setPos (t : TMTape) (pos p : Int) :
    TMTape_read_at (setPos t pos) p = TMTape_read_at t p := rfl

/-- Without boundary patterns a step of the head changes no read. -/
theorem read_at_step_noPatterns (t : TMTape) (hp : t.left.n = 0 ∧ t.right.n = 0)
    (right : Bool) (p : Int) :
    TMTape_read_at (TMTape_step t right) p = TMTape_read_at t p := by
  rw [TMTape_step_eq]
  cases right
  · simp only [Bool.false_eq_true, if_false]
    rw [read_at_compactForward _ (by
      show (ite _ _ _ : TMTape).left.n = 0 ∧ (ite _ _ _ : TMTape).right.n = 0
      split_ifs
      · rw [alloc_left_left, alloc_left_right]; exact hp
      · exact hp), read_at_setPos]
    split_ifs
    · exact read_at_alloc_left t hp p
    · rfl
  · simp only [if_true]
    rw [read_at_compactBackward _ (by
      show (ite _ _ _ : TMTape).left.n = 0 ∧ (ite _ _ _ : TMTape).right.n = 0
      split_ifs
      · rw [alloc_left_left, alloc_left_right]; exact hp
      · exact hp), read_at_setPos]
    split_ifs
    · exact read_at_alloc_right t p
    · rfl

/-- Claim C36: on a tape without boundary patterns the block model refines the
abstract tape.  For every tape with `left.n = right.n = 0`, `TMTape_write_at`
changes `TMTape_read_at` only at the written position, where it reads the
written symbol; `TMTape_alloc` in either direction and `TMTape_step` in either
direction and either mode change no read and install no pattern; so the reads
after any sequence of these operations are the reads before it updated
pointwise by the writes in order, and from the prepared empty tape they are the
all-blank function updated by the writes. -/
theorem noPattern_refinement (t : TMTape) (hp : t.left.n = 0 ∧ t.right.n = 0) :
    (∀ pos sym p, TMTape_read_at (TMTape_write_at t pos sym) p
      = if p = pos then sym else TMTape_read_at t p) ∧
    (∀ right p, TMTape_read_at (TMTape_alloc t right) p = TMTape_read_at t p) ∧
    (∀ right p, TMTape_read_at (TMTape_step t right) p = TMTape_read_at t p) ∧
    (∀ ops p, TMTape_read_at (applyOps t ops) p = abstractOps (TMTape_read_at t) ops p) ∧
    (∀ fast ops p, TMTape_read_at (applyOps (TMTape_prepare (TMTape_init fast)) ops) p
      = abstractOps (fun _ => 0) ops p) := by
  have hw : ∀ (u : TMTape), u.left.n = 0 ∧ u.right.n = 0 → ∀ pos sym p,
      TMTape_read_at (TMTape_write_at u pos sym) p
        = if p = pos then sym else TMTape_read_at u p := by
    intro u hu pos sym p
    by_cases h : p = pos
    · rw [if_pos h, h]
      exact (write_at_covers u pos sym).2
    · rw [if_neg h]
      exact write_at_frame u hu pos p sym h
  have hop : ∀ (u : TMTape) (op : TapeOp), u.left.n = 0 ∧ u.right.n = 0 →
      ((applyOp u op).left.n = 0 ∧ (applyOp u op).right.n = 0) ∧
      ∀ p, TMTape_read_at (applyOp u op) p = abstractOp (TMTape_read_at u) op p := by
    intro u op hu
    cases op with
    | write pos sym =>
      refine ⟨?_, fun p => hw u hu pos sym p⟩
      show (TMTape_write_at u pos sym).left.n = 0 ∧ (TMTape_write_at u pos sym).right.n = 0
      rw [(write_at_patterns u pos sym).1, (write_at_patterns u pos sym).2]
      exact hu
    | alloc right =>
      refine ⟨?_, fun p => read_at_alloc_noPatterns u hu right p⟩
      show (TMTape_alloc u right).left.n = 0 ∧ (TMTape_alloc u right).right.n = 0
      rw [alloc_left_left, alloc_left_right]
      exact hu
    | step right =>
      refine ⟨?_, fun p => read_at_step_noPatterns u hu right p⟩
      show (TMTape_step u right).left.n = 0 ∧ (TMTape_step u right).right.n = 0
      rw [(step_patterns u right).1, (step_patterns u right).2]
      exact hu
  have hops : ∀ (ops : List TapeOp) (u : TMTape) (f : Int → Nat),
      u.left.n = 0 ∧ u.right.n = 0 → (∀ p, TMTape_read_at u p = f p) →
      ∀ p, TMTape_read_at (applyOps u ops) p = abstractOps f ops p := by
    intro ops
    induction ops with
    | nil => intro u f _ hf p; exact hf p
    | cons op ops ih =>
      intro u f hu hf p
      have e : abstractOp f op = abstractOp (TMTape_read_at u) op := by
        have : f = TMTape_read_at u := funext fun q => (hf q).symm
        rw [this]
      show TMTape_read_at (applyOps (applyOp u op) ops) p = abstractOps (abstractOp f op) ops p
      exact ih (applyOp u op) (abstractOp f op) (hop u op hu).1
        (fun q => by rw [e]; exact (hop u op hu).2 q) p
  refine ⟨hw t hp, fun right p => read_at_alloc_noPatterns t hp right p,
    fun right p => read_at_step_noPatterns t hp right p,
    fun ops p => hops ops t _ hp (fun _ => rfl) p, ?_⟩
  intro fast ops p
  exact hops ops _ _
    (by rw [(prepare_patterns _).1, (prepare_patterns _).2]; exact ⟨rfl, rfl⟩)
    (fun q => read_at_prepare_init fast q) p

/-- Claim C36 at the blank tape and the operations: write 5 at `-3`, step left,
write 7 at 20, allocate a backward block, write 0 at `-3`. -/
theorem noPattern_refinement_witness :
    TMTape_read_at (applyOps blankTape
        [TapeOp.write (-3) 5, TapeOp.step false, TapeOp.write 20 7, TapeOp.alloc false,
          TapeOp.write (-3) 0]) 20 = 7 ∧
    TMTape_read_at (applyOps blankTape
        [TapeOp.write (-3) 5, TapeOp.step false, TapeOp.write 20 7, TapeOp.alloc false,
          TapeOp.write (-3) 0]) (-3) = 0 := by
  have h := (noPattern_refinement blankTape ⟨rfl, rfl⟩).2.2.2.1
    [TapeOp.write (-3) 5, TapeOp.step false, TapeOp.write 20 7, TapeOp.alloc false,
      TapeOp.write (-3) 0]
  refine ⟨?_, ?_⟩
  · rw [h 20]; decide
  · rw [h (-3)]; decide

/-! ## What the rule loop leaves unchanged, and what it bounds -/

theorem foldlM_preserves {α β : Type} (P : β → Prop) (f : β → α → Option β) (l : List α)
    (hf : ∀ b a b1, a ∈ l → f b a = some b1 → P b → P b1) :
    ∀ b b1, l.foldlM f b = some b1 → P b → P b1 := by
  induction l with
  | nil =>
    intro b b1 h hb
    simp only [List.foldlM_nil, Option.pure_def, Option.some.injEq] at h
    rw [← h]; exact hb
  | cons a l ih =>
    intro b b1 h hb
    rw [List.foldlM_cons] at h
    cases h1 : f b a with
    | none => simp [h1] at h
    | some b2 =>
      rw [h1] at h
      exact ih (fun b a b1 ha => hf b a b1 (List.mem_cons_of_mem _ ha)) b2 b1 h
        (hf b a b2 (List.mem_cons_self _ _) h1 hb)

/-- The sizes and final flags of `m0`, with every next-state entry at most `S`
and every write-symbol entry below the alphabet size. -/
theorem TM_define_keeps (m0 m m1 : TM) (S r a0 s a1 : Nat) (mo : Bool)
    (h : TM_define m r a0 s a1 mo = some m1) (hs : s ≤ S) (ha : a1 < m0.n)
    (hm : m.n = m0.n ∧ m.q = m0.q ∧ m.ok = m0.ok ∧ m.s.length = m0.s.length ∧
      m.a.length = m0.a.length ∧ m.m.length = m0.m.length ∧
      (∀ x, x ∈ m.s → x ≤ S) ∧ (∀ x, x ∈ m.a → x < m0.n)) :
    m1.n = m0.n ∧ m1.q = m0.q ∧ m1.ok = m0.ok ∧ m1.s.length = m0.s.length ∧
      m1.a.length = m0.a.length ∧ m1.m.length = m0.m.length ∧
      (∀ x, x ∈ m1.s → x ≤ S) ∧ (∀ x, x ∈ m1.a → x < m0.n) := by
  unfold TM_define at h
  split_ifs at h
  simp only [Option.some.injEq] at h
  subst h
  obtain ⟨h1, h2, h3, h4, h5, h6, h7, h8⟩ := hm
  refine ⟨h1, h2, h3, by simp [h4], by simp [h5], by simp [h6], ?_, ?_⟩
  · intro x hx
    rcases List.mem_or_eq_of_mem_set hx with hx | hx
    · exact h7 x hx
    · rw [hx]; exact hs
  · intro x hx
    rcases List.mem_or_eq_of_mem_set hx with hx | hx
    · exact h8 x hx
    · rw [hx]; exact ha

theorem rowOp_keeps (m0 m m1 : TM) (S : Nat) (afAny atAny : Bool) (a0 a1 : Nat) (mo : Bool)
    (r s : Nat) (h : rowOp afAny atAny a0 a1 mo m r s = some m1) (hs : s ≤ S)
    (ha0 : a0 < m0.n) (ha1 : a1 < m0.n)
    (hm : m.n = m0.n ∧ m.q = m0.q ∧ m.ok = m0.ok ∧ m.s.length = m0.s.length ∧
      m.a.length = m0.a.length ∧ m.m.length = m0.m.length ∧
      (∀ x, x ∈ m.s → x ≤ S) ∧ (∀ x, x ∈ m.a → x < m0.n)) :
    m1.n = m0.n ∧ m1.q = m0.q ∧ m1.ok = m0.ok ∧ m1.s.length = m0.s.length ∧
      m1.a.length = m0.a.length ∧ m1.m.length = m0.m.length ∧
      (∀ x, x ∈ m1.s → x ≤ S) ∧ (∀ x, x ∈ m1.a → x < m0.n) := by
  unfold rowOp at h
  cases afAny <;> cases atAny <;> simp only [] at h
  · exact TM_define_keeps m0 m m1 S r a0 s a1 mo h hs ha1 hm
  · exact TM_define_keeps m0 m m1 S r a0 s a0 mo h hs ha0 hm
  · unfold TM_define_forall at h
    exact foldlM_preserves _ _ _
      (fun b a b1 _ hb hP => TM_define_keeps m0 b b1 S r a s a1 mo hb hs ha1 hP) m m1 h hm
  · unfold TM_define_forall_readonly at h
    exact foldlM_preserves _ _ _
      (fun b a b1 ha hb hP => TM_define_keeps m0 b b1 S r a s a mo hb hs
        (by rw [← hm.1]; exact List.mem_range.1 ha) hP) m m1 h hm

theorem compileRule_keeps (states chars : TMDict) (r : TMRule) (m0 m m1 : TM)
    (h : compileRule states chars r m = some m1) (hn : chars.n < m0.n)
    (hm : m.n = m0.n ∧ m.q = m0.q ∧ m.ok = m0.ok ∧ m.s.length = m0.s.length ∧
      m.a.length = m0.a.length ∧ m.m.length = m0.m.length ∧
      (∀ x, x ∈ m.s → x ≤ states.n) ∧ (∀ x, x ∈ m.a → x < m0.n)) :
    m1.n = m0.n ∧ m1.q = m0.q ∧ m1.ok = m0.ok ∧ m1.s.length = m0.s.length ∧
      m1.a.length = m0.a.length ∧ m1.m.length = m0.m.length ∧
      (∀ x, x ∈ m1.s → x ≤ states.n) ∧ (∀ x, x ∈ m1.a → x < m0.n) := by
  rw [compileRule_eq_stateOp] at h
  have ha0 : TMDict_get chars r.a_from.str < m0.n :=
    lt_of_le_of_lt (TMDict_get_le _ _) hn
  have ha1 : TMDict_get chars r.a_to.str < m0.n :=
    lt_of_le_of_lt (TMDict_get_le _ _) hn
  unfold stateOp at h
  cases hsf : r.s_from.any <;> cases hst : r.s_to.any <;> simp only [hsf, hst] at h
  · exact rowOp_keeps m0 m m1 states.n _ _ _ _ _ _ _ h (TMDict_get_le _ _) ha0 ha1 hm
  · exact rowOp_keeps m0 m m1 states.n _ _ _ _ _ _ _ h (TMDict_get_le _ _) ha0 ha1 hm
  · exact foldlM_preserves _ _ _
      (fun b i b1 _ hb hP => rowOp_keeps m0 b b1 states.n _ _ _ _ _ _ _ hb
        (TMDict_get_le _ _) ha0 ha1 hP) m m1 h hm
  · exact foldlM_preserves _ _ _
      (fun b i b1 hi hb hP => rowOp_keeps m0 b b1 states.n _ _ _ _ _ _ _ hb
        (by have := List.mem_range.1 hi; omega) ha0 ha1 hP) m m1 h hm

theorem markFinal_keeps (states : TMDict) (m : TM) (f : TMRuleToken) :
    (markFinal states m f).n = m.n ∧ (markFinal states m f).q = m.q ∧
    (markFinal states m f).s = m.s ∧ (markFinal states m f).a = m.a ∧
    (markFinal states m f).m = m.m ∧ (markFinal states m f).ok.length = m.ok.length := by
  unfold markFinal
  split_ifs
  · exact ⟨rfl, rfl, rfl, rfl, rfl, by simp⟩
  · exact ⟨rfl, rfl, rfl, rfl, rfl, rfl⟩

/-- The final flags after the loop `Mark final states as final`. -/
theorem markFinal_flags (states : TMDict) (fs : List TMRuleToken) :
    ∀ (m : TM) (j : Nat), j < m.ok.length →
      (∀ f, f ∈ fs → TMDict_get states f.str - 1 < m.ok.length) →
      ((fs.foldl (markFinal states) m).ok.getD j false = true ↔
        (m.ok.getD j false = true ∨ ∃ f, f ∈ fs ∧ TMDict_get states f.str = j + 1)) := by
  induction fs with
  | nil => intro m j _ _; simp
  | cons f fs ih =>
    intro m j hj hlen
    simp only [List.foldl_cons]
    have hk := markFinal_keeps states m f
    rw [ih (markFinal states m f) j (by rw [hk.2.2.2.2.2]; exact hj)
      (fun g hg => by rw [hk.2.2.2.2.2]; exact hlen g (List.mem_cons_of_mem _ hg))]
    have hone : (markFinal states m f).ok.getD j false = true ↔
        (m.ok.getD j false = true ∨ TMDict_get states f.str = j + 1) := by
      unfold markFinal
      split_ifs with hz
      · by_cases he : TMDict_get states f.str - 1 = j
        · simp only []
          rw [he, getD_set_of_lt _ _ _ _ _ hj, if_pos rfl]
          simp only [true_iff]
          right
          omega
        · simp only []
          rw [getD_set_ne _ _ _ _ _ he]
          constructor
          · intro h; exact Or.inl h
          · rintro (h | h)
            · exact h
            · omega
      · constructor
        · intro h; exact Or.inl h
        · rintro (h | h)
          · exact h
          · omega
    rw [hone]
    constructor
    · rintro ((h | h) | ⟨g, hg, h⟩)
      · exact Or.inl h
      · exact Or.inr ⟨f, List.mem_cons_self _ _, h⟩
      · exact Or.inr ⟨g, List.mem_cons_of_mem _ hg, h⟩
    · rintro (h | ⟨g, hg, h⟩)
      · exact Or.inl (Or.inl h)
      · rcases List.mem_cons.1 hg with rfl | hg
        · exact Or.inl (Or.inr h)
        · exact Or.inr ⟨g, hg, h⟩

/-! ## Final flags -/

theorem TMDict_put_nodup (d : TMDict) (s : String) (h : d.tok.Nodup) :
    (TMDict_put d s).2.tok.Nodup := by
  rw [TMDict_put_tok]
  split_ifs with hs
  · exact h
  · exact List.Nodup.append h (List.nodup_singleton s)
      (by simpa [List.disjoint_singleton] using hs)

theorem put_copy_nodup (d : TMDict) (tok : TMRuleToken) (h : d.tok.Nodup) :
    (TMDict_put_copy_if_unique d tok).tok.Nodup := by
  unfold TMDict_put_copy_if_unique
  split_ifs
  · exact TMDict_put_nodup d _ h
  · exact h

theorem foldl_nodup {α : Type} (f : TMDict → α → TMDict)
    (hf : ∀ d a, d.tok.Nodup → (f d a).tok.Nodup) (l : List α) :
    ∀ d : TMDict, d.tok.Nodup → (l.foldl f d).tok.Nodup := by
  induction l with
  | nil => intro d h; exact h
  | cons a l ih => intro d h; exact ih (f d a) (hf d a h)

theorem compileStates_nodup (p : TMProgram) : (compileStates p).tok.Nodup := by
  unfold compileStates
  apply foldl_nodup _ (fun d a h => put_copy_nodup d a h)
  apply foldl_nodup _ (fun d a h => put_copy_nodup _ _ (put_copy_nodup d _ h))
  exact put_copy_nodup _ _ (by simp [TMDict_init])

theorem parseFinals_str : ∀ (names : List String) (toks : List TMRuleToken),
    parseFinals names = some toks → toks.map (fun t => t.str) = names := by
  intro names
  induction names with
  | nil =>
    intro toks h
    simp only [parseFinals, Option.some.injEq] at h
    subst h
    rfl
  | cons name names ih =>
    intro toks h
    simp only [parseFinals] at h
    cases h1 : parseStateName name with
    | none => simp [h1] at h
    | some t1 =>
      cases h2 : parseFinals names with
      | none => simp [h1, h2] at h
      | some ts =>
        simp only [h1, h2, Option.some.injEq] at h
        subst h
        obtain ⟨e, _⟩ := parseStateName_some name t1 h1
        simp only [List.map_cons, ih ts h2, e]

/-- Every final state of an accepted program is a registered state. -/
theorem compileStates_final (p : TMProgram) (f : TMRuleToken) (hf : f ∈ p.final_states)
    (h1 : f.any = false) (h2 : f.null = false) : f.str ∈ (compileStates p).tok := by
  unfold compileStates
  exact foldl_tok_mem TMDict_put_copy_if_unique (fun d a x h => put_copy_mono d a x h)
    (fun f => f.str) (fun f => f.any = false ∧ f.null = false)
    (fun d a hP => put_copy_mem d a hP.1 hP.2) p.final_states _ f hf ⟨h1, h2⟩

/-- The executable of an accepted program: the rule loop keeps the sizes and
the final flags of the machine it starts from. -/
theorem compile_machine (p : TMProgram) (fast : Bool) (e : TMExecutable)
    (h : TMProgram_compile p fast = some e) :
    e.states = compileStates p ∧ e.chars = compileChars p ∧
    e.tape = compileTape (compileChars p) p.entries fast ∧
    e.machine.n = (compileChars p).n + 1 ∧ e.machine.q = (compileStates p).n + 1 ∧
    e.machine.ok = (p.final_states.foldl (markFinal (compileStates p))
      (TM_init ((compileChars p).n + 1) ((compileStates p).n + 1))).ok ∧
    e.machine.ok.length = (compileStates p).n + 1 ∧
    e.machine.s.length = ((compileChars p).n + 1) * ((compileStates p).n + 1) ∧
    e.machine.a.length = ((compileChars p).n + 1) * ((compileStates p).n + 1) ∧
    e.machine.m.length = ((compileChars p).n + 1) * ((compileStates p).n + 1) ∧
    (∀ x, x ∈ e.machine.s → x ≤ (compileStates p).n) ∧
    (∀ x, x ∈ e.machine.a → x < (compileChars p).n + 1) := by
  unfold TMProgram_compile at h
  simp only [] at h
  cases hm : p.rules.foldlM (fun m r => compileRule (compileStates p) (compileChars p) r m)
      (p.final_states.foldl (markFinal (compileStates p))
        (TM_init ((compileChars p).n + 1) ((compileStates p).n + 1))) with
  | none => rw [hm] at h; simp at h
  | some m2 =>
    rw [hm] at h
    simp only [Option.map_some', Option.some.injEq] at h
    subst h
    obtain ⟨t1, t2, t3, t4, t5⟩ := markFinal_tables (compileStates p) p.final_states
      (TM_init ((compileChars p).n + 1) ((compileStates p).n + 1))
    have hlen : ∀ (fs : List TMRuleToken) (m : TM),
        (fs.foldl (markFinal (compileStates p)) m).ok.length = m.ok.length := by
      intro fs
      induction fs with
      | nil => intro m; rfl
      | cons f fs ih =>
        intro m
        simp only [List.foldl_cons]
        rw [ih, (markFinal_keeps _ m f).2.2.2.2.2]
    have key := foldlM_preserves
      (fun m : TM => m.n = (p.final_states.foldl (markFinal (compileStates p))
          (TM_init ((compileChars p).n + 1) ((compileStates p).n + 1))).n ∧
        m.q = (p.final_states.foldl (markFinal (compileStates p))
          (TM_init ((compileChars p).n + 1) ((compileStates p).n + 1))).q ∧
        m.ok = (p.final_states.foldl (markFinal (compileStates p))
          (TM_init ((compileChars p).n + 1) ((compileStates p).n + 1))).ok ∧
        m.s.length = (p.final_states.foldl (markFinal (compileStates p))
          (TM_init ((compileChars p).n + 1) ((compileStates p).n + 1))).s.length ∧
        m.a.length = (p.final_states.foldl (markFinal (compileStates p))
          (TM_init ((compileChars p).n + 1) ((compileStates p).n + 1))).a.length ∧
        m.m.length = (p.final_states.foldl (markFinal (compileStates p))
          (TM_init ((compileChars p).n + 1) ((compileStates p).n + 1))).m.length ∧
        (∀ x, x ∈ m.s → x ≤ (compileStates p).n) ∧
        (∀ x, x ∈ m.a → x < (p.final_states.foldl (markFinal (compileStates p))
          (TM_init ((compileChars p).n + 1) ((compileStates p).n + 1))).n))
      (fun m r => compileRule (compileStates p) (compileChars p) r m) p.rules
      (fun b r b1 _ hb hP => compileRule_keeps (compileStates p) (compileChars p) r _ b b1 hb
        (by rw [t1]; simp [TM_init]) hP)
      _ m2 hm
      ⟨rfl, rfl, rfl, rfl, rfl, rfl,
        by
          intro x hx
          rw [t3] at hx
          simp only [TM_init, zalloc64, List.mem_replicate] at hx
          omega,
        by
          intro x hx
          rw [t4] at hx
          simp only [TM_init, zalloc64, List.mem_replicate] at hx
          rw [t1]
          simp only [TM_init]
          omega⟩
    obtain ⟨k1, k2, k3, k4, k5, k6, k7, k8⟩ := key
    refine ⟨rfl, rfl, rfl, ?_, ?_, k3, ?_, ?_, ?_, ?_, k7, ?_⟩
    · show m2.n = _
      rw [k1, t1]; rfl
    · show m2.q = _
      rw [k2, t2]; rfl
    · show m2.ok.length = _
      rw [k3, hlen]
      simp [TM_init, zalloc2]
    · show m2.s.length = _
      rw [k4, t3]
      simp [TM_init, zalloc64]
    · show m2.a.length = _
      rw [k5, t4]
      simp [TM_init, zalloc64]
    · show m2.m.length = _
      rw [k6, t5]
      simp [TM_init, zalloc2]
    · intro x hx
      have := k8 x hx
      rw [t1] at this
      exact this

/-- Claim C38: final flags match the declaration.  For every program the parser
accepts, `TMProgram_compile` returns an executable in which, for every state
code `k` in `1 .. number of states`, `ok[k - 1]` is true iff the token of `k` is
listed in the final-state line; and every listed final state is a registered
state (with a code in that range, and flagged), whether or not a rule mentions
it. -/
theorem final_flags_match (start : String) (finals : List String) (rules : List RuleLine)
    (tape : List TapeLine) (p : TMProgram) (fast : Bool)
    (hp : TMProgram_parse start finals rules tape = some p) :
    ∃ e, TMProgram_compile p fast = some e ∧ e.states = compileStates p ∧
      (∀ k, 1 ≤ k → k ≤ e.states.n →
        (e.machine.ok.getD (k - 1) false = true ↔
          ∃ s, TMDict_at e.states k = some s ∧ s ∈ finals)) ∧
      (∀ s, s ∈ finals →
        s ∈ e.states.tok ∧ 1 ≤ TMDict_get e.states s ∧ TMDict_get e.states s ≤ e.states.n ∧
        e.machine.ok.getD (TMDict_get e.states s - 1) false = true) := by
  obtain ⟨_, hf, hrules, _⟩ := TMProgram_parse_some start finals rules tape p hp
  obtain ⟨e, he, _, hst, _⟩ := TMProgram_compile_some p fast (parseRules_mem rules p.rules hrules)
  obtain ⟨_, _, _, _, _, hok, hoklen, _⟩ := compile_machine p fast e he
  have hnd := compileStates_nodup p
  have hstr := parseFinals_str finals p.final_states hf
  -- every final token is a registered name other than `null`
  have hfin : ∀ f, f ∈ p.final_states →
      f.str ∈ finals ∧ f.str ≠ "null" ∧ f.str ∈ (compileStates p).tok := by
    intro f hfm
    obtain ⟨name, hn⟩ := parseFinals_mem finals p.final_states hf f hfm
    obtain ⟨e1, hnull, _⟩ := parseStateName_some name f hn
    refine ⟨?_, ?_, ?_⟩
    · rw [← hstr]
      exact List.mem_map.2 ⟨f, hfm, rfl⟩
    · rw [e1]; exact hnull
    · exact compileStates_final p f hfm (by rw [e1]) (by rw [e1])
  have hflag : ∀ j, j < (compileStates p).n + 1 →
      (e.machine.ok.getD j false = true ↔
        ∃ f, f ∈ p.final_states ∧ TMDict_get (compileStates p) f.str = j + 1) := by
    intro j hj
    rw [hok, markFinal_flags (compileStates p) p.final_states _ j
      (by simp [TM_init, zalloc2]; omega)
      (fun f _ => by
        have := TMDict_get_le (compileStates p) f.str
        simp [TM_init, zalloc2]
        omega)]
    have : (TM_init ((compileChars p).n + 1) ((compileStates p).n + 1)).ok.getD j false
        = false := by
      simp only [TM_init, zalloc2, List.getD_eq_getElem?_getD, List.getElem?_replicate]
      split_ifs
      rfl
    rw [this]
    simp
  refine ⟨e, he, hst, ?_, ?_⟩
  · intro k hk1 hk2
    rw [hst] at hk2 ⊢
    rw [hflag (k - 1) (by omega)]
    constructor
    · rintro ⟨f, hfm, hget⟩
      obtain ⟨a1, a2, a3⟩ := hfin f hfm
      rw [TMDict_get_present _ _ a3, if_neg a2] at hget
      refine ⟨f.str, ?_, a1⟩
      have := TMDict_at_index (compileStates p) f.str a3
      rw [hget] at this
      rw [← this]
      congr 1
      omega
    · rintro ⟨s, hat, hs⟩
      rw [← hstr] at hs
      obtain ⟨f, hfm, rfl⟩ := List.mem_map.1 hs
      obtain ⟨a1, a2, a3⟩ := hfin f hfm
      refine ⟨f, hfm, ?_⟩
      obtain ⟨s1, hs1, _, hidx⟩ := TMDict_at_code (compileStates p) hnd k hk1 hk2
      rw [hat] at hs1
      simp only [Option.some.injEq] at hs1
      rw [TMDict_get_present _ _ a3, if_neg a2, hs1, hidx]
      omega
  · intro s hs
    rw [← hstr] at hs
    obtain ⟨f, hfm, rfl⟩ := List.mem_map.1 hs
    obtain ⟨a1, a2, a3⟩ := hfin f hfm
    have hpos := TMDict_get_pos (compileStates p) f.str a3 a2
    have hle := TMDict_get_le (compileStates p) f.str
    rw [hst]
    refine ⟨a3, hpos, hle, ?_⟩
    rw [hflag (TMDict_get (compileStates p) f.str - 1) (by omega)]
    exact ⟨f, hfm, by omega⟩

/-- Claim C38 at the program with the start state `A` and the final state `A`:
the code 1 is flagged final. -/
theorem final_flags_match_witness :
    ∃ e, TMProgram_compile finalStartProgram false = some e ∧
      e.machine.ok.getD 0 false = true ∧ "A" ∈ e.states.tok := by
  obtain ⟨e, h1, h2, h3, h4⟩ :=
    final_flags_match "A" ["A"] [] [] finalStartProgram false rfl
  have h := h4 "A" (by simp)
  refine ⟨e, h1, ?_, h.1⟩
  have hg : TMDict_get e.states "A" = 1 := by rw [h2]; decide
  have := h.2.2.2
  rw [hg] at this
  exact this

/-! ## Tape cells and pattern values below the alphabet size -/

theorem cellRead_below (mem : List Block) (n k : Nat) (h : CellsBelow mem n) (hn : 0 < n) :
    cellRead mem k < n := by
  unfold cellRead
  rw [List.getD_eq_getElem?_getD]
  cases hg : mem[k / TM_BLOCK_SIZE]? with
  | none => exact hn
  | some b => exact h b (List.getElem?_mem hg) _

theorem patternAt_below (pat : TMTapePattern) (n : Nat) (p : Int)
    (h : ∀ x, x ∈ pat.data → x < n) (hn : 0 < n) : patternAt pat p < n := by
  unfold patternAt
  rw [List.getD_eq_getElem?_getD]
  cases hg : pat.data[(modulo (toI64 (p - pat.start)) pat.n).toNat]? with
  | none => exact hn
  | some x => exact h x (List.getElem?_mem hg)

theorem read_at_below (t : TMTape) (n : Nat) (h : TapeBelow t n) (hn : 0 < n) (p : Int) :
    TMTape_read_at t p < n := by
  unfold TMTape_read_at TMTape_undefined
  split_ifs
  · exact patternAt_below _ n p h.1 hn
  · exact patternAt_below _ n p h.2.1 hn
  · exact hn
  · exact cellRead_below _ n _ h.2.2.1 hn
  · exact cellRead_below _ n _ h.2.2.2 hn

theorem TMTape_read_below (t : TMTape) (n : Nat) (h : TapeBelow t n) (hn : 0 < n) :
    TMTape_read t < n := by
  unfold TMTape_read
  split_ifs
  · exact cellRead_below _ n _ h.2.2.1 hn
  · exact cellRead_below _ n _ h.2.2.2 hn

theorem cellsBelow_append (mem : List Block) (b : Block) (n : Nat) (h : CellsBelow mem n)
    (hb : ∀ j, b j < n) : CellsBelow (mem ++ [b]) n := by
  intro c hc j
  rcases List.mem_append.1 hc with hc | hc
  · exact h c hc j
  · rw [List.mem_singleton.1 hc]; exact hb j

theorem alloc_below (t : TMTape) (n : Nat) (right : Bool) (h : TapeBelow t n) (hn : 0 < n) :
    TapeBelow (TMTape_alloc t right) n := by
  unfold TMTape_alloc
  simp only []
  cases right
  · simp only [Bool.false_eq_true, if_false]
    exact ⟨h.1, h.2.1, cellsBelow_append _ _ n h.2.2.1 (fun j => read_at_below t n h hn _),
      h.2.2.2⟩
  · simp only [if_true]
    exact ⟨h.1, h.2.1, h.2.2.1,
      cellsBelow_append _ _ n h.2.2.2 (fun j => read_at_below t n h hn _)⟩

theorem growLeft_below (n : Nat) (hn : 0 < n) (fuel : Nat) : ∀ (t : TMTape) (pos : Int),
    TapeBelow t n → TapeBelow (growLeft fuel t pos) n := by
  induction fuel with
  | zero => intro t pos h; exact h
  | succ fuel ih =>
    intro t pos h
    unfold growLeft
    split_ifs
    · exact ih _ _ (alloc_below t n false h hn)
    · exact h

theorem growRight_below (n : Nat) (hn : 0 < n) (fuel : Nat) : ∀ (t : TMTape) (pos : Int),
    TapeBelow t n → TapeBelow (growRight fuel t pos) n := by
  induction fuel with
  | zero => intro t pos h; exact h
  | succ fuel ih =>
    intro t pos h
    unfold growRight
    split_ifs
    · exact ih _ _ (alloc_below t n true h hn)
    · exact h

theorem cellWrite_below (mem : List Block) (n k sym : Nat) (h : CellsBelow mem n)
    (hs : sym < n) (hn : 0 < n) : CellsBelow (cellWrite mem k sym) n := by
  intro b hb j
  unfold cellWrite at hb
  rcases List.mem_or_eq_of_mem_set hb with hb | hb
  · exact h b hb j
  · rw [hb]
    unfold Block.set
    split_ifs
    · exact hs
    · rw [List.getD_eq_getElem?_getD]
      cases hg : mem[k / TM_BLOCK_SIZE]? with
      | none => exact hn
      | some c => exact h c (List.getElem?_mem hg) j

theorem write_at_below (t : TMTape) (n : Nat) (pos : Int) (sym : Nat) (h : TapeBelow t n)
    (hs : sym < n) (hn : 0 < n) : TapeBelow (TMTape_write_at t pos sym) n := by
  have h2 := growRight_below n hn (pos + 1).toNat _ pos (growLeft_below n hn (-pos).toNat t pos h)
  unfold TMTape_write_at
  simp only []
  split_ifs
  · exact ⟨h2.1, h2.2.1, cellWrite_below _ n _ sym h2.2.2.1 hs hn, h2.2.2.2⟩
  · exact ⟨h2.1, h2.2.1, h2.2.2.1, cellWrite_below _ n _ sym h2.2.2.2 hs hn⟩

theorem TMTape_write_below (t : TMTape) (n : Nat) (sym : Nat) (h : TapeBelow t n)
    (hs : sym < n) (hn : 0 < n) : TapeBelow (TMTape_write t sym) n := by
  unfold TMTape_write
  split_ifs
  · exact ⟨h.1, h.2.1, cellWrite_below _ n _ sym h.2.2.1 hs hn, h.2.2.2⟩
  · exact ⟨h.1, h.2.1, h.2.2.1, cellWrite_below _ n _ sym h.2.2.2 hs hn⟩

theorem cellsBelow_dropLast (mem : List Block) (n : Nat) (h : CellsBelow mem n) :
    CellsBelow mem.dropLast n :=
  fun b hb j => h b (List.dropLast_subset mem hb) j

theorem step_below (t : TMTape) (n : Nat) (right : Bool) (h : TapeBelow t n) (hn : 0 < n) :
    TapeBelow (TMTape_step t right) n := by
  rw [TMTape_step_eq]
  have hb : ∀ u : TMTape, TapeBelow u n → TapeBelow (compactBackward u) n := by
    intro u hu
    unfold compactBackward
    split_ifs
    · exact ⟨hu.1, hu.2.1, cellsBelow_dropLast _ n hu.2.2.1, hu.2.2.2⟩
    · exact hu
    · exact hu
  have hf : ∀ u : TMTape, TapeBelow u n → TapeBelow (compactForward u) n := by
    intro u hu
    unfold compactForward
    split_ifs
    · exact ⟨hu.1, hu.2.1, hu.2.2.1, cellsBelow_dropLast _ n hu.2.2.2⟩
    · exact hu
    · exact hu
  have hs : ∀ (u : TMTape) (x : Int), TapeBelow u n → TapeBelow (setPos u x) n :=
    fun u x hu => hu
  cases right
  · simp only [Bool.false_eq_true, if_false]
    apply hf
    apply hs
    split_ifs
    · exact alloc_below t n false h hn
    · exact h
  · simp only [if_true]
    apply hb
    apply hs
    split_ifs
    · exact alloc_below t n true h hn
    · exact h

theorem patternData_below (chars : TMDict) (e : TMProgramTapeEntry) (n : Nat)
    (hn : chars.n < n) : ∀ x, x ∈ patternData chars e → x < n := by
  intro x hx
  unfold patternData at hx
  obtain ⟨j, _, rfl⟩ := List.mem_map.1 hx
  exact lt_of_le_of_lt (TMDict_get_le _ _) hn

theorem foldl_below {α : Type} (n : Nat) (f : TMTape → α → TMTape)
    (hf : ∀ t a, TapeBelow t n → TapeBelow (f t a) n) (l : List α) :
    ∀ t : TMTape, TapeBelow t n → TapeBelow (l.foldl f t) n := by
  induction l with
  | nil => intro t h; exact h
  | cons a l ih => intro t h; exact ih (f t a) (hf t a h)

/-- Every pattern value and every cell of the tape `TMProgram_compile` builds is
the code of a symbol. -/
theorem compileTape_below (chars : TMDict) (entries : List TMProgramTapeEntry) (fast : Bool)
    (n : Nat) (hn : chars.n < n) : TapeBelow (compileTape chars entries fast) n := by
  have hn0 : 0 < n := by omega
  unfold compileTape
  apply foldl_below n (writeEntry chars)
  · intro t e ht
    unfold writeEntry
    split_ifs
    · exact foldl_below n _
        (fun tt k htt => write_at_below tt n _ _ htt
          (lt_of_le_of_lt (TMDict_get_le _ _) hn) hn0) _ t ht
    · exact ht
  · have hreg : TapeBelow (entries.foldl (registerPattern chars) (TMTape_init fast)) n := by
      apply foldl_below n (registerPattern chars)
      · intro t e ht
        unfold registerPattern
        split_ifs
        · exact ⟨patternData_below chars e n hn, ht.2.1, ht.2.2.1, ht.2.2.2⟩
        · exact ⟨ht.1, patternData_below chars e n hn, ht.2.2.1, ht.2.2.2⟩
        · exact ht
      · refine ⟨?_, ?_, ?_, ?_⟩ <;> intro x hx <;> simp [TMTape_init] at hx
    unfold TMTape_prepare
    apply alloc_below _ n true _ hn0
    exact ⟨hreg.1, hreg.2.1, fun b hb => by simp at hb, fun b hb => by simp at hb⟩

theorem getD_of_forall {α : Type} (l : List α) (P : α → Prop) (i : Nat) (d : α)
    (h : ∀ x, x ∈ l → P x) (hd : P d) : P (l.getD i d) := by
  rw [List.getD_eq_getElem?_getD]
  cases hg : l[i]? with
  | none => exact hd
  | some x => exact h x (List.getElem?_mem hg)

theorem TM_step_bounded (m : TM) (S : Nat) (t : TMTape) (h : ExecBounded m S t) :
    ExecBounded m S (TM_step m t).2 := by
  obtain ⟨h1, h2, h3, h4, h5, h6, h7, h8, h9, h10, h11, h12, h13⟩ := h
  unfold TM_step
  split_ifs
  · exact ⟨h1, h2, h3, h4, h5, h6, h7, h8, h9, h10, h11, h12, h13⟩
  · simp only []
    have hnew : m.a.getD (tableIndex m t.state (TMTape_read t)) 0 < m.n :=
      getD_of_forall m.a (fun x => x < m.n) _ 0 h8 h1
    have hst : m.s.getD (tableIndex m t.state (TMTape_read t)) 0 ≤ S :=
      getD_of_forall m.s (fun x => x ≤ S) _ 0 h7 (Nat.zero_le _)
    have hb := step_below _ m.n (m.m.getD (tableIndex m t.state (TMTape_read t)) false)
      (TMTape_write_below { t with state := m.s.getD (tableIndex m t.state (TMTape_read t)) 0 }
        m.n (m.a.getD (tableIndex m t.state (TMTape_read t)) 0) ⟨h9, h10, h11, h12⟩ hnew h1) h1
    refine ⟨h1, h2, h3, h4, h5, h6, h7, h8, hb.1, hb.2.1, hb.2.2.1, hb.2.2.2, ?_⟩
    rw [TMTape_step_state, TMTape_write_state]
    exact hst

theorem iterate_bounded (m : TM) (S : Nat) (k : Nat) : ∀ t : TMTape, ExecBounded m S t →
    ExecBounded m S ((stepTape m)^[k] t) := by
  induction k with
  | zero => intro t h; exact h
  | succ k ih =>
    intro t h
    rw [Function.iterate_succ_apply]
    exact ih _ (TM_step_bounded m S t h)

theorem index_bound (n q S state sym : Nat) (hq : q = S + 1) (h1 : state ≠ 0) (h2 : state ≤ S)
    (h3 : sym < n) : (state - 1) * n + sym < n * q := by
  have e : (state - 1) * n + n = state * n := by
    have : state = state - 1 + 1 := by omega
    nth_rewrite 2 [this]
    rw [Nat.add_mul, Nat.one_mul]
  have h4 : state * n ≤ S * n := Nat.mul_le_mul_right _ h2
  have h5 : n * q = S * n + n := by
    rw [hq, Nat.mul_add, Nat.mul_one, Nat.mul_comm]
  omega

/-- Claim C37: table lookups of a compiled executable are always in bounds.
For every program the parser accepts, `TMProgram_compile` returns an executable
with `n = chars.n + 1` and `q = states.n + 1` whose tables have `n * q` entries
and whose final flags have `q` entries, in which every next-state entry is at
most the number of registered states, every write-symbol entry, every
boundary-pattern value and every materialised tape cell is below `n`, and the
state of the tape is at most the number of registered states; `TM_step`
preserves these bounds, so they hold after any number of steps; and under them
the symbol under the head is below `n`, the index `(state - 1) * n + symbol` is
below `n * q`, and the final-flag index `state - 1` is below `q`. -/
theorem lookups_in_bounds (start : String) (finals : List String) (rules : List RuleLine)
    (tape : List TapeLine) (p : TMProgram) (fast : Bool)
    (hp : TMProgram_parse start finals rules tape = some p) :
    ∃ e, TMProgram_compile p fast = some e ∧
      e.states = compileStates p ∧ e.chars = compileChars p ∧
      e.machine.n = e.chars.n + 1 ∧ e.machine.q = e.states.n + 1 ∧
      ExecBounded e.machine e.states.n e.tape ∧
      (∀ t, ExecBounded e.machine e.states.n t →
        ExecBounded e.machine e.states.n (TM_step e.machine t).2 ∧
        (t.state ≠ 0 →
          t.state - 1 < e.machine.q ∧ t.state - 1 < e.machine.ok.length ∧
          TMTape_read t < e.machine.n ∧
          (t.state - 1) * e.machine.n + TMTape_read t < e.machine.n * e.machine.q ∧
          (t.state - 1) * e.machine.n + TMTape_read t < e.machine.s.length ∧
          (t.state - 1) * e.machine.n + TMTape_read t < e.machine.a.length ∧
          (t.state - 1) * e.machine.n + TMTape_read t < e.machine.m.length)) ∧
      ∀ k, ExecBounded e.machine e.states.n ((stepTape e.machine)^[k] e.tape) := by
  obtain ⟨hs, _, hrules, _⟩ := TMProgram_parse_some start finals rules tape p hp
  obtain ⟨hst, _⟩ := parseStateName_some start p.start_state hs
  obtain ⟨e, he, _⟩ := TMProgram_compile_some p fast (parseRules_mem rules p.rules hrules)
  obtain ⟨c1, c2, c3, c4, c5, _, c7, c8, c9, c10, c11, c12⟩ := compile_machine p fast e he
  obtain ⟨rest, hrest⟩ := compileStates_head p start hst
  have hS : 1 ≤ (compileStates p).n := by
    simp only [TMDict.n, hrest, List.length_cons]
    omega
  have hpos := compileTape_pos_state (compileChars p) p.entries fast
  have hb := compileTape_below (compileChars p) p.entries fast ((compileChars p).n + 1)
    (Nat.lt_succ_self _)
  have h0 : ExecBounded e.machine e.states.n e.tape := by
    rw [c1, c3]
    refine ⟨by omega, c5, by rw [c7, c5], by rw [c8, c4, c5], by rw [c9, c4, c5],
      by rw [c10, c4, c5], c11, by rw [c4]; exact c12, ?_, ?_, ?_, ?_, ?_⟩
    · rw [c4]; exact hb.1
    · rw [c4]; exact hb.2.1
    · rw [c4]; exact hb.2.2.1
    · rw [c4]; exact hb.2.2.2
    · rw [hpos.2]; exact hS
  refine ⟨e, he, c1, c2, by rw [c4, c2], by rw [c5, c1], h0, ?_,
    fun k => iterate_bounded _ _ k _ h0⟩
  intro t ht
  refine ⟨TM_step_bounded _ _ t ht, fun hne => ?_⟩
  obtain ⟨h1, h2, h3, h4, h5, h6, _, _, h9, h10, h11, h12, h13⟩ := ht
  have hr : TMTape_read t < e.machine.n :=
    TMTape_read_below t _ ⟨h9, h10, h11, h12⟩ h1
  have hi := index_bound e.machine.n e.machine.q e.states.n t.state (TMTape_read t) h2 hne h13 hr
  refine ⟨by omega, by omega, hr, hi, by rw [h4]; exact hi, by rw [h5]; exact hi,
    by rw [h6]; exact hi⟩

/-- Claim C37 at the program with the rules `A * -> B a r` and `B * -> A a l`:
the bounds hold for the compiled tape and after four steps. -/
theorem lookups_in_bounds_witness :
    ∃ e, TMProgram_compile pingPongProgram false = some e ∧
      ExecBounded e.machine e.states.n e.tape ∧
      ExecBounded e.machine e.states.n ((stepTape e.machine)^[4] e.tape) := by
  obtain ⟨e, h1, _, _, _, _, h6, _, h8⟩ :=
    lookups_in_bounds "A" [] [⟨"A", "*", "B", "a", "r"⟩, ⟨"B", "*", "A", "a", "l"⟩] []
      pingPongProgram false rfl
  exact ⟨e, h1, h6, h8 4⟩

/-! ## The example program with the blank written `null` -/

set_option maxRecDepth 100000 in
/-- The example with the rules `A null -> B a r` and `B null -> A a l` on an
empty tape: the parser accepts it, and `TM_run_restricted` with budget 4 returns
the undefined state 0 with the head at `-1`; the third step, taken in the state
`A` on the symbol `a` that no rule addresses, has written blank into cell 0 and
moved left, so cell 0 reads blank and cell 1 reads `a`. -/
theorem example_with_null_rules :
    TMProgram_parse "A" [] [⟨"A", "null", "B", "a", "r"⟩, ⟨"B", "null", "A", "a", "l"⟩] []
      = some blankPingPongProgram ∧
    (TMProgram_compile blankPingPongProgram false).map
        (fun e => (e.states.tok, e.chars.tok,
          (TM_run_restricted e.machine e.tape 4).1,
          (TM_run_restricted e.machine e.tape 4).2.pos,
          TMTape_read_at (TM_run_restricted e.machine e.tape 4).2 (-1),
          TMTape_read_at (TM_run_restricted e.machine e.tape 4).2 0,
          TMTape_read_at (TM_run_restricted e.machine e.tape 4).2 1,
          TMTape_read_at ((stepTape e.machine)^[2] e.tape) 0,
          ((stepTape e.machine)^[2] e.tape).pos,
          ((stepTape e.machine)^[2] e.tape).state))
      = some (["A", "B"], ["a"], 0, -1, 0, 0, 1, 1, 0, 1) := by
  refine ⟨rfl, rfl⟩

/-! ## A declaration that covers an older one -/

/-- Claim C40, evaluated where the code departs from it.  The lines `0~5: a` and
`0~5: b` are finite periodic entries, both accepted, and the second does not lie
strictly inside the first; the last declaration covering the positions `0 .. 5`
is the second, so the claim says they read `b`.  The resolving loop finds the
first entry covered by the second and takes the delete branch: `list_del` frees
the node the loop stands on and the loop takes `node->next` from it, so the
parser does not return the entry of the second line and no tape is compiled. -/
theorem covered_entry_frees_node :
    (∀ l, l ∈ coveredLines → FiniteLine l) ∧
    (∀ l, l ∈ coveredLines → ∃ e, newEntry l = .ok e) ∧
    NoStrictNesting coveredLines ∧
    resolveStep ⟨0, 5, false, false, 0, ["b"]⟩ ⟨0, 5, false, false, 0, ["a"]⟩ = .del ∧
    TMProgram_parse_tape_file coveredLines = .error .freedNode ∧
    TMProgram_parse_tape_file coveredLines ≠ .ok [⟨0, 5, false, false, 0, ["b"]⟩] ∧
    (TMProgram_parse "A" [] [] coveredLines).isNone = true := by
  refine ⟨?_, ?_, ?_, rfl, rfl, ?_, rfl⟩
  · intro l hl
    simp only [coveredLines, List.mem_cons, List.mem_singleton, List.not_mem_nil,
      or_false] at hl
    rcases hl with rfl | rfl <;> exact trivial
  · intro l hl
    simp only [coveredLines, List.mem_cons, List.mem_singleton, List.not_mem_nil,
      or_false] at hl
    rcases hl with rfl | rfl <;> exact ⟨_, rfl⟩
  · simp [NoStrictNesting, coveredLines, lineEntry, TMProgramTapeEntry.finite]
  · intro h
    have e : TMProgram_parse_tape_file coveredLines = .error .freedNode := rfl
    rw [e] at h
    cases h

end TMSim
